import Mathlib

/-!
Shallow embedding of the `dream` tagged-object index (src/src/lib.rs) and a
verification of its natural-language specification.

Modelling conventions:
* A 16-byte `Id` is compared lexicographically as an unsigned byte array, so
  the type of identifiers is order-isomorphic to an initial segment of `Nat`;
  we model `Id` as `Nat`, with `0` playing the role of `Id::default()`
  (sixteen zero bytes, the minimum).
* Each `lawn` table is modelled as an association list strictly sorted by key
  (the store guarantees ordered iteration from an inclusive lower bound);
  `iter(Bound::Included lb)` is `dropWhile (key < lb)`.
* `u32` counters are modelled as `Nat`; the source's `x - 1` on a counter that
  is `0` or missing is a debug-build subtraction-overflow panic, modelled as
  the distinct error `Err.overflowAbort` (the library's own error path uses
  `anyhow!`, modelled as `Err.integrityFault`).
* The xxh3-128 content hash is deliberately out of scope of the specification
  ("Hashing … peripheral"); `idOfRaw` below is modelled from the spec as an
  arbitrary fixed pure function of the bytes.
* A failing write operation causes the enclosing transaction to roll back
  (spec section 4.G), so in traces a call that returns an error leaves the
  state unchanged.
-/

namespace Dream

/-! ## Identifiers and objects (src/src/lib.rs lines 20-73) -/

/-- Modelled from the spec: `id(raw) = little_endian_bytes(xxh3_128 raw)` is a
pure function of the raw bytes and is explicitly out of scope ("a convenience,
not a trust boundary"); it is modelled as an arbitrary fixed injective-enough
pure function from byte lists to identifiers. -/
def idOfRaw (d : List Nat) : Nat :=
  d.foldl (fun h b => h * 257 + b + 1) 1

/-- `Object`: raw byte data (ID computed from the content) or an explicitly
assigned ID (src lines 48-54). -/
inductive Obj where
  | raw (data : List Nat)
  | ident (i : Nat)
deriving DecidableEq, Repr

/-- `Object::get_id` (src lines 65-72). -/
def getId : Obj → Nat
  | .raw d => idOfRaw d
  | .ident i => i

/-! ## Ordered key/value tables as strictly sorted association lists -/

/-- Lexicographic order on composite `(A, B)` keys: sort by `A` then `B`
(spec section 3: "Composite keys `(A,B)` sort by A then B"). -/
def plt (a b : Nat × Nat) : Prop := a.1 < b.1 ∨ (a.1 = b.1 ∧ a.2 < b.2)

instance (a b : Nat × Nat) : Decidable (plt a b) := by
  unfold plt; infer_instance

/-- `get` on a `Nat`-keyed table. -/
def nget {α : Type} (l : List (Nat × α)) (k : Nat) : Option α :=
  match l.find? (fun e => e.1 = k) with
  | some e => some e.2
  | none => none

/-- `insert` (upsert) on a `Nat`-keyed table, keeping the list sorted. -/
def nput {α : Type} : List (Nat × α) → Nat → α → List (Nat × α)
  | [], k, v => [(k, v)]
  | e :: t, k, v =>
    if k < e.1 then (k, v) :: e :: t
    else if k = e.1 then (k, v) :: t
    else e :: nput t k v

/-- `remove` on a `Nat`-keyed table. -/
def ndel {α : Type} (l : List (Nat × α)) (k : Nat) : List (Nat × α) :=
  l.filter (fun e => e.1 ≠ k)

/-- `iter(Bound::Included lb)` on a `Nat`-keyed table. -/
def niter {α : Type} (l : List (Nat × α)) (lb : Nat) : List (Nat × α) :=
  l.dropWhile (fun e => e.1 < lb)

/-- `insert` (upsert) on a pair-keyed table with unit values (we keep only the
keys), keeping the list sorted lexicographically. -/
def pput : List (Nat × Nat) → (Nat × Nat) → List (Nat × Nat)
  | [], k => [k]
  | e :: t, k =>
    if plt k e then k :: e :: t
    else if k = e then e :: t
    else e :: pput t k

/-- `remove` on a pair-keyed table. -/
def pdel (l : List (Nat × Nat)) (k : Nat × Nat) : List (Nat × Nat) :=
  l.filter (fun e => e ≠ k)

/-- `iter(Bound::Included lb)` on a pair-keyed table. -/
def piter (l : List (Nat × Nat)) (lb : Nat × Nat) : List (Nat × Nat) :=
  l.dropWhile (fun e => decide (plt e lb))

/-- Well-formedness of a `Nat`-keyed table: strictly ascending keys. -/
def WFn {α : Type} (l : List (Nat × α)) : Prop :=
  l.Pairwise (fun a b => a.1 < b.1)

/-- Well-formedness of a pair-keyed table: strictly ascending keys. -/
def WFp (l : List (Nat × Nat)) : Prop :=
  l.Pairwise plt

instance {α : Type} (l : List (Nat × α)) : Decidable (WFn l) := by
  unfold WFn
  infer_instance

instance (l : List (Nat × Nat)) : Decidable (WFp l) := by
  unfold WFp
  infer_instance

/-! ## The five tables (src lines 85-95, spec section 3) -/

/-- The table set: `tag_and_object`, `object_and_tag`, `id_to_source`,
`tag_to_objects_count`, `object_to_tags_count`. -/
structure DB where
  tagObject : List (Nat × Nat)
  objectTag : List (Nat × Nat)
  idSource : List (Nat × List Nat)
  tagCount : List (Nat × Nat)
  objectCount : List (Nat × Nat)
deriving DecidableEq, Repr

/-- The empty index. -/
def DB.empty : DB := ⟨[], [], [], [], []⟩

/-- Errors a write operation can surface.  `integrityFault` models the
`anyhow!("No objects count record for tag …")` error; `overflowAbort` models a
debug-build `u32` subtraction-overflow panic. -/
inductive Err where
  | integrityFault
  | overflowAbort
deriving DecidableEq, Repr

instance {ε α : Type} [DecidableEq ε] [DecidableEq α] : DecidableEq (Except ε α) :=
  fun a b =>
    match a, b with
    | .ok x, .ok y =>
      if h : x = y then .isTrue (by rw [h])
      else .isFalse (fun hh => by cases hh; exact h rfl)
    | .error x, .error y =>
      if h : x = y then .isTrue (by rw [h])
      else .isFalse (fun hh => by cases hh; exact h rfl)
    | .ok _, .error _ => .isFalse (fun hh => by cases hh)
    | .error _, .ok _ => .isFalse (fun hh => by cases hh)

/-! ## Read path (src lines 143-219) -/

/-- `get_tags` (src lines 210-219): prefix scan of `object_and_tag` from
`(o, Id::default())` while the leading component equals `o`. -/
def getTags (db : DB) (object : Obj) : List Nat :=
  ((piter db.objectTag (getId object, 0)).takeWhile
    (fun e => decide (e.1 = getId object))).map (fun e => e.2)

/-! ## Write path (src lines 355-545) -/

/-- `if let Object::Raw(raw) = x { id_to_source.insert(id, raw) }`: upsert
the preimage of a raw object or tag; identified ones store nothing. -/
def srcUpd (db : DB) (x : Obj) : DB :=
  match x with
  | .raw d => { db with idSource := nput db.idSource (idOfRaw d) d }
  | .ident _ => db

/-- `if let Object::Raw(_) = x { id_to_source.remove(&id) }`: erase the
preimage iff the passed variant is raw. -/
def srcDel (db : DB) (x : Obj) : DB :=
  match x with
  | .raw d => { db with idSource := ndel db.idSource (idOfRaw d) }
  | .ident _ => db

/-- One iteration of the insert loop (src lines 380-406): skip a tag already
in the snapshot set `E`; otherwise insert both postings, store a raw tag's
preimage, and increment `tag_to_objects_count` (a missing count reads as
`0`), counting the tag as newly added. -/
def insertStep (oid : Nat) (E : List Nat) (acc : DB × Nat) (tag : Obj) : DB × Nat :=
  let db := acc.1
  let tid := getId tag
  if tid ∈ E then acc
  else
    let db := { db with tagObject := pput db.tagObject (tid, oid) }
    let db := { db with objectTag := pput db.objectTag (oid, tid) }
    let db := srcUpd db tag
    let c := (nget db.tagCount tid).getD 0
    ({ db with tagCount := nput db.tagCount tid (c + 1) }, acc.2 + 1)

/-- `insert` (src lines 371-411).  Note `existent_tags` is a `HashSet` built
from `get_tags`, modelled by `List.dedup`; the set is not updated inside the
loop, so duplicate ids inside `tags` are re-processed. -/
def insert (db : DB) (object : Obj) (tags : List Obj) : DB :=
  let oid := getId object
  let db := srcUpd db object
  let E := (getTags db object).dedup
  let r := tags.foldl (insertStep oid E) (db, 0)
  { r.1 with objectCount := nput r.1.objectCount oid (E.length + r.2) }

/-- One iteration of the removal loop of `remove_object` (src lines 445-461):
erase the symmetric entries and decrement `tag_to_objects_count` via
`get(..).unwrap_or(0) - 1` (a missing or zero count makes the `u32` decrement
panic in debug builds). -/
def removeObjectStep (acc : Except Err DB) (e : Nat × Nat) : Except Err DB := do
  let db ← acc
  let db := { db with tagObject := pdel db.tagObject (e.2, e.1) }
  let db := { db with objectTag := pdel db.objectTag (e.1, e.2) }
  match (nget db.tagCount e.2).getD 0 with
  | 0 => .error .overflowAbort
  | c + 1 => .ok { db with tagCount := nput db.tagCount e.2 c }

/-- `remove_object` (src lines 425-467). -/
def removeObject (db : DB) (object : Obj) : Except Err DB :=
  let oid := getId object
  match nget db.objectCount oid with
  | none => .ok db
  | some _ =>
    let db := srcDel db object
    let snapshot := (piter db.objectTag (oid, 0)).takeWhile (fun e => decide (e.1 = oid))
    match snapshot.foldl removeObjectStep (.ok db) with
    | .error er => .error er
    | .ok db => .ok { db with objectCount := ndel db.objectCount oid }

/-- One iteration of the removal loop of `remove_tags_from_object`
(src lines 498-528): tags not in the snapshot set are skipped; the count
lookup uses `ok_or(anyhow!(..))` (missing record is the distinct integrity
error); a zero stored count makes the `u32` decrement panic (debug). -/
def removeTagsStep (oid : Nat) (E : List Nat) (acc : Except Err (DB × Nat)) (tag : Obj) :
    Except Err (DB × Nat) := do
  let (db, removed) ← acc
  let tid := getId tag
  if tid ∈ E then
    let db := { db with tagObject := pdel db.tagObject (tid, oid) }
    let db := { db with objectTag := pdel db.objectTag (oid, tid) }
    match nget db.tagCount tid with
    | none => .error .integrityFault
    | some 0 => .error .overflowAbort
    | some (c + 1) =>
      if c > 0 then .ok ({ db with tagCount := nput db.tagCount tid c }, removed + 1)
      else
        let db := { db with tagCount := ndel db.tagCount tid }
        let db := srcDel db tag
        .ok (db, removed + 1)
  else .ok (db, removed)

/-- `remove_tags_from_object` (src lines 482-544).  After the loop, if every
snapshot tag was removed the object record (and raw preimage) is erased, else
`object_to_tags_count` is set to `|E| - removed` (a `u32` subtraction that
panics in debug builds when `removed > |E|`, which duplicates in `tags` can
cause). -/
def removeTagsFromObject (db : DB) (object : Obj) (tags : List Obj) : Except Err DB :=
  let oid := getId object
  match nget db.objectCount oid with
  | none => .ok db
  | some _ =>
    let E := (getTags db object).dedup
    match tags.foldl (removeTagsStep oid E) (.ok (db, 0)) with
    | .error er => .error er
    | .ok (db, removed) =>
      if removed = E.length then
        let db := { db with objectCount := ndel db.objectCount oid }
        let db := srcDel db object
        .ok db
      else if removed < E.length then
        .ok { db with objectCount := nput db.objectCount oid (E.length - removed) }
      else .error .overflowAbort

/-! ## Query planner (src lines 241-260 and 321-339) -/

/-- Stable insertion of a `(tag, count)` pair into a list ascending by count
(models the stable `sort_by_key`). -/
def insByCount (a : Nat × Nat) : List (Nat × Nat) → List (Nat × Nat)
  | [] => [a]
  | b :: t => if a.2 < b.2 then a :: b :: t else b :: insByCount a t

/-- Stable sort ascending by count. -/
def sortByCount (l : List (Nat × Nat)) : List (Nat × Nat) :=
  l.foldr insByCount []

/-- Absent-tag planning (src lines 241-260): keep only tags whose
`tag_to_objects_count` record exists, stable-sort ascending by count, reverse,
keep the ids. -/
def planAbsent (db : DB) (absentTags : List Obj) : List Nat :=
  let withCounts := absentTags.foldl
    (fun acc tag =>
      match nget db.tagCount (getId tag) with
      | some c => acc ++ [(getId tag, c)]
      | none => acc) []
  ((sortByCount withCounts).reverse).map (fun e => e.1)

/-- Present-tag planning (src lines 321-339): every tag is kept (a missing
count is `0`), stable-sorted ascending by count. -/
def planPresent (db : DB) (presentTags : List Obj) : List Nat :=
  (sortByCount (presentTags.map (fun tag =>
    (getId tag, (nget db.tagCount (getId tag)).getD 0)))).map (fun e => e.1)

/-- The per-candidate absent filter (src lines 270-284 etc.): accept `o` iff
no planned absent tag `a` has `(a, o)` in `tag_and_object`. -/
def absentOk (T : List (Nat × Nat)) (A : List Nat) (o : Nat) : Bool :=
  A.all (fun a => !(decide ((a, o) ∈ T)))

/-! ## Search, strategy `|present| = 0` (src lines 262-286) -/

/-- Scan `object_to_tags_count` from `start_after` (or the minimum), skip the
first physical entry when `start_after` was supplied, apply the absent
filter. -/
def searchZero (db : DB) (A : List Nat) (k : Option Nat) : List Nat :=
  (((niter db.objectCount (k.getD 0)).drop (if k.isSome then 1 else 0)).map
    (fun e => e.1)).filter (absentOk db.tagObject A)

/-! ## Search, strategy `|present| = 1` (src lines 287-317) -/

/-- Scan `tag_and_object` from `(t, start_after ?? 0)`, skip the first
physical entry when `start_after` was supplied, stop when the leading key
leaves `t`, apply the absent filter. -/
def searchOne (db : DB) (t : Nat) (A : List Nat) (k : Option Nat) : List Nat :=
  ((((piter db.tagObject (t, k.getD 0)).drop (if k.isSome then 1 else 0)).takeWhile
    (fun e => decide (e.1 = t))).map (fun e => e.2)).filter (absentOk db.tagObject A)

/-! ## Search, strategy `|present| >= 2`: the leapfrog iterator
(src lines 547-736) -/

/-- The immutable context of a `SearchIterator`. -/
structure LFCtx where
  T : List (Nat × Nat)
  p : List Nat
  A : List Nat
  k : Option Nat
deriving Repr

/-- The mutable state of a `SearchIterator`: a `Cursor` is the remaining
suffix of the table (its `current_value` is the head, its iterator the
tail). -/
structure LFState where
  cursors : List (List (Nat × Nat))
  i1 : Nat
  i2 : Nat
  fin : Bool
deriving DecidableEq, Repr

/-- Cursor at index `j` (out-of-range access models an impossible `unwrap`). -/
def curAt (s : LFState) (j : Nat) : List (Nat × Nat) := s.cursors.getD j []

/-- The object component of a cursor's `current_value.unwrap()`. -/
def curObj (c : List (Nat × Nat)) : Nat := (c.headD (0, 0)).2

/-- `current_value.is_some_and(|v| v.0 == t)`: the cursor is still inside the
posting-list prefix of tag `t`. -/
def inPref (t : Nat) (c : List (Nat × Nat)) : Bool :=
  match c.head? with
  | some v => decide (v.1 = t)
  | none => false

/-- `cursors.iter().all(..== first_cursor_object)` (src lines 596-601). -/
def allEq (s : LFState) : Bool :=
  let x := curObj (curAt s 0)
  s.cursors.all (fun c =>
    match c.head? with
    | some v => decide (v.2 = x)
    | none => false)

/-- The two inner `while` loops (src lines 697-711 and 718-730): advance the
cursor while its object component is `< bound`; after each advance the source
checks the cursor still has a value inside the prefix of `t`, else the whole
iteration terminates (`none`). -/
def skipToGeq (t bound : Nat) : List (Nat × Nat) → Option (List (Nat × Nat))
  | [] => none
  | e :: rest =>
    if e.2 < bound then
      match rest with
      | [] => none
      | e' :: _ => if e'.1 = t then skipToGeq t bound rest else none
    else some (e :: rest)

/-- Branch 1 of `next` (src lines 594-630): all cursors coincide at `x`;
apply the absent filter, advance cursor 0, set the end flag if it left its
prefix, and return `Ok(result)` — note the source returns `Ok(None)` (end of
stream) when the candidate is absent-filtered. -/
def lfEmit (ctx : LFCtx) (s : LFState) : LFState × Option Nat :=
  let x := curObj (curAt s 0)
  let result := if absentOk ctx.T ctx.A x then some x else none
  let c0 := (curAt s 0).tail
  ({ s with cursors := s.cursors.set 0 c0, fin := !(inPref (ctx.p.headD 0) c0) }, result)

/-- The tail of the loop body (src lines 700-733): align cursor `index_2`
to the `index_1` object, then rotate the index pair on a hit or move the
first cursor up and restart the pair on a miss. -/
def lfAlign (ctx : LFCtx) (s : LFState) : LFState ⊕ (LFState × Option Nat) :=
  match skipToGeq (ctx.p.getD s.i2 0) (curObj (curAt s s.i1)) (curAt s s.i2) with
  | none => .inr ({ s with fin := true }, none)
  | some c2 =>
    let s3 := { s with cursors := s.cursors.set s.i2 c2 }
    if curObj (curAt s3 s3.i2) = curObj (curAt s3 s3.i1) then
      .inl { s3 with i1 := (s3.i1 + 1) % ctx.p.length,
                     i2 := (s3.i2 + 1) % ctx.p.length }
    else
      match skipToGeq (ctx.p.getD 0 0) (curObj (curAt s3 s3.i2)) (curAt s3 0) with
      | none => .inr ({ s3 with fin := true }, none)
      | some c0 =>
        .inl { s3 with cursors := s3.cursors.set 0 c0, i1 := 0, i2 := 1 }

/-- The first cursor-creation block (src lines 633-665): runs when the
cursor vector is short and `index_1` has no cursor yet; the lower bound is
`start_after` (or the default id) for the first slot, else the last
cursor's object, with an extra `next()` to skip the `start_after` entry;
`none` models the `end = true; return Ok(None)` exit when the fresh cursor
falls outside its tag prefix. -/
def lfCreate1 (ctx : LFCtx) (s : LFState) : Option LFState :=
  if s.cursors.length < ctx.p.length && s.cursors.length ≤ s.i1 then
    let lb := if s.i1 = 0 then ctx.k.getD 0 else curObj (s.cursors.getLastD [])
    let c := piter ctx.T (ctx.p.getD s.i1 0, lb)
    let c := if s.i1 = 0 && ctx.k.isSome then c.tail else c
    if inPref (ctx.p.getD s.i1 0) c then some { s with cursors := s.cursors ++ [c] }
    else none
  else some s

/-- The second cursor-creation block (src lines 667-698), bounded by the
last cursor's object. -/
def lfCreate2 (ctx : LFCtx) (s : LFState) : Option LFState :=
  if s.cursors.length < ctx.p.length && s.cursors.length ≤ s.i2 then
    let lb := curObj (s.cursors.getLastD [])
    let c := piter ctx.T (ctx.p.getD s.i2 0, lb)
    if inPref (ctx.p.getD s.i2 0) c then some { s with cursors := s.cursors ++ [c] }
    else none
  else some s

/-- One iteration of `SearchIterator::next`'s `loop` body (src lines
593-734): `.inr` returns from `next` with the updated state and the yielded
value, `.inl` continues the loop with the updated state. -/
def lfStep (ctx : LFCtx) (s : LFState) : LFState ⊕ (LFState × Option Nat) :=
  if s.cursors.length = ctx.p.length && allEq s then
    .inr (lfEmit ctx s)
  else
    match lfCreate1 ctx s with
    | none => .inr ({ s with fin := true }, none)
    | some s1 =>
      match lfCreate2 ctx s1 with
      | none => .inr ({ s1 with fin := true }, none)
      | some s2 => lfAlign ctx s2

/-- The `loop` of `SearchIterator::next` (src lines 593-734), fuelled.
`none` means the fuel ran out (the termination theorem shows a computable
fuel suffices). -/
def lfLoop (ctx : LFCtx) : LFState → Nat → Option (LFState × Option Nat)
  | _, 0 => none
  | s, fuel + 1 =>
    match lfStep ctx s with
    | .inl s' => lfLoop ctx s' fuel
    | .inr r => some r

/-- `SearchIterator::next` (src lines 589-592 plus the loop). -/
def lfNext (ctx : LFCtx) (s : LFState) (fuel : Nat) : Option (LFState × Option Nat) :=
  if s.fin then some (s, none) else lfLoop ctx s fuel

/-- Fuel that the termination theorem proves sufficient for one `next` call. -/
def lfInnerFuel (ctx : LFCtx) : Nat :=
  (3 * ctx.p.length + 12) * ((ctx.p.length + 1) * (ctx.T.length + 2) + ctx.p.length + 20)

/-- Remaining cursor work: suffix lengths plus a full budget for each cursor
not yet created. -/
def lfW (ctx : LFCtx) (s : LFState) : Nat :=
  (s.cursors.map List.length).sum +
    (ctx.p.length - s.cursors.length) * (ctx.T.length + 1)

/-- Every cursor up to `index_1` currently sits at the first cursor's
object (established by the rotations since the last reset). -/
def lfChain (s : LFState) : Prop :=
  ∀ j ≤ s.i1, curObj (curAt s j) = curObj (curAt s 0)

instance (s : LFState) : Decidable (lfChain s) := by
  unfold lfChain
  infer_instance

/-- Secondary measure: distance of `index_1` from its wrap, plus a penalty
for a broken chain (spent by the one reset a broken chain allows). -/
def lfPsi (ctx : LFCtx) (s : LFState) : Nat :=
  (ctx.p.length - s.i1) + (if lfChain s then 0 else ctx.p.length + 2)

/-- The loop measure: every continuing iteration strictly decreases it. -/
def lfMu (ctx : LFCtx) (s : LFState) : Nat :=
  (2 * ctx.p.length + 4) * lfW ctx s + lfPsi ctx s

/-- The state invariant of the leapfrog iterator, holding between loop
iterations and between `next` calls: the planner passed at least two tags,
and a non-finished state is either fresh (no cursors yet) or running with
`index_1` inside the cursor vector, `index_2` its cyclic successor, and
every cursor a nonempty in-prefix suffix of bounded length. -/
def LFInv (ctx : LFCtx) (s : LFState) : Prop :=
  2 ≤ ctx.p.length ∧
  (s.fin = false →
    ((s.cursors = [] ∧ s.i1 = 0 ∧ s.i2 = 1) ∨
     (1 ≤ s.cursors.length ∧ s.cursors.length ≤ ctx.p.length ∧
      s.i1 < s.cursors.length ∧ s.i2 = (s.i1 + 1) % ctx.p.length ∧
      (∀ j, j < s.cursors.length → inPref (ctx.p.getD j 0) (curAt s j) = true ∧
        (curAt s j).length ≤ ctx.T.length))))

instance (ctx : LFCtx) (s : LFState) : Decidable (LFInv ctx s) := by
  unfold LFInv
  infer_instance

/-- Driving the fallible iterator to completion, as a consumer such as
`collect` does: stop at the first `Ok(None)`. -/
def lfCollect (ctx : LFCtx) : LFState → Nat → Option (List Nat)
  | _, 0 => none
  | s, m + 1 =>
    match lfNext ctx s (lfInnerFuel ctx) with
    | none => none
    | some (_, none) => some []
    | some (s', some x) => (lfCollect ctx s' m).map (fun l => x :: l)

/-- The fresh iterator state built by `search` (src lines 318-345). -/
def lfStart : LFState := ⟨[], 0, 1, false⟩

/-- `search` (src lines 235-347): plan the absent tags, then dispatch on
`present_tags.len()`; the yielded sequence is returned as the list of object
ids a consumer obtains by iterating to the first `Ok(None)`. -/
def search (db : DB) (presentTags absentTags : List Obj) (startAfter : Option Nat) :
    List Nat :=
  let A := planAbsent db absentTags
  match presentTags with
  | [] => searchZero db A startAfter
  | [t] => searchOne db (getId t) A startAfter
  | _ =>
    let ctx : LFCtx :=
      { T := db.tagObject, p := planPresent db presentTags, A := A, k := startAfter }
    (lfCollect ctx lfStart (ctx.T.length + 3)).getD []

/-! ## Traces of write operations (for the whole-history invariants) -/

/-- One write call. -/
inductive Op where
  | ins (object : Obj) (tags : List Obj)
  | rmo (object : Obj)
  | rmt (object : Obj) (tags : List Obj)
deriving DecidableEq, Repr

/-- Apply one call; a call that returns an error rolls its transaction back
(spec section 4.G), leaving the state unchanged. -/
def applyOp (db : DB) : Op → DB
  | .ins o ts => insert db o ts
  | .rmo o =>
    match removeObject db o with
    | .ok db' => db'
    | .error _ => db
  | .rmt o ts =>
    match removeTagsFromObject db o ts with
    | .ok db' => db'
    | .error _ => db

/-- Run a finite sequence of calls from the empty index. -/
def runOps (ops : List Op) : DB :=
  ops.foldl applyOp DB.empty

/-! ## Invariants and counters -/

/-- `|{o : (t,o) ∈ tag→object}|`: number of postings of tag `t`. -/
def cntT (db : DB) (t : Nat) : Nat :=
  (db.tagObject.filter (fun e => decide (e.1 = t))).length

/-- `|{t : (o,t) ∈ object→tag}|`: number of tags of object `o`. -/
def cntO (db : DB) (o : Nat) : Nat :=
  (db.objectTag.filter (fun e => decide (e.1 = o))).length

/-- All five tables are strictly sorted by key. -/
def WFdb (db : DB) : Prop :=
  WFp db.tagObject ∧ WFp db.objectTag ∧ WFn db.idSource ∧ WFn db.tagCount ∧
    WFn db.objectCount

/-- Invariant 1 of spec section 3: `(t,o) ∈ tag→object ⇔ (o,t) ∈ object→tag`,
in bounded form. -/
def SymInv (db : DB) : Prop :=
  (∀ e ∈ db.tagObject, (e.2, e.1) ∈ db.objectTag) ∧
  (∀ e ∈ db.objectTag, (e.2, e.1) ∈ db.tagObject)

/-- The cross-table invariants the write path maintains, in bounded
(decidable) form: tables sorted; postings symmetric; every stored tag count
equals the posting count; a tag with a posting has a count record; every
stored object count equals the reverse-posting count; an object with a
posting has a count record. -/
def Valid (db : DB) : Prop :=
  WFdb db ∧ SymInv db ∧
  (∀ e ∈ db.tagCount, e.2 = cntT db e.1) ∧
  (∀ e ∈ db.tagObject, (nget db.tagCount e.1).isSome) ∧
  (∀ e ∈ db.objectCount, e.2 = cntO db e.1) ∧
  (∀ e ∈ db.objectTag, (nget db.objectCount e.1).isSome)

/-- A call mentions id `x` as raw-origin when its object, or one of its
insert-list tags, is the `Raw` variant with that id. -/
def opMentions (op : Op) (x : Nat) : Prop :=
  match op with
  | Op.ins o ts => (∃ d, o = Obj.raw d ∧ idOfRaw d = x) ∨
      (∃ tg ∈ ts, ∃ d, tg = Obj.raw d ∧ idOfRaw d = x)
  | _ => False

/-- Ids of raw-origin objects and tags mentioned by the insert calls of a
trace (the only calls that can create `id→source` records). -/
def rawMentioned (ops : List Op) (x : Nat) : Prop :=
  ∃ op ∈ ops, opMentions op x

/-- The tag list an operation passes to the store (`remove_object` passes
none). -/
def opTags : Op → List Obj
  | Op.ins _ ts => ts
  | Op.rmt _ ts => ts
  | Op.rmo _ => []

/-- A trace in which every tag list passed to `insert` or
`remove_tags_from_object` has duplicate-free ids. -/
def NodupOps (ops : List Op) : Prop :=
  ∀ op ∈ ops, ((opTags op).map getId).Nodup

/-- Whether the caller passed the `Raw` variant. -/
def isRaw : Obj → Bool
  | Obj.raw _ => true
  | Obj.ident _ => false

/-- The cross-table invariants except exactness and presence of the
`object→count` record at one object id: during the write loops the
`object→count` record of the object being edited is stale, and the final
statement of each call restores it. -/
def ValidX (db : DB) (oid : Nat) : Prop :=
  WFdb db ∧ SymInv db ∧
  (∀ e ∈ db.tagCount, e.2 = cntT db e.1) ∧
  (∀ e ∈ db.tagObject, (nget db.tagCount e.1).isSome) ∧
  (∀ e ∈ db.objectCount, e.1 ≠ oid → e.2 = cntO db e.1) ∧
  (∀ e ∈ db.objectTag, e.1 ≠ oid → (nget db.objectCount e.1).isSome)

instance (db : DB) : Decidable (WFdb db) := by
  unfold WFdb WFp WFn
  infer_instance

instance (db : DB) : Decidable (SymInv db) := by
  unfold SymInv
  infer_instance

instance (db : DB) : Decidable (Valid db) := by
  unfold Valid
  infer_instance

instance (ops : List Op) : Decidable (NodupOps ops) := by
  unfold NodupOps
  infer_instance

/-! ## Concrete states used by the per-claim evaluations -/

/-- Two objects sharing tags 10 and 11; object 1 also carries tag 12. -/
def dbEx1 : DB :=
  insert (insert DB.empty (.ident 1) [.ident 10, .ident 11, .ident 12])
    (.ident 2) [.ident 10, .ident 11]

/-- Two known objects, 5 and 10, with no tags. -/
def dbEx2 : DB :=
  insert (insert DB.empty (.ident 5) []) (.ident 10) []

/-- Same shape as `dbEx1`, for the pagination claim. -/
def dbEx3 : DB :=
  insert (insert DB.empty (.ident 1) [.ident 10, .ident 11, .ident 12])
    (.ident 2) [.ident 10, .ident 11]

/-- A handcrafted invariant-violating state: the posting `(2,1)` exists but
tag 2 has no `tag_to_objects_count` record. -/
def dbBad : DB := ⟨[(2, 1)], [(1, 2)], [], [], [(1, 1)]⟩

/-- One known object `1` with tags `{7, 8}`. -/
def dbEx4 : DB := insert DB.empty (.ident 1) [.ident 7, .ident 8]

/-- Two objects `5` and `9`, each with tags `{1, 2, 3}` (for the leapfrog
termination claim). -/
def db6 : DB :=
  insert (insert DB.empty (.ident 5) [.ident 1, .ident 2, .ident 3])
    (.ident 9) [.ident 1, .ident 2, .ident 3]

/-- The iterator context `search db6 [1,2,3] [] none` builds (the
`|present| >= 2` arm of `search`). -/
def ctx6 : LFCtx :=
  { T := db6.tagObject,
    p := planPresent db6 [.ident 1, .ident 2, .ident 3],
    A := planAbsent db6 [],
    k := none }

/-! ## Lemmas about the key order -/

theorem plt_irrefl (a : Nat × Nat) : ¬ plt a a := by
  unfold plt; omega

theorem plt_trans {a b c : Nat × Nat} : plt a b → plt b c → plt a c := by
  unfold plt; omega

theorem plt_asymm {a b : Nat × Nat} : plt a b → ¬ plt b a := by
  unfold plt; omega

theorem plt_cases (a b : Nat × Nat) : plt a b ∨ a = b ∨ plt b a := by
  rcases a with ⟨a1, a2⟩; rcases b with ⟨b1, b2⟩
  simp only [plt, Prod.mk.injEq]; omega

theorem plt_zero {e : Nat × Nat} {t : Nat} : plt e (t, 0) ↔ e.1 < t := by
  unfold plt; omega

theorem WFp.nodup {l : List (Nat × Nat)} (h : WFp l) : l.Nodup :=
  h.imp fun hab heq => absurd (heq ▸ hab) (plt_irrefl _)

/-! ## Lemmas about `Nat`-keyed tables -/

theorem nget_nil {α : Type} (k : Nat) : nget ([] : List (Nat × α)) k = none := rfl

theorem nget_cons {α : Type} (a : Nat × α) (t : List (Nat × α)) (k : Nat) :
    nget (a :: t) k = if a.1 = k then some a.2 else nget t k := by
  by_cases h : a.1 = k
  · rw [if_pos h]
    unfold nget
    rw [List.find?_cons_of_pos _ (by simpa using h)]
  · rw [if_neg h]
    unfold nget
    rw [List.find?_cons_of_neg _ (by simpa using h)]

theorem ndel_nil {α : Type} (k : Nat) : ndel ([] : List (Nat × α)) k = [] := rfl

theorem ndel_cons {α : Type} (a : Nat × α) (t : List (Nat × α)) (k : Nat) :
    ndel (a :: t) k = if a.1 = k then ndel t k else a :: ndel t k := by
  unfold ndel
  rw [List.filter_cons]
  by_cases h : a.1 = k <;> simp [h]

theorem nget_mem {α : Type} {l : List (Nat × α)} {k : Nat} {v : α}
    (h : nget l k = some v) : (k, v) ∈ l := by
  induction l with
  | nil => simp [nget_nil] at h
  | cons a t ih =>
    rw [nget_cons] at h
    by_cases ha : a.1 = k
    · rw [if_pos ha] at h
      cases h
      rcases a with ⟨k', v'⟩
      simp only at ha
      subst ha
      exact List.mem_cons_self _ _
    · rw [if_neg ha] at h
      exact List.mem_cons_of_mem _ (ih h)

theorem mem_nget {α : Type} {l : List (Nat × α)} (h : WFn l) {k : Nat} {v : α}
    (hm : (k, v) ∈ l) : nget l k = some v := by
  induction l with
  | nil => simp at hm
  | cons a t ih =>
    rcases List.pairwise_cons.mp h with ⟨ha, ht⟩
    rw [nget_cons]
    rcases List.mem_cons.mp hm with rfl | hm'
    · simp
    · have hk : a.1 ≠ k := by
        have := ha _ hm'
        simp only at this
        omega
      rw [if_neg hk]
      exact ih ht hm'

theorem nget_none {α : Type} {l : List (Nat × α)} {k : Nat} :
    nget l k = none ↔ ∀ v, (k, v) ∉ l := by
  induction l with
  | nil => simp [nget_nil]
  | cons a t ih =>
    rw [nget_cons]
    by_cases ha : a.1 = k
    · rw [if_pos ha]
      simp only [reduceCtorEq, false_iff, not_forall, not_not]
      exact ⟨a.2, by rw [← ha]; exact List.mem_cons_self _ _⟩
    · rw [if_neg ha]
      rw [ih]
      constructor
      · intro hh v hv
        rcases List.mem_cons.mp hv with rfl | hv'
        · simp at ha
        · exact hh v hv'
      · intro hh v hv
        exact hh v (List.mem_cons_of_mem _ hv)

theorem mem_ndel {α : Type} {l : List (Nat × α)} {k : Nat} {e : Nat × α} :
    e ∈ ndel l k ↔ e ∈ l ∧ e.1 ≠ k := by
  simp [ndel, List.mem_filter]

theorem ndel_eq_self {α : Type} {l : List (Nat × α)} {k : Nat}
    (h : ∀ e ∈ l, e.1 ≠ k) : ndel l k = l := by
  unfold ndel
  rw [List.filter_eq_self]
  intro e he
  simpa using h e he

/-- Ordered upsert, up to permutation: replace the key's binding. -/
theorem nput_perm {α : Type} {k : Nat} {v : α} :
    ∀ {l : List (Nat × α)}, WFn l → (nput l k v).Perm ((k, v) :: ndel l k) := by
  intro l
  induction l with
  | nil => intro _; simp [nput, ndel]
  | cons a t ih =>
    intro h
    rcases List.pairwise_cons.mp h with ⟨ha, ht⟩
    unfold nput
    by_cases h1 : k < a.1
    · rw [if_pos h1]
      have hdel : ndel (a :: t) k = a :: t := by
        refine ndel_eq_self ?_
        intro e he
        rcases List.mem_cons.mp he with rfl | he'
        · omega
        · have := ha e he'; omega
      rw [hdel]
    · rw [if_neg h1]
      by_cases h2 : k = a.1
      · rw [if_pos h2]
        have hdel : ndel (a :: t) k = ndel t k := by
          unfold ndel
          rw [List.filter_cons]
          simp [h2.symm]
        have hdt : ndel t k = t := by
          refine ndel_eq_self ?_
          intro e he
          have := ha e he; omega
        rw [hdel, hdt]
      · rw [if_neg h2]
        have hdel : ndel (a :: t) k = a :: ndel t k := by
          rw [ndel_cons, if_neg (fun hh => h2 hh.symm)]
        rw [hdel]
        exact ((ih ht).cons a).trans (List.Perm.swap _ _ _)

theorem WFn_ndel {α : Type} {l : List (Nat × α)} (h : WFn l) (k : Nat) :
    WFn (ndel l k) := h.filter _

theorem WFn_nput {α : Type} {k : Nat} {v : α} :
    ∀ {l : List (Nat × α)}, WFn l → WFn (nput l k v) := by
  intro l
  induction l with
  | nil => intro _; simp [nput, WFn]
  | cons a t ih =>
    intro h
    rcases List.pairwise_cons.mp h with ⟨ha, ht⟩
    unfold nput
    by_cases h1 : k < a.1
    · rw [if_pos h1]
      refine List.pairwise_cons.mpr ⟨?_, h⟩
      intro e he
      rcases List.mem_cons.mp he with rfl | he'
      · omega
      · have := ha e he'; simp only; omega
    · rw [if_neg h1]
      by_cases h2 : k = a.1
      · rw [if_pos h2]
        refine List.pairwise_cons.mpr ⟨?_, ht⟩
        intro e he
        have := ha e he; simp only; omega
      · rw [if_neg h2]
        refine List.pairwise_cons.mpr ⟨?_, ih ht⟩
        intro e he
        have hperm := nput_perm (k := k) (v := v) ht
        have : e ∈ (k, v) :: ndel t k := hperm.mem_iff.mp he
        rcases List.mem_cons.mp this with rfl | he'
        · simp only; omega
        · exact ha e (mem_ndel.mp he').1

theorem nget_nput_self {α : Type} {k : Nat} {v : α} :
    ∀ {l : List (Nat × α)}, WFn l → nget (nput l k v) k = some v := by
  intro l hw
  have hperm := nput_perm (k := k) (v := v) hw
  have hwf := WFn_nput (k := k) (v := v) hw
  exact mem_nget hwf (hperm.mem_iff.mpr (List.mem_cons_self _ _))

theorem nget_nput_ne {α : Type} {k k' : Nat} {v : α} (hne : k' ≠ k) :
    ∀ {l : List (Nat × α)}, nget (nput l k v) k' = nget l k' := by
  intro l
  induction l with
  | nil => rw [show nput ([] : List (Nat × α)) k v = [(k, v)] from rfl, nget_cons]
           simp [Ne.symm hne, nget_nil]
  | cons a t ih =>
    unfold nput
    by_cases h1 : k < a.1
    · rw [if_pos h1, nget_cons]
      simp only
      rw [if_neg (Ne.symm hne)]
    · rw [if_neg h1]
      by_cases h2 : k = a.1
      · rw [if_pos h2, nget_cons, nget_cons]
        simp only
        rw [if_neg (Ne.symm hne), if_neg (h2 ▸ Ne.symm hne)]
      · rw [if_neg h2, nget_cons, nget_cons]
        by_cases h3 : a.1 = k'
        · rw [if_pos h3, if_pos h3]
        · rw [if_neg h3, if_neg h3]
          exact ih

theorem nget_ndel {α : Type} {k k' : Nat} {l : List (Nat × α)} :
    nget (ndel l k) k' = if k' = k then none else nget l k' := by
  induction l with
  | nil => simp [ndel_nil, nget_nil]
  | cons a t ih =>
    rw [ndel_cons]
    by_cases h1 : a.1 = k
    · rw [if_pos h1, ih, nget_cons]
      by_cases h2 : k' = k
      · rw [if_pos h2, if_pos h2]
      · rw [if_neg h2, if_neg h2, if_neg (fun he => h2 (by omega))]
    · rw [if_neg h1, nget_cons, nget_cons, ih]
      by_cases h3 : a.1 = k'
      · rw [if_pos h3, if_pos h3, if_neg (by omega)]
      · rw [if_neg h3, if_neg h3]

/-! ## Lemmas about pair-keyed tables -/

theorem mem_pdel {l : List (Nat × Nat)} {k e : Nat × Nat} :
    e ∈ pdel l k ↔ e ∈ l ∧ e ≠ k := by
  simp [pdel, List.mem_filter]

theorem pdel_eq_self {l : List (Nat × Nat)} {k : Nat × Nat} (h : k ∉ l) : pdel l k = l := by
  unfold pdel
  rw [List.filter_eq_self]
  intro e he
  have hne : e ≠ k := fun hh => h (hh ▸ he)
  simp [hne]

theorem pdel_cons (a : Nat × Nat) (t : List (Nat × Nat)) (k : Nat × Nat) :
    pdel (a :: t) k = if a = k then pdel t k else a :: pdel t k := by
  unfold pdel
  rw [List.filter_cons]
  by_cases h : a = k <;> simp [h]

theorem WFp_pdel {l : List (Nat × Nat)} (h : WFp l) (k : Nat × Nat) :
    WFp (pdel l k) := h.filter _

theorem pput_perm {k : Nat × Nat} :
    ∀ {l : List (Nat × Nat)}, WFp l → (pput l k).Perm (k :: pdel l k) := by
  intro l
  induction l with
  | nil => intro _; simp [pput, pdel]
  | cons a t ih =>
    intro h
    rcases List.pairwise_cons.mp h with ⟨ha, ht⟩
    unfold pput
    by_cases h1 : plt k a
    · rw [if_pos h1]
      have hdel : pdel (a :: t) k = a :: t := by
        refine pdel_eq_self ?_
        intro hk
        rcases List.mem_cons.mp hk with rfl | hk'
        · exact plt_irrefl _ h1
        · exact plt_irrefl _ (plt_trans h1 (ha _ hk'))
      rw [hdel]
    · rw [if_neg h1]
      by_cases h2 : k = a
      · rw [if_pos h2]
        subst h2
        have hdt : pdel t k = t := by
          refine pdel_eq_self ?_
          intro hk
          exact plt_irrefl _ (ha _ hk)
        rw [pdel_cons, if_pos rfl, hdt]
      · rw [if_neg h2]
        have hdel : pdel (a :: t) k = a :: pdel t k := by
          rw [pdel_cons, if_neg (fun hh => h2 hh.symm)]
        rw [hdel]
        exact ((ih ht).cons a).trans (List.Perm.swap _ _ _)

theorem WFp_pput {k : Nat × Nat} :
    ∀ {l : List (Nat × Nat)}, WFp l → WFp (pput l k) := by
  intro l
  induction l with
  | nil => intro _; simp [pput, WFp]
  | cons a t ih =>
    intro h
    rcases List.pairwise_cons.mp h with ⟨ha, ht⟩
    unfold pput
    by_cases h1 : plt k a
    · rw [if_pos h1]
      refine List.pairwise_cons.mpr ⟨?_, h⟩
      intro e he
      rcases List.mem_cons.mp he with rfl | he'
      · exact h1
      · exact plt_trans h1 (ha e he')
    · rw [if_neg h1]
      by_cases h2 : k = a
      · rw [if_pos h2]
        exact h
      · rw [if_neg h2]
        have hak : plt a k := by
          rcases plt_cases k a with hc | hc | hc
          · exact absurd hc h1
          · exact absurd hc h2
          · exact hc
        refine List.pairwise_cons.mpr ⟨?_, ih ht⟩
        intro e he
        have hperm := pput_perm (k := k) ht
        have : e ∈ k :: pdel t k := hperm.mem_iff.mp he
        rcases List.mem_cons.mp this with rfl | he'
        · exact hak
        · exact ha e (mem_pdel.mp he').1

theorem mem_pput {k e : Nat × Nat} {l : List (Nat × Nat)} (h : WFp l) :
    e ∈ pput l k ↔ e = k ∨ e ∈ l := by
  rw [(pput_perm h).mem_iff]
  simp only [List.mem_cons, mem_pdel]
  constructor
  · rintro (rfl | ⟨hm, _⟩)
    · exact Or.inl rfl
    · exact Or.inr hm
  · rintro (rfl | hm)
    · exact Or.inl rfl
    · by_cases he : e = k
      · exact Or.inl he
      · exact Or.inr ⟨hm, he⟩

theorem pput_eq_of_mem {k : Nat × Nat} :
    ∀ {l : List (Nat × Nat)}, WFp l → k ∈ l → pput l k = l := by
  intro l
  induction l with
  | nil => intro _ h; simp at h
  | cons a t ih =>
    intro h hm
    rcases List.pairwise_cons.mp h with ⟨ha, ht⟩
    unfold pput
    rcases List.mem_cons.mp hm with rfl | hm'
    · rw [if_neg (plt_irrefl _), if_pos rfl]
    · have h1 : ¬ plt k a := plt_asymm (ha _ hm')
      have h2 : k ≠ a := fun he => plt_irrefl _ (he ▸ ha _ hm')
      rw [if_neg h1, if_neg h2, ih ht hm']

/-! ## Scans over sorted lists -/

theorem dropWhile_sorted {α : Type} {R : α → α → Prop} {p : α → Bool} :
    ∀ {l : List α}, l.Pairwise R →
      (∀ a ∈ l, ∀ b ∈ l, R a b → p b = true → p a = true) →
      l.dropWhile p = l.filter (fun x => !(p x)) := by
  intro l
  induction l with
  | nil => intro _ _; rfl
  | cons a t ih =>
    intro h hdc
    rcases List.pairwise_cons.mp h with ⟨ha, ht⟩
    rw [List.dropWhile_cons, List.filter_cons]
    by_cases hp : p a = true
    · rw [if_pos hp, hp]
      simp only [Bool.not_true, if_neg Bool.false_ne_true]
      exact ih ht fun x hx y hy hr hq =>
        hdc x (List.mem_cons_of_mem _ hx) y (List.mem_cons_of_mem _ hy) hr hq
    · rw [if_neg hp]
      have hall : ∀ x ∈ t, p x = false := by
        intro x hx
        by_contra hc
        have : p x = true := by
          revert hc
          cases p x <;> simp
        exact hp (hdc a (List.mem_cons_self _ _) x (List.mem_cons_of_mem _ hx) (ha x hx) this)
      have hfil : t.filter (fun x => !(p x)) = t := by
        rw [List.filter_eq_self]
        intro x hx
        simp [hall x hx]
      have hpa : (!(p a)) = true := by
        revert hp
        cases p a <;> simp
      rw [if_pos hpa, hfil]

theorem takeWhile_sorted {α : Type} {R : α → α → Prop} {q : α → Bool} :
    ∀ {l : List α}, l.Pairwise R →
      (∀ a ∈ l, ∀ b ∈ l, R a b → q b = true → q a = true) →
      l.takeWhile q = l.filter q := by
  intro l
  induction l with
  | nil => intro _ _; rfl
  | cons a t ih =>
    intro h hdc
    rcases List.pairwise_cons.mp h with ⟨ha, ht⟩
    rw [List.takeWhile_cons, List.filter_cons]
    by_cases hq : q a = true
    · rw [if_pos hq, if_pos hq]
      rw [ih ht fun x hx y hy hr hh =>
        hdc x (List.mem_cons_of_mem _ hx) y (List.mem_cons_of_mem _ hy) hr hh]
    · rw [if_neg hq, if_neg hq]
      have hfil : t.filter q = [] := by
        rw [List.filter_eq_nil_iff]
        intro x hx
        intro hc
        exact hq (hdc a (List.mem_cons_self _ _) x (List.mem_cons_of_mem _ hx) (ha x hx) hc)
      rw [hfil]

/-- The posting-list lemma: the inclusive prefix scan of a sorted pair table
from `(t, 0)`, taken while the leading component stays `t`, is exactly the
set of entries with leading component `t`. -/
theorem piter_takeWhile_eq_filter {l : List (Nat × Nat)} (h : WFp l) (t : Nat) :
    (piter l (t, 0)).takeWhile (fun e => decide (e.1 = t)) =
      l.filter (fun e => decide (e.1 = t)) := by
  have h1 : piter l (t, 0) = l.filter (fun e => !(decide (plt e (t, 0)))) := by
    exact dropWhile_sorted h fun a _ b _ hr hq => by
      simp only [decide_eq_true_eq] at hq ⊢
      exact plt_trans hr hq
  rw [h1]
  rw [takeWhile_sorted (h.filter _) ?hdc]
  case hdc =>
    intro a hamem b hbmem hr hq
    simp only [decide_eq_true_eq] at hq ⊢
    rcases List.mem_filter.mp hamem with ⟨_, hpa⟩
    simp only [Bool.not_eq_eq_eq_not, Bool.not_true, decide_eq_false_iff_not, plt_zero] at hpa
    rcases hr with hlt | ⟨heq, _⟩
    · omega
    · omega
  rw [List.filter_filter]
  refine List.filter_congr ?_
  intro e he
  simp only [Bool.and_eq_true, Bool.not_eq_eq_eq_not, Bool.not_true, decide_eq_false_iff_not,
    decide_eq_true_eq, plt_zero]
  by_cases hc : e.1 = t
  · simp [hc]
  · simp [hc]

/-! ## Preservation of sortedness and posting symmetry -/

theorem foldl_invariant {α β : Type} {P : β → Prop} {f : β → α → β} :
    ∀ {l : List α} {b : β}, P b → (∀ b', P b' → ∀ a ∈ l, P (f b' a)) →
      P (l.foldl f b) := by
  intro l
  induction l with
  | nil => intro b hb _; exact hb
  | cons a t ih =>
    intro b hb hf
    rw [List.foldl_cons]
    exact ih (hf b hb a (List.mem_cons_self _ _))
      fun b' hb' x hx => hf b' hb' x (List.mem_cons_of_mem _ hx)

theorem srcUpd_wfSym {db : DB} (h : WFdb db ∧ SymInv db) (x : Obj) :
    WFdb (srcUpd db x) ∧ SymInv (srcUpd db x) := by
  rcases h with ⟨⟨hT, hO, hS, hC, hOC⟩, hsym⟩
  cases x with
  | raw d => exact ⟨⟨hT, hO, WFn_nput hS, hC, hOC⟩, hsym⟩
  | ident i => exact ⟨⟨hT, hO, hS, hC, hOC⟩, hsym⟩

theorem srcDel_wfSym {db : DB} (h : WFdb db ∧ SymInv db) (x : Obj) :
    WFdb (srcDel db x) ∧ SymInv (srcDel db x) := by
  rcases h with ⟨⟨hT, hO, hS, hC, hOC⟩, hsym⟩
  cases x with
  | raw d => exact ⟨⟨hT, hO, WFn_ndel hS _, hC, hOC⟩, hsym⟩
  | ident i => exact ⟨⟨hT, hO, hS, hC, hOC⟩, hsym⟩

theorem insertStep_wfSym {oid : Nat} {E : List Nat} {acc : DB × Nat}
    (h : WFdb acc.1 ∧ SymInv acc.1) (tag : Obj) :
    WFdb (insertStep oid E acc tag).1 ∧ SymInv (insertStep oid E acc tag).1 := by
  rcases h with ⟨⟨hT, hO, hS, hC, hOC⟩, hsym1, hsym2⟩
  unfold insertStep
  by_cases hmem : getId tag ∈ E
  · simp only [if_pos hmem]
    exact ⟨⟨hT, hO, hS, hC, hOC⟩, hsym1, hsym2⟩
  · simp only [if_neg hmem]
    have hsym1' : ∀ e ∈ pput acc.1.tagObject (getId tag, oid),
        (e.2, e.1) ∈ pput acc.1.objectTag (oid, getId tag) := by
      intro e he
      rcases (mem_pput hT).mp he with rfl | he'
      · exact (mem_pput hO).mpr (Or.inl rfl)
      · exact (mem_pput hO).mpr (Or.inr (hsym1 e he'))
    have hsym2' : ∀ e ∈ pput acc.1.objectTag (oid, getId tag),
        (e.2, e.1) ∈ pput acc.1.tagObject (getId tag, oid) := by
      intro e he
      rcases (mem_pput hO).mp he with rfl | he'
      · exact (mem_pput hT).mpr (Or.inl rfl)
      · exact (mem_pput hT).mpr (Or.inr (hsym2 e he'))
    have hmid := @srcUpd_wfSym { acc.1 with
        tagObject := pput acc.1.tagObject (getId tag, oid),
        objectTag := pput acc.1.objectTag (oid, getId tag) }
      ⟨⟨WFp_pput hT, WFp_pput hO, hS, hC, hOC⟩, hsym1', hsym2'⟩ tag
    rcases hmid with ⟨⟨hT', hO', hS', hC', hOC'⟩, hsym1'', hsym2''⟩
    have hTsrc : (srcUpd { acc.1 with
        tagObject := pput acc.1.tagObject (getId tag, oid),
        objectTag := pput acc.1.objectTag (oid, getId tag) } tag).tagObject =
        pput acc.1.tagObject (getId tag, oid) := by
      cases tag <;> rfl
    have hOsrc : (srcUpd { acc.1 with
        tagObject := pput acc.1.tagObject (getId tag, oid),
        objectTag := pput acc.1.objectTag (oid, getId tag) } tag).objectTag =
        pput acc.1.objectTag (oid, getId tag) := by
      cases tag <;> rfl
    exact ⟨⟨hT', hO', hS', WFn_nput hC', hOC'⟩, hsym1'', hsym2''⟩

theorem insert_wfSym {db : DB} (h : WFdb db ∧ SymInv db) (o : Obj) (ts : List Obj) :
    WFdb (insert db o ts) ∧ SymInv (insert db o ts) := by
  have h1 := srcUpd_wfSym h o
  have hfold := foldl_invariant (P := fun (acc : DB × Nat) => WFdb acc.1 ∧ SymInv acc.1)
    (l := ts) (b := (srcUpd db o, 0))
    (f := insertStep (getId o) ((getTags (srcUpd db o) o).dedup))
    h1 (fun b' hb' a _ => insertStep_wfSym hb' a)
  rcases hfold with ⟨⟨hT', hO', hS', hC', hOC'⟩, hsym'⟩
  exact ⟨⟨hT', hO', hS', hC', WFn_nput hOC'⟩, hsym'⟩

theorem removeObjectStep_wfSym {acc : Except Err DB} (e : Nat × Nat)
    (h : ∀ db', acc = .ok db' → WFdb db' ∧ SymInv db') :
    ∀ db', removeObjectStep acc e = .ok db' → WFdb db' ∧ SymInv db' := by
  intro db' heq
  cases acc with
  | error er => exact Except.noConfusion heq
  | ok db0 =>
    rcases h db0 rfl with ⟨⟨hT, hO, hS, hC, hOC⟩, hsym1, hsym2⟩
    simp only [removeObjectStep, Except.bind, bind] at heq
    rcases hc : (nget { db0 with
        tagObject := pdel db0.tagObject (e.2, e.1),
        objectTag := pdel db0.objectTag (e.1, e.2) }.tagCount e.2).getD 0 with _ | c
    · rw [hc] at heq; simp at heq
    · rw [hc] at heq
      simp only [Except.ok.injEq] at heq
      subst heq
      refine ⟨⟨WFp_pdel hT _, WFp_pdel hO _, hS, WFn_nput hC, hOC⟩, ?_, ?_⟩
      · intro x hx
        rcases mem_pdel.mp hx with ⟨hx1, hx2⟩
        refine mem_pdel.mpr ⟨hsym1 x hx1, ?_⟩
        intro hh
        apply hx2
        have : x.1 = e.2 ∧ x.2 = e.1 := by
          constructor
          · exact congrArg Prod.snd hh
          · exact congrArg Prod.fst hh
        rcases x with ⟨x1, x2⟩
        simp only at this
        simp [this.1, this.2]
      · intro x hx
        rcases mem_pdel.mp hx with ⟨hx1, hx2⟩
        refine mem_pdel.mpr ⟨hsym2 x hx1, ?_⟩
        intro hh
        apply hx2
        have : x.1 = e.1 ∧ x.2 = e.2 := by
          constructor
          · exact congrArg Prod.snd hh
          · exact congrArg Prod.fst hh
        rcases x with ⟨x1, x2⟩
        simp only at this
        simp [this.1, this.2]

theorem removeObject_wfSym {db : DB} (h : WFdb db ∧ SymInv db) (o : Obj) :
    ∀ db', removeObject db o = .ok db' → WFdb db' ∧ SymInv db' := by
  intro db' heq
  simp only [removeObject] at heq
  rcases hg : nget db.objectCount (getId o) with _ | c
  · rw [hg] at heq
    simp only [Except.ok.injEq] at heq
    subst heq
    exact h
  · rw [hg] at heq
    have hfold := foldl_invariant
      (P := fun (acc : Except Err DB) => ∀ d', acc = .ok d' → WFdb d' ∧ SymInv d')
      (f := removeObjectStep)
      (l := (piter (srcDel db o).objectTag ((getId o), 0)).takeWhile
        (fun e => decide (e.1 = getId o)))
      (b := Except.ok (srcDel db o))
      (fun d' hd' => by cases hd'; exact srcDel_wfSym h o)
      (fun b' hb' a _ => removeObjectStep_wfSym a hb')
    rcases hfo : ((piter (srcDel db o).objectTag ((getId o), 0)).takeWhile
        (fun e => decide (e.1 = getId o))).foldl removeObjectStep
        (Except.ok (srcDel db o)) with er | dmid
    · rw [hfo] at heq
      simp at heq
    · rw [hfo] at heq
      simp only [Except.ok.injEq] at heq
      subst heq
      rw [hfo] at hfold
      rcases hfold dmid rfl with ⟨⟨hT', hO', hS', hC', hOC'⟩, hsym'⟩
      exact ⟨⟨hT', hO', hS', hC', WFn_ndel hOC' _⟩, hsym'⟩

theorem removeTagsStep_wfSym {oid : Nat} {E : List Nat} {acc : Except Err (DB × Nat)}
    (tag : Obj) (h : ∀ r, acc = .ok r → WFdb r.1 ∧ SymInv r.1) :
    ∀ r, removeTagsStep oid E acc tag = .ok r → WFdb r.1 ∧ SymInv r.1 := by
  intro r heq
  cases acc with
  | error er => exact Except.noConfusion heq
  | ok r0 =>
    rcases h r0 rfl with ⟨⟨hT, hO, hS, hC, hOC⟩, hsym1, hsym2⟩
    simp only [removeTagsStep, Except.bind, bind] at heq
    by_cases hmem : getId tag ∈ E
    · rw [if_pos hmem] at heq
      have hsymDel : SymInv { r0.1 with
          tagObject := pdel r0.1.tagObject (getId tag, oid),
          objectTag := pdel r0.1.objectTag (oid, getId tag) } := by
        constructor
        · intro x hx
          rcases mem_pdel.mp hx with ⟨hx1, hx2⟩
          refine mem_pdel.mpr ⟨hsym1 x hx1, ?_⟩
          intro hh
          apply hx2
          rcases x with ⟨x1, x2⟩
          have h1 : x2 = oid := congrArg Prod.fst hh
          have h2 : x1 = getId tag := congrArg Prod.snd hh
          simp [h1, h2]
        · intro x hx
          rcases mem_pdel.mp hx with ⟨hx1, hx2⟩
          refine mem_pdel.mpr ⟨hsym2 x hx1, ?_⟩
          intro hh
          apply hx2
          rcases x with ⟨x1, x2⟩
          have h1 : x2 = getId tag := congrArg Prod.fst hh
          have h2 : x1 = oid := congrArg Prod.snd hh
          simp [h1, h2]
      split at heq <;>
        first
          | exact Except.noConfusion heq
          | (split at heq <;>
              simp only [Except.ok.injEq] at heq <;>
              subst heq <;>
              first
                | exact ⟨⟨WFp_pdel hT _, WFp_pdel hO _, hS, WFn_nput hC, hOC⟩,
                    hsymDel.1, hsymDel.2⟩
                | exact @srcDel_wfSym { r0.1 with
                      tagObject := pdel r0.1.tagObject (getId tag, oid),
                      objectTag := pdel r0.1.objectTag (oid, getId tag),
                      tagCount := ndel r0.1.tagCount (getId tag) }
                    ⟨⟨WFp_pdel hT _, WFp_pdel hO _, hS, WFn_ndel hC _, hOC⟩,
                      hsymDel.1, hsymDel.2⟩ tag)
    · rw [if_neg hmem] at heq
      simp only [Except.ok.injEq] at heq
      subst heq
      exact ⟨⟨hT, hO, hS, hC, hOC⟩, hsym1, hsym2⟩

theorem removeTags_wfSym {db : DB} (h : WFdb db ∧ SymInv db) (o : Obj) (ts : List Obj) :
    ∀ db', removeTagsFromObject db o ts = .ok db' → WFdb db' ∧ SymInv db' := by
  intro db' heq
  simp only [removeTagsFromObject] at heq
  rcases hg : nget db.objectCount (getId o) with _ | c
  · simp only [hg] at heq
    simp only [Except.ok.injEq] at heq
    subst heq
    exact h
  · simp only [hg] at heq
    have hfold := foldl_invariant
      (P := fun (acc : Except Err (DB × Nat)) => ∀ r, acc = .ok r → WFdb r.1 ∧ SymInv r.1)
      (f := removeTagsStep (getId o) ((getTags db o).dedup))
      (l := ts) (b := Except.ok (db, 0))
      (fun r hr => by cases hr; exact h)
      (fun b' hb' a _ => removeTagsStep_wfSym a hb')
    rcases hfo : ts.foldl (removeTagsStep (getId o) ((getTags db o).dedup))
        (Except.ok (db, 0)) with er | r
    · simp only [hfo] at heq
      exact Except.noConfusion heq
    · obtain ⟨rdb, rn⟩ := r
      simp only [hfo] at heq
      rcases hfold (rdb, rn) hfo with ⟨⟨hT', hO', hS', hC', hOC'⟩, hsym'⟩
      by_cases h1 : rn = ((getTags db o).dedup).length
      · rw [if_pos h1] at heq
        simp only [Except.ok.injEq] at heq
        subst heq
        exact @srcDel_wfSym { rdb with
            objectCount := ndel rdb.objectCount (getId o) }
          ⟨⟨hT', hO', hS', hC', WFn_ndel hOC' _⟩, hsym'⟩ o
      · rw [if_neg h1] at heq
        by_cases h2 : rn < ((getTags db o).dedup).length
        · rw [if_pos h2] at heq
          simp only [Except.ok.injEq] at heq
          subst heq
          exact ⟨⟨hT', hO', hS', hC', WFn_nput hOC'⟩, hsym'⟩
        · rw [if_neg h2] at heq
          exact Except.noConfusion heq

theorem wfSym_empty : WFdb DB.empty ∧ SymInv DB.empty := by
  refine ⟨⟨?_, ?_, ?_, ?_, ?_⟩, ?_, ?_⟩ <;> simp [DB.empty, WFp, WFn, SymInv]

theorem applyOp_wfSym {db : DB} (h : WFdb db ∧ SymInv db) (op : Op) :
    WFdb (applyOp db op) ∧ SymInv (applyOp db op) := by
  cases op with
  | ins o ts => exact insert_wfSym h o ts
  | rmo o =>
    simp only [applyOp]
    rcases hr : removeObject db o with er | db'
    · exact h
    · exact removeObject_wfSym h o db' hr
  | rmt o ts =>
    simp only [applyOp]
    rcases hr : removeTagsFromObject db o ts with er | db'
    · exact h
    · exact removeTags_wfSym h o ts db' hr

theorem wfSym_runOps (ops : List Op) : WFdb (runOps ops) ∧ SymInv (runOps ops) := by
  unfold runOps
  exact foldl_invariant (P := fun d => WFdb d ∧ SymInv d) wfSym_empty
    (fun d hd op _ => applyOp_wfSym hd op)

/-! ## Claim C4 -/

/-- Claim C4 (confirmed): starting from the empty index, after every finite
sequence of `insert`, `remove_object` and `remove_tags_from_object` calls,
`(t,o)` is a key of `tag→object` iff `(o,t)` is a key of `object→tag`. -/
theorem c4_tag_object_symmetric (ops : List Op) (t o : Nat) :
    (t, o) ∈ (runOps ops).tagObject ↔ (o, t) ∈ (runOps ops).objectTag := by
  have h := (wfSym_runOps ops).2
  exact ⟨fun hm => h.1 (t, o) hm, fun hm => h.2 (o, t) hm⟩

/-! ## Field equations for the preimage helpers -/

theorem srcUpd_tagObject (db : DB) (x : Obj) : (srcUpd db x).tagObject = db.tagObject := by
  cases x <;> rfl

theorem srcUpd_objectTag (db : DB) (x : Obj) : (srcUpd db x).objectTag = db.objectTag := by
  cases x <;> rfl

theorem srcUpd_tagCount (db : DB) (x : Obj) : (srcUpd db x).tagCount = db.tagCount := by
  cases x <;> rfl

theorem srcUpd_objectCount (db : DB) (x : Obj) :
    (srcUpd db x).objectCount = db.objectCount := by
  cases x <;> rfl

theorem srcDel_tagObject (db : DB) (x : Obj) : (srcDel db x).tagObject = db.tagObject := by
  cases x <;> rfl

theorem srcDel_objectTag (db : DB) (x : Obj) : (srcDel db x).objectTag = db.objectTag := by
  cases x <;> rfl

theorem srcDel_tagCount (db : DB) (x : Obj) : (srcDel db x).tagCount = db.tagCount := by
  cases x <;> rfl

theorem srcDel_objectCount (db : DB) (x : Obj) :
    (srcDel db x).objectCount = db.objectCount := by
  cases x <;> rfl

/-! ## `get_tags` as a filter of the reverse-posting table -/

theorem getTags_eq_filter {db : DB} (h : WFp db.objectTag) (o : Obj) :
    getTags db o = (db.objectTag.filter (fun e => decide (e.1 = getId o))).map
      (fun e => e.2) := by
  unfold getTags
  rw [piter_takeWhile_eq_filter h]

theorem mem_getTags_iff {db : DB} (h : WFp db.objectTag) {o : Obj} {t : Nat} :
    t ∈ getTags db o ↔ (getId o, t) ∈ db.objectTag := by
  rw [getTags_eq_filter h]
  simp only [List.mem_map, List.mem_filter, decide_eq_true_eq]
  constructor
  · rintro ⟨e, ⟨he, h1⟩, rfl⟩
    rcases e with ⟨a, b⟩
    simp only at h1 ⊢
    subst h1
    exact he
  · intro hm
    exact ⟨(getId o, t), ⟨hm, rfl⟩, rfl⟩

theorem getTags_nodup {db : DB} (h : WFp db.objectTag) (o : Obj) :
    (getTags db o).Nodup := by
  rw [getTags_eq_filter h]
  have hp : (db.objectTag.filter (fun e => decide (e.1 = getId o))).Pairwise
      (fun a b => a.2 < b.2) := by
    refine List.Pairwise.imp_of_mem ?_ (h.filter _)
    intro a b ha hb hab
    have ha' := (List.mem_filter.mp ha).2
    have hb' := (List.mem_filter.mp hb).2
    simp only [decide_eq_true_eq] at ha' hb'
    rcases hab with h1 | ⟨h1, h2⟩
    · omega
    · exact h2
  exact hp.map (fun e : Nat × Nat => e.2) fun a b hab => Nat.ne_of_lt hab

theorem getTags_length {db : DB} (h : WFp db.objectTag) (o : Obj) :
    (getTags db o).length = cntO db (getId o) := by
  rw [getTags_eq_filter h]
  simp [cntO]

theorem getTags_srcUpd (db : DB) (x : Obj) (o : Obj) :
    getTags (srcUpd db x) o = getTags db o := by
  unfold getTags
  rw [srcUpd_objectTag]

theorem valid_cntO_zero {db : DB} (hv : Valid db) {x : Nat}
    (h : nget db.objectCount x = none) : cntO db x = 0 := by
  by_contra hc
  have hpos : 0 < (db.objectTag.filter (fun e => decide (e.1 = x))).length :=
    Nat.pos_of_ne_zero hc
  rcases List.exists_mem_of_length_pos hpos with ⟨e, he⟩
  rcases List.mem_filter.mp he with ⟨hmem, hx⟩
  simp only [decide_eq_true_eq] at hx
  have := hv.2.2.2.2.2 e hmem
  rw [hx, h] at this
  simp at this

theorem valid_objectCount_eq {db : DB} (hv : Valid db) {x c : Nat}
    (h : nget db.objectCount x = some c) : c = cntO db x :=
  hv.2.2.2.2.1 (x, c) (nget_mem h)

/-! ## Membership characterization of the insert loop -/

theorem insFold_mem_tables : ∀ (ts : List Obj) (b : DB × Nat) (oid : Nat) (E : List Nat),
    WFdb b.1 ∧ SymInv b.1 →
    ∀ e1 e2 : Nat,
      (((e1, e2) ∈ (ts.foldl (insertStep oid E) b).1.tagObject ↔
        (e1, e2) ∈ b.1.tagObject ∨ (e2 = oid ∧ e1 ∈ ts.map getId ∧ e1 ∉ E)) ∧
      ((e1, e2) ∈ (ts.foldl (insertStep oid E) b).1.objectTag ↔
        (e1, e2) ∈ b.1.objectTag ∨ (e1 = oid ∧ e2 ∈ ts.map getId ∧ e2 ∉ E))) := by
  intro ts
  induction ts with
  | nil =>
    intro b oid E _ e1 e2
    simp
  | cons a ts ih =>
    intro b oid E hb e1 e2
    rw [List.foldl_cons]
    by_cases hmem : getId a ∈ E
    · have hstep : insertStep oid E b a = b := by
        unfold insertStep
        rw [if_pos hmem]
      rw [hstep]
      have hih := ih b oid E hb e1 e2
      constructor
      · rw [hih.1]
        simp only [List.map_cons, List.mem_cons]
        constructor
        · rintro (h | ⟨h1, h2, h3⟩)
          · exact Or.inl h
          · exact Or.inr ⟨h1, Or.inr h2, h3⟩
        · rintro (h | ⟨h1, h2 | h2, h3⟩)
          · exact Or.inl h
          · exact absurd (h2 ▸ hmem) h3
          · exact Or.inr ⟨h1, h2, h3⟩
      · rw [hih.2]
        simp only [List.map_cons, List.mem_cons]
        constructor
        · rintro (h | ⟨h1, h2, h3⟩)
          · exact Or.inl h
          · exact Or.inr ⟨h1, Or.inr h2, h3⟩
        · rintro (h | ⟨h1, h2 | h2, h3⟩)
          · exact Or.inl h
          · exact absurd (h2 ▸ hmem) h3
          · exact Or.inr ⟨h1, h2, h3⟩
    · have hT : (insertStep oid E b a).1.tagObject = pput b.1.tagObject (getId a, oid) := by
        unfold insertStep
        rw [if_neg hmem]
        cases a <;> rfl
      have hO : (insertStep oid E b a).1.objectTag = pput b.1.objectTag (oid, getId a) := by
        unfold insertStep
        rw [if_neg hmem]
        cases a <;> rfl
      have hih := ih (insertStep oid E b a) oid E (insertStep_wfSym hb a) e1 e2
      constructor
      · rw [hih.1, hT, mem_pput hb.1.1]
        simp only [List.map_cons, List.mem_cons, Prod.mk.injEq]
        constructor
        · rintro ((⟨h1, h2⟩ | h) | ⟨h1, h2, h3⟩)
          · exact Or.inr ⟨h2, Or.inl h1, h1 ▸ hmem⟩
          · exact Or.inl h
          · exact Or.inr ⟨h1, Or.inr h2, h3⟩
        · rintro (h | ⟨h1, h2 | h2, h3⟩)
          · exact Or.inl (Or.inr h)
          · exact Or.inl (Or.inl ⟨h2, h1⟩)
          · exact Or.inr ⟨h1, h2, h3⟩
      · rw [hih.2, hO, mem_pput hb.1.2.1]
        simp only [List.map_cons, List.mem_cons, Prod.mk.injEq]
        constructor
        · rintro ((⟨h1, h2⟩ | h) | ⟨h1, h2, h3⟩)
          · exact Or.inr ⟨h1, Or.inl h2, h2 ▸ hmem⟩
          · exact Or.inl h
          · exact Or.inr ⟨h1, Or.inr h2, h3⟩
        · rintro (h | ⟨h1, h2 | h2, h3⟩)
          · exact Or.inl (Or.inr h)
          · exact Or.inl (Or.inl ⟨h1, h2⟩)
          · exact Or.inr ⟨h1, h2, h3⟩

theorem insFold_skip {oid : Nat} {E : List Nat} :
    ∀ {ts : List Obj} {b : DB × Nat}, (∀ a ∈ ts, getId a ∈ E) →
      ts.foldl (insertStep oid E) b = b := by
  intro ts
  induction ts with
  | nil => intro b _; rfl
  | cons a ts ih =>
    intro b h
    rw [List.foldl_cons]
    have hstep : insertStep oid E b a = b := by
      unfold insertStep
      rw [if_pos (h a (List.mem_cons_self _ _))]
    rw [hstep]
    exact ih fun x hx => h x (List.mem_cons_of_mem _ hx)

/-- Membership in the reverse-posting table after a full `insert` call. -/
theorem insert_mem_objectTag {db : DB} (hwf : WFdb db ∧ SymInv db) (o : Obj)
    (ts : List Obj) {e1 e2 : Nat} :
    (e1, e2) ∈ (insert db o ts).objectTag ↔
      (e1, e2) ∈ db.objectTag ∨ (e1 = getId o ∧ e2 ∈ ts.map getId) := by
  have hchar := (insFold_mem_tables ts (srcUpd db o, 0) (getId o)
    ((getTags (srcUpd db o) o).dedup) ⟨(srcUpd_wfSym hwf o).1, (srcUpd_wfSym hwf o).2⟩
    e1 e2).2
  have hins : (insert db o ts).objectTag =
      (ts.foldl (insertStep (getId o) ((getTags (srcUpd db o) o).dedup))
        (srcUpd db o, 0)).1.objectTag := rfl
  rw [hins, hchar, srcUpd_objectTag]
  constructor
  · rintro (h | ⟨h1, h2, _⟩)
    · exact Or.inl h
    · exact Or.inr ⟨h1, h2⟩
  · rintro (h | ⟨h1, h2⟩)
    · exact Or.inl h
    · by_cases hE : e2 ∈ (getTags (srcUpd db o) o).dedup
      · rw [List.mem_dedup, getTags_srcUpd, mem_getTags_iff hwf.1.2.1] at hE
        exact Or.inl (h1 ▸ hE)
      · exact Or.inr ⟨h1, h2, hE⟩

/-! ## Claim C10 -/

/-- Claim C10 (confirmed): inserting a previously unknown object with an
empty tag list makes it known with `object→count = 0`, stores the preimage
when the object is raw, and the object id is yielded by
`search([], [], None)`. -/
theorem c10_insert_no_tags {db : DB} (hv : Valid db) (o : Obj)
    (hunk : nget db.objectCount (getId o) = none) :
    nget (insert db o []).objectCount (getId o) = some 0 ∧
    (∀ d, o = Obj.raw d → nget (insert db o []).idSource (getId o) = some d) ∧
    getId o ∈ search (insert db o []) [] [] none := by
  have hwfs : WFdb db ∧ SymInv db := ⟨hv.1, hv.2.1⟩
  have hE : getTags (srcUpd db o) o = [] := by
    rw [getTags_srcUpd]
    have hlen := getTags_length hv.1.2.1 o
    rw [valid_cntO_zero hv hunk] at hlen
    exact List.length_eq_zero.mp hlen
  have hins : insert db o [] = { srcUpd db o with
      objectCount := nput (srcUpd db o).objectCount (getId o)
        (((getTags (srcUpd db o) o).dedup).length + 0) } := rfl
  have hWFoc : WFn (srcUpd db o).objectCount := by
    rw [srcUpd_objectCount]
    exact hv.1.2.2.2.2
  refine ⟨?_, ?_, ?_⟩
  · rw [hins]
    have : (((getTags (srcUpd db o) o).dedup).length + 0) = 0 := by
      rw [hE]
      rfl
    rw [this]
    exact nget_nput_self hWFoc
  · intro d hd
    subst hd
    exact nget_nput_self hv.1.2.2.1
  · have hmem : (getId o, 0) ∈ (insert db o []).objectCount := by
      rw [hins]
      have hz : (((getTags (srcUpd db o) o).dedup).length + 0) = 0 := by
        rw [hE]; rfl
      rw [hz]
      exact (nput_perm hWFoc).mem_iff.mpr (List.mem_cons_self _ _)
    have hplan : planAbsent (insert db o []) [] = [] := rfl
    show getId o ∈ searchZero (insert db o []) (planAbsent (insert db o []) []) none
    rw [hplan]
    unfold searchZero
    refine List.mem_filter.mpr ⟨?_, rfl⟩
    have hdrop : (if (none : Option Nat).isSome = true then 1 else 0) = 0 := rfl
    rw [hdrop, List.drop_zero]
    have hn0 : niter (insert db o []).objectCount ((none : Option Nat).getD 0) =
        (insert db o []).objectCount := by
      show niter (insert db o []).objectCount 0 = _
      rcases hoc : (insert db o []).objectCount with _ | ⟨e, t⟩
      · rfl
      · unfold niter
        rw [List.dropWhile_cons]
        simp
    rw [hn0]
    exact List.mem_map.mpr ⟨(getId o, 0), hmem, rfl⟩

/-- Witness for C10 at a concrete state. -/
theorem c10_insert_no_tags_witness :
    nget (insert DB.empty (Obj.ident 1) []).objectCount (getId (Obj.ident 1)) = some 0 ∧
    (∀ d, Obj.ident 1 = Obj.raw d →
      nget (insert DB.empty (Obj.ident 1) []).idSource (getId (Obj.ident 1)) = some d) ∧
    getId (Obj.ident 1) ∈ search (insert DB.empty (Obj.ident 1) []) [] [] none :=
  c10_insert_no_tags (by decide) (Obj.ident 1) (by decide)

/-! ## Claim C8 -/

/-- Claim C8 (confirmed): for a previously unknown object `o` and any tag
list `T` (duplicates permitted), after `insert(o,T); insert(o,T)` the tag set
of `o` is exactly the set of ids of `T`, and the second insert is a no-op for
every already-present tag: it leaves `tag→object`, `object→tag` and
`tag→count` untouched (it only rewrites the object's own preimage and count
records). -/
theorem c8_insert_idempotent {db : DB} (hv : Valid db) (o : Obj) (ts : List Obj)
    (hunk : nget db.objectCount (getId o) = none) :
    (getTags (insert (insert db o ts) o ts) o).toFinset = (ts.map getId).toFinset ∧
    (insert (insert db o ts) o ts).tagObject = (insert db o ts).tagObject ∧
    (insert (insert db o ts) o ts).objectTag = (insert db o ts).objectTag ∧
    (insert (insert db o ts) o ts).tagCount = (insert db o ts).tagCount := by
  have hwfs : WFdb db ∧ SymInv db := ⟨hv.1, hv.2.1⟩
  have hwfs1 := insert_wfSym hwfs o ts
  have hmem1 : ∀ t : Nat, t ∈ getTags (insert db o ts) o ↔ t ∈ ts.map getId := by
    intro t
    rw [mem_getTags_iff hwfs1.1.2.1, insert_mem_objectTag hwfs o ts]
    constructor
    · rintro (h | ⟨_, h2⟩)
      · have := hv.2.2.2.2.2 _ h
        rw [hunk] at this
        simp at this
      · exact h2
    · intro h
      exact Or.inr ⟨rfl, h⟩
  have hskip : ∀ a ∈ ts, getId a ∈ (getTags (srcUpd (insert db o ts) o) o).dedup := by
    intro a ha
    rw [List.mem_dedup, getTags_srcUpd]
    exact (hmem1 (getId a)).mpr (List.mem_map.mpr ⟨a, ha, rfl⟩)
  have hfold := @insFold_skip (getId o)
    ((getTags (srcUpd (insert db o ts) o) o).dedup) ts
    (srcUpd (insert db o ts) o, 0) hskip
  have h2T : (insert (insert db o ts) o ts).tagObject =
      (insert db o ts).tagObject := by
    show (ts.foldl (insertStep (getId o) ((getTags (srcUpd (insert db o ts) o) o).dedup))
      (srcUpd (insert db o ts) o, 0)).1.tagObject = _
    rw [hfold]
    exact srcUpd_tagObject _ _
  have h2O : (insert (insert db o ts) o ts).objectTag =
      (insert db o ts).objectTag := by
    show (ts.foldl (insertStep (getId o) ((getTags (srcUpd (insert db o ts) o) o).dedup))
      (srcUpd (insert db o ts) o, 0)).1.objectTag = _
    rw [hfold]
    exact srcUpd_objectTag _ _
  have h2C : (insert (insert db o ts) o ts).tagCount =
      (insert db o ts).tagCount := by
    show (ts.foldl (insertStep (getId o) ((getTags (srcUpd (insert db o ts) o) o).dedup))
      (srcUpd (insert db o ts) o, 0)).1.tagCount = _
    rw [hfold]
    exact srcUpd_tagCount _ _
  refine ⟨?_, h2T, h2O, h2C⟩
  · have hgt : getTags (insert (insert db o ts) o ts) o = getTags (insert db o ts) o := by
      unfold getTags
      rw [h2O]
    rw [hgt]
    ext t
    simp only [List.mem_toFinset]
    exact hmem1 t

/-- Witness for C8 at a concrete state with a duplicated tag list. -/
theorem c8_insert_idempotent_witness :
    (getTags (insert (insert DB.empty (Obj.ident 1) [Obj.ident 2, Obj.ident 2])
        (Obj.ident 1) [Obj.ident 2, Obj.ident 2]) (Obj.ident 1)).toFinset =
      ([Obj.ident 2, Obj.ident 2].map getId).toFinset ∧
    (insert (insert DB.empty (Obj.ident 1) [Obj.ident 2, Obj.ident 2])
        (Obj.ident 1) [Obj.ident 2, Obj.ident 2]).tagObject =
      (insert DB.empty (Obj.ident 1) [Obj.ident 2, Obj.ident 2]).tagObject ∧
    (insert (insert DB.empty (Obj.ident 1) [Obj.ident 2, Obj.ident 2])
        (Obj.ident 1) [Obj.ident 2, Obj.ident 2]).objectTag =
      (insert DB.empty (Obj.ident 1) [Obj.ident 2, Obj.ident 2]).objectTag ∧
    (insert (insert DB.empty (Obj.ident 1) [Obj.ident 2, Obj.ident 2])
        (Obj.ident 1) [Obj.ident 2, Obj.ident 2]).tagCount =
      (insert DB.empty (Obj.ident 1) [Obj.ident 2, Obj.ident 2]).tagCount :=
  c8_insert_idempotent (by decide) (Obj.ident 1) [Obj.ident 2, Obj.ident 2] (by decide)

/-! ## Where `id→source` records can come from -/

theorem rawMentioned_cons {op : Op} {ops : List Op} {x : Nat} :
    rawMentioned (op :: ops) x ↔ opMentions op x ∨ rawMentioned ops x := by
  unfold rawMentioned
  constructor
  · rintro ⟨a, ha, hma⟩
    rcases List.mem_cons.mp ha with rfl | ha'
    · exact Or.inl hma
    · exact Or.inr ⟨a, ha', hma⟩
  · rintro (hm | ⟨a, ha, hma⟩)
    · exact ⟨op, List.mem_cons_self _ _, hm⟩
    · exact ⟨a, List.mem_cons_of_mem _ ha, hma⟩

theorem insert_src {db : DB} (hwf : WFdb db ∧ SymInv db) (o : Obj) (ts : List Obj)
    {x : Nat} {v : List Nat} (hm : (x, v) ∈ (insert db o ts).idSource) :
    (∃ v', (x, v') ∈ db.idSource) ∨ opMentions (Op.ins o ts) x := by
  have hbase : (WFdb (srcUpd db o) ∧ SymInv (srcUpd db o)) ∧
      ∀ y w, (y, w) ∈ (srcUpd db o).idSource →
        (∃ v', (y, v') ∈ db.idSource) ∨ opMentions (Op.ins o ts) y := by
    refine ⟨srcUpd_wfSym hwf o, ?_⟩
    intro y w hy
    cases o with
    | raw d =>
      have hperm := nput_perm (k := idOfRaw d) (v := d) hwf.1.2.2.1
      rcases List.mem_cons.mp (hperm.mem_iff.mp hy) with hh | hh
      · have hyd : y = idOfRaw d := congrArg Prod.fst hh
        exact Or.inr (Or.inl ⟨d, rfl, hyd.symm⟩)
      · exact Or.inl ⟨w, (mem_ndel.mp hh).1⟩
    | ident i => exact Or.inl ⟨w, hy⟩
  have hfold := foldl_invariant
    (P := fun (acc : DB × Nat) => (WFdb acc.1 ∧ SymInv acc.1) ∧
      ∀ y w, (y, w) ∈ acc.1.idSource →
        (∃ v', (y, v') ∈ db.idSource) ∨ opMentions (Op.ins o ts) y)
    (f := insertStep (getId o) ((getTags (srcUpd db o) o).dedup))
    (l := ts) (b := (srcUpd db o, 0)) hbase ?step
  case step =>
    intro b' hb' a ha
    refine ⟨insertStep_wfSym hb'.1 a, ?_⟩
    intro y w hy
    unfold insertStep at hy
    by_cases hmem : getId a ∈ (getTags (srcUpd db o) o).dedup
    · rw [if_pos hmem] at hy
      exact hb'.2 y w hy
    · rw [if_neg hmem] at hy
      cases a with
      | raw d =>
        have hperm := nput_perm (k := idOfRaw d) (v := d) hb'.1.1.2.2.1
        rcases List.mem_cons.mp (hperm.mem_iff.mp hy) with hh | hh
        · have hyd : y = idOfRaw d := congrArg Prod.fst hh
          exact Or.inr (Or.inr ⟨Obj.raw d, ha, d, rfl, hyd.symm⟩)
        · exact hb'.2 y w (mem_ndel.mp hh).1
      | ident i => exact hb'.2 y w hy
  exact hfold.2 x v hm

theorem removeObjectStep_src {acc : Except Err DB} {e : Nat × Nat} {d' : DB}
    (heq : removeObjectStep acc e = .ok d') :
    ∃ d0, acc = .ok d0 ∧ d'.idSource = d0.idSource := by
  cases acc with
  | error er => exact Except.noConfusion heq
  | ok d0 =>
    refine ⟨d0, rfl, ?_⟩
    simp only [removeObjectStep, Except.bind, bind] at heq
    split at heq <;>
      first
        | exact Except.noConfusion heq
        | (simp only [Except.ok.injEq] at heq; subst heq; rfl)

theorem removeObject_src {db : DB} (o : Obj) {db' : DB}
    (heq : removeObject db o = .ok db') :
    ∀ x v, (x, v) ∈ db'.idSource → (x, v) ∈ db.idSource := by
  intro x v hm
  simp only [removeObject] at heq
  rcases hg : nget db.objectCount (getId o) with _ | c
  · simp only [hg, Except.ok.injEq] at heq
    subst heq
    exact hm
  · simp only [hg] at heq
    have hfold := foldl_invariant
      (P := fun (acc : Except Err DB) => ∀ d', acc = .ok d' →
        d'.idSource = (srcDel db o).idSource)
      (f := removeObjectStep)
      (l := (piter (srcDel db o).objectTag ((getId o), 0)).takeWhile
        (fun e => decide (e.1 = getId o)))
      (b := Except.ok (srcDel db o))
      (fun d' hd' => by cases hd'; rfl)
      (fun b' hb' a _ => by
        intro d' hd'
        rcases removeObjectStep_src hd' with ⟨d0, hb0, hsrc⟩
        rw [hsrc, hb' d0 hb0])
    rcases hfo : ((piter (srcDel db o).objectTag ((getId o), 0)).takeWhile
        (fun e => decide (e.1 = getId o))).foldl removeObjectStep
        (Except.ok (srcDel db o)) with er | dmid
    · simp only [hfo] at heq
      exact Except.noConfusion heq
    · simp only [hfo, Except.ok.injEq] at heq
      subst heq
      rw [hfo] at hfold
      have hsrc := hfold dmid rfl
      have hm' : (x, v) ∈ (srcDel db o).idSource := by
        rw [← hsrc]; exact hm
      cases o with
      | raw d => exact (mem_ndel.mp hm').1
      | ident i => exact hm'

theorem removeTagsStep_src {oid : Nat} {E : List Nat} {acc : Except Err (DB × Nat)}
    {tag : Obj} {r : DB × Nat} (heq : removeTagsStep oid E acc tag = .ok r) :
    ∃ r0, acc = .ok r0 ∧ ∀ x v, (x, v) ∈ r.1.idSource → (x, v) ∈ r0.1.idSource := by
  cases acc with
  | error er => exact Except.noConfusion heq
  | ok r0 =>
    refine ⟨r0, rfl, ?_⟩
    intro x v hm
    simp only [removeTagsStep, Except.bind, bind] at heq
    by_cases hmem : getId tag ∈ E
    · rw [if_pos hmem] at heq
      split at heq <;>
        first
          | exact Except.noConfusion heq
          | (split at heq <;>
              simp only [Except.ok.injEq] at heq <;>
              subst heq <;>
              first
                | exact hm
                | (cases tag with
                    | raw d => exact (mem_ndel.mp hm).1
                    | ident i => exact hm))
    · rw [if_neg hmem] at heq
      simp only [Except.ok.injEq] at heq
      subst heq
      exact hm

theorem removeTags_src {db : DB} (o : Obj) (ts : List Obj) {db' : DB}
    (heq : removeTagsFromObject db o ts = .ok db') :
    ∀ x v, (x, v) ∈ db'.idSource → (x, v) ∈ db.idSource := by
  intro x v hm
  simp only [removeTagsFromObject] at heq
  rcases hg : nget db.objectCount (getId o) with _ | c
  · simp only [hg, Except.ok.injEq] at heq
    subst heq
    exact hm
  · simp only [hg] at heq
    have hfold := foldl_invariant
      (P := fun (acc : Except Err (DB × Nat)) => ∀ r, acc = .ok r →
        ∀ y w, (y, w) ∈ r.1.idSource → (y, w) ∈ db.idSource)
      (f := removeTagsStep (getId o) ((getTags db o).dedup))
      (l := ts) (b := Except.ok (db, 0))
      (fun r hr => by cases hr; exact fun y w hw => hw)
      (fun b' hb' a _ => by
        intro r hr
        rcases removeTagsStep_src hr with ⟨r0, hb0, hsub⟩
        exact fun y w hw => hb' r0 hb0 y w (hsub y w hw))
    rcases hfo : ts.foldl (removeTagsStep (getId o) ((getTags db o).dedup))
        (Except.ok (db, 0)) with er | r
    · simp only [hfo] at heq
      exact Except.noConfusion heq
    · obtain ⟨rdb, rn⟩ := r
      simp only [hfo] at heq
      rw [hfo] at hfold
      have hsub := hfold (rdb, rn) rfl
      by_cases h1 : rn = ((getTags db o).dedup).length
      · rw [if_pos h1] at heq
        simp only [Except.ok.injEq] at heq
        subst heq
        have hm' : (x, v) ∈ ({ rdb with
            objectCount := ndel rdb.objectCount (getId o) } : DB).idSource := by
          cases o with
          | raw d => exact (mem_ndel.mp hm).1
          | ident i => exact hm
        exact hsub x v hm'
      · rw [if_neg h1] at heq
        by_cases h2 : rn < ((getTags db o).dedup).length
        · rw [if_pos h2] at heq
          simp only [Except.ok.injEq] at heq
          subst heq
          exact hsub x v hm
        · rw [if_neg h2] at heq
          exact Except.noConfusion heq

theorem applyOp_src {db : DB} (hwf : WFdb db ∧ SymInv db) (op : Op) {x : Nat}
    {v : List Nat} (hm : (x, v) ∈ (applyOp db op).idSource) :
    (∃ v', (x, v') ∈ db.idSource) ∨ opMentions op x := by
  cases op with
  | ins o ts => exact insert_src hwf o ts hm
  | rmo o =>
    simp only [applyOp] at hm
    rcases hr : removeObject db o with er | db'
    · simp only [hr] at hm
      exact Or.inl ⟨v, hm⟩
    · simp only [hr] at hm
      exact Or.inl ⟨v, removeObject_src o hr x v hm⟩
  | rmt o ts =>
    simp only [applyOp] at hm
    rcases hr : removeTagsFromObject db o ts with er | db'
    · simp only [hr] at hm
      exact Or.inl ⟨v, hm⟩
    · simp only [hr] at hm
      exact Or.inl ⟨v, removeTags_src o ts hr x v hm⟩

theorem foldOps_src : ∀ (ops : List Op) (db : DB), WFdb db ∧ SymInv db →
    ∀ x v, (x, v) ∈ (ops.foldl applyOp db).idSource →
      (∃ v', (x, v') ∈ db.idSource) ∨ rawMentioned ops x := by
  intro ops
  induction ops with
  | nil => exact fun db _ x v hm => Or.inl ⟨v, hm⟩
  | cons op rest ih =>
    intro db hdb x v hm
    rw [List.foldl_cons] at hm
    rcases ih (applyOp db op) (applyOp_wfSym hdb op) x v hm with ⟨v', hv'⟩ | hr
    · rcases applyOp_src hdb op hv' with h | h
      · exact Or.inl h
      · exact Or.inr (rawMentioned_cons.mpr (Or.inl h))
    · exact Or.inr (rawMentioned_cons.mpr (Or.inr hr))

/-! ## Claim C5: the amended statement -/

/-- Claim C5 (corrected, amended): starting from the empty index, after any
finite sequence of calls (each free to pass `Raw` or `Identified` variants),
`id→source[x]` is present *only if* some earlier `insert` call mentioned a
raw-origin object or tag with id `x`.  The converse direction of the original
claim — presence iff inserted *and not fully removed* — is false on the code
(see the counterexample): removal via the `Identified` variant leaves the
preimage in place, so presence may outlive full removal. -/
theorem c5_source_only_if_raw_inserted (ops : List Op) (x : Nat)
    (hx : (nget (runOps ops).idSource x).isSome) : rawMentioned ops x := by
  rcases Option.isSome_iff_exists.mp hx with ⟨v, hv⟩
  have hm := nget_mem hv
  rcases foldOps_src ops DB.empty wfSym_empty x v hm with ⟨v', hv'⟩ | h
  · simp [DB.empty] at hv'
  · exact h

/-- Witness for C5's amended theorem at a concrete trace. -/
theorem c5_source_only_if_raw_inserted_witness :
    rawMentioned [Op.ins (Obj.raw [7]) []] (idOfRaw [7]) :=
  c5_source_only_if_raw_inserted [Op.ins (Obj.raw [7]) []] (idOfRaw [7]) (by decide)

/-! ## Claim C1: evaluation at the failing input -/

/-- Claim C1 (code defect, evaluation at the failing input): in `dbEx1`
object `2` is known, carries both present tags `10` and `11` and does not
carry the absent tag `12`, so by the claim `search([10,11],[12],None)` must
yield `{2}`; but the leapfrog iterator returns `Ok(None)` — end of stream —
for the absent-filtered candidate `1` (src lines 602-629), so the search
yields nothing. -/
theorem c1_failing_eval :
    search dbEx1 [Obj.ident 10, Obj.ident 11] [Obj.ident 12] none = [] ∧
    nget dbEx1.objectCount 2 = some 2 ∧
    (10, 2) ∈ dbEx1.tagObject ∧ (11, 2) ∈ dbEx1.tagObject ∧
    (12, 2) ∉ dbEx1.tagObject := by
  decide

/-! ## Claim C2: counterexample -/

/-- Claim C2 counterexample.  First conjunct group: in `dbEx2` (known objects
`5` and `10`), `search([],[],Some 3)` yields `[10]` although the claim
demands all ids greater than `3`, namely `[5, 10]` — the scan-plus-skip
drops the first physical entry `5` because `3` is not itself a physical key.
Second group: in `dbEx3` with `start_after = Some 1` (which *is* a physical
posting of the first planned tag), the paginated search yields `[2]` while
the unpaginated search yields `[]` (truncated by the absent-filter defect of
C1), so the claimed restriction equation also fails for `|present| ≥ 2` with
a nonempty absent list. -/
theorem c2_counterexample :
    (search dbEx2 [] [] (some 3) = [10] ∧
      (search dbEx2 [] [] none).filter (fun o => decide (3 < o)) = [5, 10]) ∧
    (search dbEx3 [Obj.ident 10, Obj.ident 11] [Obj.ident 12] (some 1) = [2] ∧
      (search dbEx3 [Obj.ident 10, Obj.ident 11] [Obj.ident 12] none).filter
        (fun o => decide (1 < o)) = []) := by
  decide

/-! ## Claim C3: counterexample -/

/-- Claim C3 counterexample, three concrete failures.  (a) duplicate ids in
an insert tag list: after `insert(1, [2,2])` the stored count for tag `2` is
`2` but `tag→object` holds a single posting with leading component `2`.
(b) `remove_object` decrements without erasing at zero, leaving a present
count `0` where the claim demands absence.  (c) duplicate ids in a
`remove_tags_from_object` list decrement twice, erasing the count record for
tag `7` even though object `1` still carries tag `7`. -/
theorem c3_counterexample :
    (nget (runOps [.ins (.ident 1) [.ident 2, .ident 2]]).tagCount 2 = some 2 ∧
      cntT (runOps [.ins (.ident 1) [.ident 2, .ident 2]]) 2 = 1) ∧
    (nget (runOps [.ins (.ident 1) [.ident 2], .rmo (.ident 1)]).tagCount 2 = some 0) ∧
    (nget (runOps [.ins (.ident 1) [.ident 7], .ins (.ident 2) [.ident 7, .ident 8],
        .rmt (.ident 2) [.ident 7, .ident 7]]).tagCount 7 = none ∧
      cntT (runOps [.ins (.ident 1) [.ident 7], .ins (.ident 2) [.ident 7, .ident 8],
        .rmt (.ident 2) [.ident 7, .ident 7]]) 7 = 1) := by
  decide

/-! ## Claim C5: counterexample -/

/-- Claim C5 counterexample: insert the raw object `[7]` (storing its
preimage), then fully remove it by passing the `Identified` variant of the
same id.  The object is gone (`object→count` absent, and the id is not alive
as a tag either), yet `id→source` still holds the preimage, because the
erasure in `remove_object` is guarded by the passed variant being `Raw`
(src lines 435-437). -/
theorem c5_counterexample :
    nget (runOps [.ins (.raw [7]) [], .rmo (.ident (idOfRaw [7]))]).idSource
      (idOfRaw [7]) = some [7] ∧
    nget (runOps [.ins (.raw [7]) [], .rmo (.ident (idOfRaw [7]))]).objectCount
      (idOfRaw [7]) = none ∧
    nget (runOps [.ins (.raw [7]) [], .rmo (.ident (idOfRaw [7]))]).tagCount
      (idOfRaw [7]) = none := by
  decide

/-! ## Claim C7: counterexample -/

/-- Claim C7 counterexample: in the invariant-violating state `dbBad` the
posting `(2,1)` exists but tag `2` has no count record.  `remove_object`
does not surface the distinct integrity error the claim demands for both
removal paths: it evaluates `get(..).unwrap_or(0) - 1` (src lines 452-457),
a `u32` subtraction overflow — a panic in debug builds, a wrapped counter in
release builds — modelled as `Err.overflowAbort`. -/
theorem c7_counterexample :
    removeObject dbBad (.ident 1) = .error .overflowAbort ∧
    Err.overflowAbort ≠ Err.integrityFault := by
  decide

/-! ## Claim C9: counterexample -/

/-- Claim C9 counterexample: object `2` carries tags `{7, 8}` (so `|E| = 2`)
and object `1` also carries tag `7`.  `remove_tags_from_object(2, [7,7])`
actually removes only the single tag `7` from object `2` (so the claim's
`k = 1 ≠ |E|` demands `object→count[2] = 1`), but the source counts the
duplicate occurrence twice, reaches `tags_removed = 2 = |E|`, and erases
`object→count[2]` although the posting `(2,8)` survives. -/
theorem c9_counterexample :
    nget (runOps [.ins (.ident 1) [.ident 7], .ins (.ident 2) [.ident 7, .ident 8],
      .rmt (.ident 2) [.ident 7, .ident 7]]).objectCount 2 = none ∧
    (2, 8) ∈ (runOps [.ins (.ident 1) [.ident 7], .ins (.ident 2) [.ident 7, .ident 8],
      .rmt (.ident 2) [.ident 7, .ident 7]]).objectTag := by
  decide

/-! ## Counting lemmas for the write loops -/

theorem perm_cons_pdel {k : Nat × Nat} :
    ∀ {l : List (Nat × Nat)}, WFp l → k ∈ l → l.Perm (k :: pdel l k) := by
  intro l
  induction l with
  | nil => intro _ h; simp at h
  | cons a t ih =>
    intro hw hm
    rcases List.pairwise_cons.mp hw with ⟨ha, ht⟩
    rcases List.mem_cons.mp hm with rfl | hm'
    · have hd : pdel t k = t := pdel_eq_self (fun hk => plt_irrefl _ (ha _ hk))
      rw [pdel_cons, if_pos rfl, hd]
    · have hne : a ≠ k := fun he => plt_irrefl _ (he ▸ ha _ hm')
      rw [pdel_cons, if_neg hne]
      exact ((ih ht hm').cons a).trans (List.Perm.swap _ _ _)

theorem pput_perm_not_mem {l : List (Nat × Nat)} {k : Nat × Nat} (hw : WFp l)
    (hk : k ∉ l) : (pput l k).Perm (k :: l) := by
  have h := pput_perm (k := k) hw
  rwa [pdel_eq_self hk] at h

theorem length_filter_pput_not_mem {l : List (Nat × Nat)} {k : Nat × Nat}
    {p : Nat × Nat → Bool} (hw : WFp l) (hk : k ∉ l) :
    ((pput l k).filter p).length =
      (l.filter p).length + (if p k = true then 1 else 0) := by
  rw [((pput_perm_not_mem hw hk).filter p).length_eq, List.filter_cons]
  by_cases hp : p k = true
  · rw [if_pos hp, if_pos hp, List.length_cons]
  · rw [if_neg hp, if_neg hp, Nat.add_zero]

theorem length_filter_pdel_mem {l : List (Nat × Nat)} {k : Nat × Nat}
    {p : Nat × Nat → Bool} (hw : WFp l) (hk : k ∈ l) :
    (l.filter p).length =
      ((pdel l k).filter p).length + (if p k = true then 1 else 0) := by
  rw [((perm_cons_pdel hw hk).filter p).length_eq, List.filter_cons]
  by_cases hp : p k = true
  · rw [if_pos hp, if_pos hp, List.length_cons]
  · rw [if_neg hp, if_neg hp, Nat.add_zero]

theorem filter_pdel_comm (l : List (Nat × Nat)) (k : Nat × Nat)
    (p : Nat × Nat → Bool) :
    (pdel l k).filter p = pdel (l.filter p) k := by
  unfold pdel
  rw [List.filter_filter, List.filter_filter]
  exact List.filter_congr (fun x _ => by rw [Bool.and_comm])

theorem pdel_cons_self {e : Nat × Nat} {t : List (Nat × Nat)} (h : e ∉ t) :
    pdel (e :: t) e = t := by
  rw [pdel_cons, if_pos rfl, pdel_eq_self h]

/-- Two duplicate-free lists with the same members have the same length. -/
theorem length_eq_of_nodup_of_mem_iff {l1 l2 : List Nat} (h1 : l1.Nodup)
    (h2 : l2.Nodup) (h : ∀ t, t ∈ l1 ↔ t ∈ l2) : l1.length = l2.length := by
  rw [← List.toFinset_card_of_nodup h1, ← List.toFinset_card_of_nodup h2]
  congr 1
  ext t
  simp only [List.mem_toFinset]
  exact h t

/-- A duplicate-free list of members of a duplicate-free list is no longer. -/
theorem length_le_of_nodup_of_subset {l1 l2 : List Nat} (h1 : l1.Nodup)
    (h2 : l2.Nodup) (h : ∀ t ∈ l1, t ∈ l2) : l1.length ≤ l2.length := by
  rw [← List.toFinset_card_of_nodup h1, ← List.toFinset_card_of_nodup h2]
  exact Finset.card_le_card
    (fun x hx => List.mem_toFinset.mpr (h x (List.mem_toFinset.mp hx)))

theorem length_filter_not {α : Type} (p : α → Bool) (l : List α) :
    (l.filter (fun a => !(p a))).length = l.length - (l.filter p).length := by
  induction l with
  | nil => rfl
  | cons a t ih =>
    have hle := List.length_filter_le p t
    rw [List.filter_cons, List.filter_cons]
    by_cases hp : p a = true
    · rw [if_neg (by rw [hp]; simp), if_pos hp]
      simp only [List.length_cons, ih]
      omega
    · have hp' : p a = false := by
        cases hpa : p a
        · rfl
        · exact absurd hpa hp
      rw [if_pos (by rw [hp']; rfl), if_neg (by rw [hp']; simp)]
      simp only [List.length_cons, ih]
      omega

/-- Under the tag-count clauses, a missing-count read defaulted with `0` is
the exact posting count. -/
theorem count_getD_exact {db : DB}
    (h3 : ∀ e ∈ db.tagCount, e.2 = cntT db e.1)
    (h4 : ∀ e ∈ db.tagObject, (nget db.tagCount e.1).isSome) (t : Nat) :
    (nget db.tagCount t).getD 0 = cntT db t := by
  rcases hg : nget db.tagCount t with _ | c
  · by_contra hc
    have hpos : 0 < (db.tagObject.filter (fun e => decide (e.1 = t))).length := by
      rcases Nat.eq_zero_or_pos (db.tagObject.filter
        (fun e => decide (e.1 = t))).length with hz | hpos
      · exact absurd (by simpa [cntT] using hz.symm) hc
      · exact hpos
    rcases List.exists_mem_of_length_pos hpos with ⟨e, he⟩
    rcases List.mem_filter.mp he with ⟨hmem, hx⟩
    simp only [decide_eq_true_eq] at hx
    have := h4 e hmem
    rw [hx, hg] at this
    simp at this
  · have := h3 (t, c) (nget_mem hg)
    simpa using this

theorem cntT_srcUpd (db : DB) (x : Obj) (t : Nat) : cntT (srcUpd db x) t = cntT db t := by
  simp only [cntT, srcUpd_tagObject]

theorem cntO_srcUpd (db : DB) (x : Obj) (t : Nat) : cntO (srcUpd db x) t = cntO db t := by
  simp only [cntO, srcUpd_objectTag]

theorem cntT_srcDel (db : DB) (x : Obj) (t : Nat) : cntT (srcDel db x) t = cntT db t := by
  simp only [cntT, srcDel_tagObject]

theorem cntO_srcDel (db : DB) (x : Obj) (t : Nat) : cntO (srcDel db x) t = cntO db t := by
  simp only [cntO, srcDel_objectTag]

theorem valid_validX {db : DB} (hv : Valid db) (oid : Nat) : ValidX db oid :=
  ⟨hv.1, hv.2.1, hv.2.2.1, hv.2.2.2.1,
    fun e he _ => hv.2.2.2.2.1 e he, fun e he _ => hv.2.2.2.2.2 e he⟩

/-- Restoring the `object→count` record with the exact count upgrades
`ValidX` to `Valid`. -/
theorem validX_restore {db : DB} {oid v : Nat} (hvx : ValidX db oid)
    (hval : v = cntO db oid) :
    Valid { db with objectCount := nput db.objectCount oid v } := by
  refine ⟨⟨hvx.1.1, hvx.1.2.1, hvx.1.2.2.1, hvx.1.2.2.2.1, WFn_nput hvx.1.2.2.2.2⟩,
    hvx.2.1, hvx.2.2.1, hvx.2.2.2.1, ?_, ?_⟩
  · intro e he
    have hperm := nput_perm (k := oid) (v := v) hvx.1.2.2.2.2
    rcases List.mem_cons.mp (hperm.mem_iff.mp he) with rfl | he'
    · exact hval
    · rcases mem_ndel.mp he' with ⟨hmem', hne⟩
      exact hvx.2.2.2.2.1 e hmem' hne
  · intro e he
    by_cases h1 : e.1 = oid
    · show (nget (nput db.objectCount oid v) e.1).isSome = true
      rw [h1, nget_nput_self hvx.1.2.2.2.2]
      rfl
    · show (nget (nput db.objectCount oid v) e.1).isSome = true
      rw [nget_nput_ne h1]
      exact hvx.2.2.2.2.2 e he h1

/-- Erasing the `object→count` record of an object with no remaining
postings upgrades `ValidX` to `Valid`. -/
theorem validX_erase {db : DB} {oid : Nat} (hvx : ValidX db oid)
    (hrows : ∀ t, (oid, t) ∉ db.objectTag) :
    Valid { db with objectCount := ndel db.objectCount oid } := by
  refine ⟨⟨hvx.1.1, hvx.1.2.1, hvx.1.2.2.1, hvx.1.2.2.2.1,
      WFn_ndel hvx.1.2.2.2.2 oid⟩,
    hvx.2.1, hvx.2.2.1, hvx.2.2.2.1, ?_, ?_⟩
  · intro e he
    rcases mem_ndel.mp he with ⟨hmem', hne⟩
    exact hvx.2.2.2.2.1 e hmem' hne
  · intro e he
    by_cases h1 : e.1 = oid
    · exfalso
      have hrow : (oid, e.2) ∈ db.objectTag := by
        rcases e with ⟨x, y⟩
        simp only at h1
        subst h1
        exact he
      exact hrows e.2 hrow
    · show (nget (ndel db.objectCount oid) e.1).isSome = true
      rw [nget_ndel, if_neg h1]
      exact hvx.2.2.2.2.2 e he h1

theorem srcDel_valid {db : DB} (hv : Valid db) (x : Obj) : Valid (srcDel db x) := by
  cases x with
  | raw d =>
    exact ⟨⟨hv.1.1, hv.1.2.1, WFn_ndel hv.1.2.2.1 (idOfRaw d), hv.1.2.2.2.1,
      hv.1.2.2.2.2⟩, hv.2⟩
  | ident i => exact hv

/-! ## The insert loop preserves the count invariants -/

theorem insFold_valid : ∀ (ts : List Obj) (b : DB × Nat) (oid : Nat) (E : List Nat),
    ValidX b.1 oid →
    (ts.map getId).Nodup →
    (∀ x ∈ ts, getId x ∉ E → (getId x, oid) ∉ b.1.tagObject) →
    ValidX (ts.foldl (insertStep oid E) b).1 oid ∧
    (ts.foldl (insertStep oid E) b).1.objectCount = b.1.objectCount ∧
    ∃ m, (ts.foldl (insertStep oid E) b).2 = b.2 + m ∧
      cntO (ts.foldl (insertStep oid E) b).1 oid = cntO b.1 oid + m := by
  intro ts
  induction ts with
  | nil =>
    intro b oid E hvx _ _
    exact ⟨hvx, rfl, 0, rfl, rfl⟩
  | cons a ts ih =>
    intro b oid E hvx hnd hnp
    rw [List.foldl_cons]
    have hnd' : getId a ∉ ts.map getId ∧ (ts.map getId).Nodup := by
      rw [List.map_cons, List.nodup_cons] at hnd
      exact hnd
    by_cases hmem : getId a ∈ E
    · have hstep : insertStep oid E b a = b := by
        unfold insertStep
        rw [if_pos hmem]
      rw [hstep]
      exact ih b oid E hvx hnd'.2
        (fun x hx hxE => hnp x (List.mem_cons_of_mem _ hx) hxE)
    · have hfreshT : (getId a, oid) ∉ b.1.tagObject :=
        hnp a (List.mem_cons_self _ _) hmem
      have hfreshO : (oid, getId a) ∉ b.1.objectTag := fun h => hfreshT (hvx.2.1.2 _ h)
      have hT : (insertStep oid E b a).1.tagObject =
          pput b.1.tagObject (getId a, oid) := by
        unfold insertStep
        rw [if_neg hmem]
        cases a <;> rfl
      have hO : (insertStep oid E b a).1.objectTag =
          pput b.1.objectTag (oid, getId a) := by
        unfold insertStep
        rw [if_neg hmem]
        cases a <;> rfl
      have hC : (insertStep oid E b a).1.tagCount =
          nput b.1.tagCount (getId a) ((nget b.1.tagCount (getId a)).getD 0 + 1) := by
        unfold insertStep
        rw [if_neg hmem]
        cases a <;> rfl
      have hOC : (insertStep oid E b a).1.objectCount = b.1.objectCount := by
        unfold insertStep
        rw [if_neg hmem]
        cases a <;> rfl
      have hN : (insertStep oid E b a).2 = b.2 + 1 := by
        unfold insertStep
        rw [if_neg hmem]
      have hcntT : ∀ t, cntT (insertStep oid E b a).1 t =
          cntT b.1 t + (if t = getId a then 1 else 0) := by
        intro t
        have hl := length_filter_pput_not_mem
          (p := fun e => decide (e.1 = t)) hvx.1.1 hfreshT
        simp only [cntT, hT, hl]
        by_cases ht : t = getId a
        · subst ht
          simp
        · have ht' : ¬ (getId a = t) := fun h => ht h.symm
          simp [ht, ht']
      have hcntO : ∀ x, cntO (insertStep oid E b a).1 x =
          cntO b.1 x + (if x = oid then 1 else 0) := by
        intro x
        have hl := length_filter_pput_not_mem
          (p := fun e => decide (e.1 = x)) hvx.1.2.1 hfreshO
        simp only [cntO, hO, hl]
        by_cases hx : x = oid
        · subst hx
          simp
        · have hx' : ¬ (oid = x) := fun h => hx h.symm
          simp [hx, hx']
      have hwf' := @insertStep_wfSym oid E b ⟨hvx.1, hvx.2.1⟩ a
      have hgd := count_getD_exact hvx.2.2.1 hvx.2.2.2.1 (getId a)
      have hvx' : ValidX (insertStep oid E b a).1 oid := by
        refine ⟨hwf'.1, hwf'.2, ?_, ?_, ?_, ?_⟩
        · intro e he
          rw [hC] at he
          have hperm := nput_perm (k := getId a)
            (v := (nget b.1.tagCount (getId a)).getD 0 + 1) hvx.1.2.2.2.1
          rcases List.mem_cons.mp (hperm.mem_iff.mp he) with rfl | he'
          · show (nget b.1.tagCount (getId a)).getD 0 + 1 =
              cntT (insertStep oid E b a).1 (getId a)
            rw [hcntT, if_pos rfl, hgd]
          · rcases mem_ndel.mp he' with ⟨hmem', hne⟩
            rw [hcntT, if_neg hne, Nat.add_zero]
            exact hvx.2.2.1 e hmem'
        · intro e he
          show (nget (insertStep oid E b a).1.tagCount e.1).isSome = true
          rw [hC]
          by_cases h1 : e.1 = getId a
          · rw [h1, nget_nput_self hvx.1.2.2.2.1]
            rfl
          · rw [nget_nput_ne h1]
            rw [hT] at he
            rcases (mem_pput hvx.1.1).mp he with rfl | he'
            · exact absurd rfl h1
            · exact hvx.2.2.2.1 e he'
        · intro e he h1
          rw [hOC] at he
          rw [hcntO, if_neg h1, Nat.add_zero]
          exact hvx.2.2.2.2.1 e he h1
        · intro e he h1
          show (nget (insertStep oid E b a).1.objectCount e.1).isSome = true
          rw [hOC]
          rw [hO] at he
          rcases (mem_pput hvx.1.2.1).mp he with rfl | he'
          · exact absurd rfl h1
          · exact hvx.2.2.2.2.2 e he' h1
      have hnp' : ∀ x ∈ ts, getId x ∉ E →
          (getId x, oid) ∉ (insertStep oid E b a).1.tagObject := by
        intro x hx hxE hmem'
        rw [hT] at hmem'
        rcases (mem_pput hvx.1.1).mp hmem' with heq | hmem''
        · have hxa : getId x = getId a := congrArg Prod.fst heq
          exact hnd'.1 (hxa ▸ List.mem_map.mpr ⟨x, hx, rfl⟩)
        · exact hnp x (List.mem_cons_of_mem _ hx) hxE hmem''
      rcases ih (insertStep oid E b a) oid E hvx' hnd'.2 hnp' with
        ⟨hvxF, hOCF, m, hmF, hcF⟩
      refine ⟨hvxF, by rw [hOCF, hOC], m + 1, ?_, ?_⟩
      · rw [hmF, hN]
        omega
      · rw [hcF, hcntO, if_pos rfl]
        omega

/-- `insert` preserves the full invariant when the passed tag list has
duplicate-free ids. -/
theorem insert_valid {db : DB} (hv : Valid db) (o : Obj) (ts : List Obj)
    (hnd : (ts.map getId).Nodup) : Valid (insert db o ts) := by
  have hwfs : WFdb db ∧ SymInv db := ⟨hv.1, hv.2.1⟩
  have hwfs1 := srcUpd_wfSym hwfs o
  have hvx1 : ValidX (srcUpd db o) (getId o) := by
    refine ⟨hwfs1.1, hwfs1.2, ?_, ?_, ?_, ?_⟩
    · intro e he
      rw [srcUpd_tagCount] at he
      rw [cntT_srcUpd]
      exact hv.2.2.1 e he
    · intro e he
      rw [srcUpd_tagObject] at he
      show (nget (srcUpd db o).tagCount e.1).isSome = true
      rw [srcUpd_tagCount]
      exact hv.2.2.2.1 e he
    · intro e he _
      rw [srcUpd_objectCount] at he
      rw [cntO_srcUpd]
      exact hv.2.2.2.2.1 e he
    · intro e he _
      rw [srcUpd_objectTag] at he
      show (nget (srcUpd db o).objectCount e.1).isSome = true
      rw [srcUpd_objectCount]
      exact hv.2.2.2.2.2 e he
  have hnp : ∀ x ∈ ts, getId x ∉ (getTags (srcUpd db o) o).dedup →
      (getId x, getId o) ∉ (srcUpd db o).tagObject := by
    intro x _ hxE hmem
    apply hxE
    rw [List.mem_dedup, getTags_srcUpd, mem_getTags_iff hv.1.2.1]
    rw [srcUpd_tagObject] at hmem
    exact hv.2.1.1 _ hmem
  rcases insFold_valid ts (srcUpd db o, 0) (getId o)
    ((getTags (srcUpd db o) o).dedup) hvx1 hnd hnp with ⟨hvxF, hOCF, m, hmF, hcF⟩
  have hElen : ((getTags (srcUpd db o) o).dedup).length =
      cntO (srcUpd db o) (getId o) := by
    rw [getTags_srcUpd, List.dedup_eq_self.mpr (getTags_nodup hv.1.2.1 o),
      getTags_length hv.1.2.1, cntO_srcUpd]
  have hval : ((getTags (srcUpd db o) o).dedup).length +
      (ts.foldl (insertStep (getId o) ((getTags (srcUpd db o) o).dedup))
        (srcUpd db o, 0)).2 =
      cntO (ts.foldl (insertStep (getId o) ((getTags (srcUpd db o) o).dedup))
        (srcUpd db o, 0)).1 (getId o) := by
    rw [hElen, hmF, hcF]
    show cntO (srcUpd db o) (getId o) + (0 + m) = cntO (srcUpd db o) (getId o) + m
    omega
  exact validX_restore hvxF hval

/-! ## The `remove_object` loop preserves the count invariants -/

theorem removeObjectStep_ok {db : DB} {e : Nat × Nat} {c : Nat}
    (hc : nget db.tagCount e.2 = some (c + 1)) :
    removeObjectStep (.ok db) e = .ok
      { db with tagObject := pdel db.tagObject (e.2, e.1),
                objectTag := pdel db.objectTag (e.1, e.2),
                tagCount := nput db.tagCount e.2 c } := by
  simp only [removeObjectStep, Except.bind, bind, hc, Option.getD_some]

theorem removeObjectStep_validX {db : DB} {oid : Nat} {e : Nat × Nat}
    (hvx : ValidX db oid) (hoid : e.1 = oid) (heO : e ∈ db.objectTag) :
    ∃ db', removeObjectStep (.ok db) e = .ok db' ∧
      ValidX db' oid ∧
      db'.objectCount = db.objectCount ∧
      db'.idSource = db.idSource ∧
      db'.objectTag = pdel db.objectTag e := by
  have heT : (e.2, e.1) ∈ db.tagObject := hvx.2.1.2 e heO
  have hsome : (nget db.tagCount e.2).isSome = true := hvx.2.2.2.1 (e.2, e.1) heT
  rcases hg : nget db.tagCount e.2 with _ | c0
  · rw [hg] at hsome
    exact absurd hsome (by simp)
  · have hc0 : c0 = cntT db e.2 := by
      have := hvx.2.2.1 (e.2, c0) (nget_mem hg)
      simpa using this
    have hpos : 0 < cntT db e.2 :=
      List.length_pos_of_mem (List.mem_filter.mpr ⟨heT, by simp⟩)
    obtain ⟨c, hc⟩ : ∃ c, c0 = c + 1 := ⟨c0 - 1, by omega⟩
    subst hc
    refine ⟨_, removeObjectStep_ok hg, ?_, rfl, rfl,
      congrArg (pdel db.objectTag) Prod.mk.eta⟩
    have hcntT : ∀ y, cntT db y =
        cntT { db with tagObject := pdel db.tagObject (e.2, e.1),
                       objectTag := pdel db.objectTag (e.1, e.2),
                       tagCount := nput db.tagCount e.2 c } y +
          (if y = e.2 then 1 else 0) := by
      intro y
      have hl := length_filter_pdel_mem (p := fun x => decide (x.1 = y)) hvx.1.1 heT
      show cntT db y = ((pdel db.tagObject (e.2, e.1)).filter
        (fun x => decide (x.1 = y))).length + (if y = e.2 then 1 else 0)
      rw [show cntT db y =
        (db.tagObject.filter (fun x => decide (x.1 = y))).length from rfl, hl]
      by_cases hy : y = e.2
      · subst hy
        simp
      · have hy' : ¬ (e.2 = y) := fun h => hy h.symm
        simp [hy, hy']
    have hcntO : ∀ x, x ≠ oid →
        cntO { db with tagObject := pdel db.tagObject (e.2, e.1),
                       objectTag := pdel db.objectTag (e.1, e.2),
                       tagCount := nput db.tagCount e.2 c } x = cntO db x := by
      intro x hx
      have hnm : (e.1, e.2) ∉ db.objectTag.filter (fun y => decide (y.1 = x)) := by
        intro hmem
        have h2 := (List.mem_filter.mp hmem).2
        simp only [decide_eq_true_eq] at h2
        exact hx (h2 ▸ hoid)
      show ((pdel db.objectTag (e.1, e.2)).filter
        (fun y => decide (y.1 = x))).length = cntO db x
      rw [filter_pdel_comm, pdel_eq_self hnm]
      rfl
    refine ⟨⟨WFp_pdel hvx.1.1 _, WFp_pdel hvx.1.2.1 _, hvx.1.2.2.1,
      WFn_nput hvx.1.2.2.2.1, hvx.1.2.2.2.2⟩, ⟨?_, ?_⟩, ?_, ?_, ?_, ?_⟩
    · intro x hx
      rcases mem_pdel.mp hx with ⟨hxT, hxne⟩
      refine mem_pdel.mpr ⟨hvx.2.1.1 x hxT, ?_⟩
      intro hswap
      apply hxne
      have h1 : x.2 = e.1 := congrArg Prod.fst hswap
      have h2 : x.1 = e.2 := congrArg Prod.snd hswap
      calc x = (x.1, x.2) := Prod.mk.eta.symm
        _ = (e.2, e.1) := by rw [h1, h2]
    · intro x hx
      rcases mem_pdel.mp hx with ⟨hxO, hxne⟩
      refine mem_pdel.mpr ⟨hvx.2.1.2 x hxO, ?_⟩
      intro hswap
      apply hxne
      have h1 : x.2 = e.2 := congrArg Prod.fst hswap
      have h2 : x.1 = e.1 := congrArg Prod.snd hswap
      calc x = (x.1, x.2) := Prod.mk.eta.symm
        _ = (e.1, e.2) := by rw [h1, h2]
    · intro x hx
      have hperm := nput_perm (k := e.2) (v := c) hvx.1.2.2.2.1
      rcases List.mem_cons.mp (hperm.mem_iff.mp hx) with rfl | hx'
      · show c = cntT _ e.2
        have := hcntT e.2
        rw [if_pos rfl] at this
        omega
      · rcases mem_ndel.mp hx' with ⟨hmem', hne⟩
        have := hcntT x.1
        rw [if_neg hne, Nat.add_zero] at this
        rw [← this]
        exact hvx.2.2.1 x hmem'
    · intro x hx
      show (nget (nput db.tagCount e.2 c) x.1).isSome = true
      by_cases h1 : x.1 = e.2
      · rw [h1, nget_nput_self hvx.1.2.2.2.1]
        rfl
      · rw [nget_nput_ne h1]
        exact hvx.2.2.2.1 x (mem_pdel.mp hx).1
    · intro x hx h1
      rw [hcntO x.1 h1]
      exact hvx.2.2.2.2.1 x hx h1
    · intro x hx h1
      exact hvx.2.2.2.2.2 x (mem_pdel.mp hx).1 h1

theorem rmoFold_valid : ∀ (snap : List (Nat × Nat)) (db : DB) (oid : Nat),
    ValidX db oid →
    (∀ e ∈ snap, e.1 = oid) →
    db.objectTag.filter (fun e => decide (e.1 = oid)) = snap →
    ∃ dbF, snap.foldl removeObjectStep (.ok db) = .ok dbF ∧
      ValidX dbF oid ∧ dbF.objectCount = db.objectCount ∧
      dbF.idSource = db.idSource ∧
      dbF.objectTag.filter (fun e => decide (e.1 = oid)) = [] := by
  intro snap
  induction snap with
  | nil =>
    intro db oid hvx _ hfil
    exact ⟨db, rfl, hvx, rfl, rfl, hfil⟩
  | cons e snap ih =>
    intro db oid hvx hfst hfil
    rw [List.foldl_cons]
    have hoid : e.1 = oid := hfst e (List.mem_cons_self _ _)
    have heO : e ∈ db.objectTag :=
      (List.mem_filter.mp (hfil.symm ▸ List.mem_cons_self e snap)).1
    have hnodup : (e :: snap).Nodup := by
      rw [← hfil]
      exact WFp.nodup (hvx.1.2.1.filter _)
    have hnotmem : e ∉ snap := (List.nodup_cons.mp hnodup).1
    rcases removeObjectStep_validX hvx hoid heO with ⟨db', hred, hvx', hOC', hS', hOT'⟩
    rw [hred]
    have hfil' : db'.objectTag.filter (fun x => decide (x.1 = oid)) = snap := by
      rw [hOT', filter_pdel_comm, hfil, pdel_cons_self hnotmem]
    rcases ih db' oid hvx' (fun x hx => hfst x (List.mem_cons_of_mem _ hx)) hfil'
      with ⟨dbF, hfold, hvxF, hOCF, hSF, hfilF⟩
    exact ⟨dbF, hfold, hvxF, by rw [hOCF, hOC'], by rw [hSF, hS'], hfilF⟩

/-- `remove_object` always succeeds from a valid state and preserves the full
invariant. -/
theorem removeObject_valid {db : DB} (hv : Valid db) (o : Obj) :
    ∃ db', removeObject db o = .ok db' ∧ Valid db' := by
  rcases hg : nget db.objectCount (getId o) with _ | n
  · refine ⟨db, ?_, hv⟩
    simp only [removeObject, hg]
  · have hv2 : Valid (srcDel db o) := srcDel_valid hv o
    have hvx2 : ValidX (srcDel db o) (getId o) := valid_validX hv2 (getId o)
    have hsnap := piter_takeWhile_eq_filter hv2.1.2.1 (getId o)
    have hfst : ∀ e ∈ (piter (srcDel db o).objectTag ((getId o), 0)).takeWhile
        (fun e => decide (e.1 = getId o)), e.1 = getId o := by
      intro e he
      rw [hsnap] at he
      have := (List.mem_filter.mp he).2
      simpa using this
    rcases rmoFold_valid ((piter (srcDel db o).objectTag ((getId o), 0)).takeWhile
        (fun e => decide (e.1 = getId o))) (srcDel db o) (getId o) hvx2 hfst hsnap.symm
      with ⟨dbF, hfold, hvxF, hOCF, hSF, hfilF⟩
    refine ⟨{ dbF with objectCount := ndel dbF.objectCount (getId o) }, ?_, ?_⟩
    · simp only [removeObject, hg, hfold]
    · refine validX_erase hvxF ?_
      intro t hmem
      have : (getId o, t) ∈ dbF.objectTag.filter (fun e => decide (e.1 = getId o)) :=
        List.mem_filter.mpr ⟨hmem, by simp⟩
      rw [hfilF] at this
      exact absurd this (List.not_mem_nil _)

/-! ## The `remove_tags_from_object` loop preserves the count invariants -/

theorem removeTagsStep_skip {oid : Nat} {E : List Nat} {db : DB} {removed : Nat}
    {tag : Obj} (h : getId tag ∉ E) :
    removeTagsStep oid E (.ok (db, removed)) tag = .ok (db, removed) := by
  simp only [removeTagsStep, Except.bind, bind]
  rw [if_neg h]

theorem removeTagsStep_dec {oid : Nat} {E : List Nat} {db : DB} {removed : Nat}
    {tag : Obj} {c : Nat} (h : getId tag ∈ E)
    (hc : nget db.tagCount (getId tag) = some (c + 1)) (hpos : 0 < c) :
    removeTagsStep oid E (.ok (db, removed)) tag =
      .ok ({ db with tagObject := pdel db.tagObject (getId tag, oid),
                     objectTag := pdel db.objectTag (oid, getId tag),
                     tagCount := nput db.tagCount (getId tag) c }, removed + 1) := by
  simp only [removeTagsStep, Except.bind, bind, hc]
  rw [if_pos h, if_pos hpos]

theorem removeTagsStep_last {oid : Nat} {E : List Nat} {db : DB} {removed : Nat}
    {tag : Obj} (h : getId tag ∈ E)
    (hc : nget db.tagCount (getId tag) = some 1) :
    removeTagsStep oid E (.ok (db, removed)) tag =
      .ok (srcDel { db with tagObject := pdel db.tagObject (getId tag, oid),
                            objectTag := pdel db.objectTag (oid, getId tag),
                            tagCount := ndel db.tagCount (getId tag) } tag,
        removed + 1) := by
  simp only [removeTagsStep, Except.bind, bind, hc]
  rw [if_pos h, if_neg (by omega : ¬ 0 > 0)]

theorem removeTagsStep_missing {oid : Nat} {E : List Nat} {db : DB} {removed : Nat}
    {tag : Obj} (h : getId tag ∈ E)
    (hc : nget db.tagCount (getId tag) = none) :
    removeTagsStep oid E (.ok (db, removed)) tag = .error .integrityFault := by
  simp only [removeTagsStep, Except.bind, bind, hc]
  rw [if_pos h]

theorem removeTagsStep_validX {db : DB} {oid removed : Nat} {E : List Nat} {tag : Obj}
    (hvx : ValidX db oid) (hE : getId tag ∈ E)
    (hrow : (oid, getId tag) ∈ db.objectTag) :
    ∃ db', removeTagsStep oid E (.ok (db, removed)) tag = .ok (db', removed + 1) ∧
      ValidX db' oid ∧
      db'.objectCount = db.objectCount ∧
      db'.objectTag = pdel db.objectTag (oid, getId tag) := by
  have heT : (getId tag, oid) ∈ db.tagObject := hvx.2.1.2 (oid, getId tag) hrow
  have hsome : (nget db.tagCount (getId tag)).isSome = true :=
    hvx.2.2.2.1 (getId tag, oid) heT
  rcases hg : nget db.tagCount (getId tag) with _ | c0
  · rw [hg] at hsome
    exact absurd hsome (by simp)
  · have hc0 : c0 = cntT db (getId tag) := by
      have := hvx.2.2.1 (getId tag, c0) (nget_mem hg)
      simpa using this
    have hposT : 0 < cntT db (getId tag) :=
      List.length_pos_of_mem (List.mem_filter.mpr ⟨heT, by simp⟩)
    obtain ⟨c, hc⟩ : ∃ c, c0 = c + 1 := ⟨c0 - 1, by omega⟩
    subst hc
    have hcntT2 : ∀ y, cntT db y =
        ((pdel db.tagObject (getId tag, oid)).filter
          (fun x => decide (x.1 = y))).length + (if y = getId tag then 1 else 0) := by
      intro y
      have hl := length_filter_pdel_mem (p := fun x => decide (x.1 = y)) hvx.1.1 heT
      rw [show cntT db y =
        (db.tagObject.filter (fun x => decide (x.1 = y))).length from rfl, hl]
      by_cases hy : y = getId tag
      · subst hy
        simp
      · have hy' : ¬ (getId tag = y) := fun h => hy h.symm
        simp [hy, hy']
    have hcntO2 : ∀ x, x ≠ oid →
        ((pdel db.objectTag (oid, getId tag)).filter
          (fun y => decide (y.1 = x))).length = cntO db x := by
      intro x hx
      have hnm : (oid, getId tag) ∉ db.objectTag.filter (fun y => decide (y.1 = x)) := by
        intro hmem
        have h2 := (List.mem_filter.mp hmem).2
        simp only [decide_eq_true_eq] at h2
        exact hx h2.symm
      rw [filter_pdel_comm, pdel_eq_self hnm]
      rfl
    have hsymPre : (∀ x ∈ pdel db.tagObject (getId tag, oid),
          (x.2, x.1) ∈ pdel db.objectTag (oid, getId tag)) ∧
        (∀ x ∈ pdel db.objectTag (oid, getId tag),
          (x.2, x.1) ∈ pdel db.tagObject (getId tag, oid)) := by
      constructor
      · intro x hx
        rcases mem_pdel.mp hx with ⟨hxT, hxne⟩
        refine mem_pdel.mpr ⟨hvx.2.1.1 x hxT, ?_⟩
        intro hswap
        apply hxne
        have h1 : x.2 = oid := congrArg Prod.fst hswap
        have h2 : x.1 = getId tag := congrArg Prod.snd hswap
        calc x = (x.1, x.2) := Prod.mk.eta.symm
          _ = (getId tag, oid) := by rw [h1, h2]
      · intro x hx
        rcases mem_pdel.mp hx with ⟨hxO, hxne⟩
        refine mem_pdel.mpr ⟨hvx.2.1.2 x hxO, ?_⟩
        intro hswap
        apply hxne
        have h1 : x.2 = getId tag := congrArg Prod.fst hswap
        have h2 : x.1 = oid := congrArg Prod.snd hswap
        calc x = (x.1, x.2) := Prod.mk.eta.symm
          _ = (oid, getId tag) := by rw [h1, h2]
    by_cases hcpos : 0 < c
    · refine ⟨_, removeTagsStep_dec hE hg hcpos, ?_, rfl, rfl⟩
      refine ⟨⟨WFp_pdel hvx.1.1 _, WFp_pdel hvx.1.2.1 _, hvx.1.2.2.1,
        WFn_nput hvx.1.2.2.2.1, hvx.1.2.2.2.2⟩, hsymPre, ?_, ?_, ?_, ?_⟩
      · intro x hx
        have hperm := nput_perm (k := getId tag) (v := c) hvx.1.2.2.2.1
        rcases List.mem_cons.mp (hperm.mem_iff.mp hx) with rfl | hx'
        · show c = ((pdel db.tagObject (getId tag, oid)).filter
            (fun x => decide (x.1 = getId tag))).length
          have := hcntT2 (getId tag)
          rw [if_pos rfl] at this
          omega
        · rcases mem_ndel.mp hx' with ⟨hmem', hne⟩
          have hy := hcntT2 x.1
          rw [if_neg hne, Nat.add_zero] at hy
          show x.2 = ((pdel db.tagObject (getId tag, oid)).filter
            (fun y => decide (y.1 = x.1))).length
          rw [← hy]
          exact hvx.2.2.1 x hmem'
      · intro x hx
        show (nget (nput db.tagCount (getId tag) c) x.1).isSome = true
        by_cases h1 : x.1 = getId tag
        · rw [h1, nget_nput_self hvx.1.2.2.2.1]
          rfl
        · rw [nget_nput_ne h1]
          exact hvx.2.2.2.1 x (mem_pdel.mp hx).1
      · intro x hx h1
        show x.2 = ((pdel db.objectTag (oid, getId tag)).filter
          (fun y => decide (y.1 = x.1))).length
        rw [hcntO2 x.1 h1]
        exact hvx.2.2.2.2.1 x hx h1
      · intro x hx h1
        exact hvx.2.2.2.2.2 x (mem_pdel.mp hx).1 h1
    · have hc1 : nget db.tagCount (getId tag) = some 1 := by
        rw [hg]
        congr 1
        omega
      refine ⟨_, removeTagsStep_last hE hc1, ?_, ?_, ?_⟩
      · have hwfPre : WFdb { db with
            tagObject := pdel db.tagObject (getId tag, oid),
            objectTag := pdel db.objectTag (oid, getId tag),
            tagCount := ndel db.tagCount (getId tag) } :=
          ⟨WFp_pdel hvx.1.1 _, WFp_pdel hvx.1.2.1 _, hvx.1.2.2.1,
            WFn_ndel hvx.1.2.2.2.1 _, hvx.1.2.2.2.2⟩
        have hfin := @srcDel_wfSym { db with
            tagObject := pdel db.tagObject (getId tag, oid),
            objectTag := pdel db.objectTag (oid, getId tag),
            tagCount := ndel db.tagCount (getId tag) } ⟨hwfPre, hsymPre⟩ tag
        have hzero : ((pdel db.tagObject (getId tag, oid)).filter
            (fun x => decide (x.1 = getId tag))).length = 0 := by
          have := hcntT2 (getId tag)
          rw [if_pos rfl] at this
          omega
        refine ⟨hfin.1, hfin.2, ?_, ?_, ?_, ?_⟩
        · intro x hx
          rw [srcDel_tagCount] at hx
          rcases mem_ndel.mp hx with ⟨hmem', hne⟩
          have hy := hcntT2 x.1
          rw [if_neg hne, Nat.add_zero] at hy
          show x.2 = cntT (srcDel _ tag) x.1
          rw [cntT_srcDel]
          show x.2 = ((pdel db.tagObject (getId tag, oid)).filter
            (fun y => decide (y.1 = x.1))).length
          rw [← hy]
          exact hvx.2.2.1 x hmem'
        · intro x hx
          rw [srcDel_tagObject] at hx
          by_cases h1 : x.1 = getId tag
          · exfalso
            have hxin : x ∈ (pdel db.tagObject (getId tag, oid)).filter
                (fun y => decide (y.1 = getId tag)) :=
              List.mem_filter.mpr ⟨hx, by simp [h1]⟩
            have := List.length_pos_of_mem hxin
            omega
          · show (nget (srcDel _ tag).tagCount x.1).isSome = true
            rw [srcDel_tagCount]
            show (nget (ndel db.tagCount (getId tag)) x.1).isSome = true
            rw [nget_ndel, if_neg h1]
            exact hvx.2.2.2.1 x (mem_pdel.mp hx).1
        · intro x hx h1
          rw [srcDel_objectCount] at hx
          show x.2 = cntO (srcDel _ tag) x.1
          rw [cntO_srcDel]
          show x.2 = ((pdel db.objectTag (oid, getId tag)).filter
            (fun y => decide (y.1 = x.1))).length
          rw [hcntO2 x.1 h1]
          exact hvx.2.2.2.2.1 x hx h1
        · intro x hx h1
          rw [srcDel_objectTag] at hx
          show (nget (srcDel _ tag).objectCount x.1).isSome = true
          rw [srcDel_objectCount]
          exact hvx.2.2.2.2.2 x (mem_pdel.mp hx).1 h1
      · rw [srcDel_objectCount]
      · rw [srcDel_objectTag]

theorem rmtFold_valid : ∀ (ts : List Obj) (db : DB) (oid removed : Nat) (E R : List Nat),
    ValidX db oid →
    (ts.map getId).Nodup →
    (∀ x ∈ ts, getId x ∉ R) →
    (∀ t, (oid, t) ∈ db.objectTag ↔ (t ∈ E ∧ t ∉ R)) →
    ∃ dbF, ts.foldl (removeTagsStep oid E) (.ok (db, removed)) =
        .ok (dbF, removed + ((ts.map getId).filter (fun t => decide (t ∈ E))).length) ∧
      ValidX dbF oid ∧ dbF.objectCount = db.objectCount ∧
      (∀ t, (oid, t) ∈ dbF.objectTag ↔ (t ∈ E ∧ t ∉ R ∧ t ∉ ts.map getId)) := by
  intro ts
  induction ts with
  | nil =>
    intro db oid removed E R hvx _ _ hrows
    refine ⟨db, by simp, hvx, rfl, ?_⟩
    intro t
    rw [hrows t]
    simp
  | cons a ts ih =>
    intro db oid removed E R hvx hnd hnpR hrows
    have hnd' : getId a ∉ ts.map getId ∧ (ts.map getId).Nodup := by
      rw [List.map_cons, List.nodup_cons] at hnd
      exact hnd
    rw [List.foldl_cons]
    by_cases hE : getId a ∈ E
    · have hrow := (hrows (getId a)).mpr ⟨hE, hnpR a (List.mem_cons_self _ _)⟩
      rcases @removeTagsStep_validX db oid removed E a hvx hE hrow with
        ⟨db', hstep, hvx', hOC', hOT'⟩
      rw [hstep]
      have hrows' : ∀ t, (oid, t) ∈ db'.objectTag ↔ (t ∈ E ∧ t ∉ (getId a :: R)) := by
        intro t
        rw [hOT', mem_pdel, hrows t]
        constructor
        · rintro ⟨⟨h1, h2⟩, h3⟩
          refine ⟨h1, ?_⟩
          intro hmem
          rcases List.mem_cons.mp hmem with rfl | hmem'
          · exact h3 rfl
          · exact h2 hmem'
        · rintro ⟨h1, h3⟩
          refine ⟨⟨h1, fun hR => h3 (List.mem_cons_of_mem _ hR)⟩, ?_⟩
          intro heq
          have ht : t = getId a := congrArg Prod.snd heq
          exact h3 (ht ▸ List.mem_cons_self _ _)
      have hnpR' : ∀ x ∈ ts, getId x ∉ (getId a :: R) := by
        intro x hx hmem
        rcases List.mem_cons.mp hmem with heq | hmem'
        · exact hnd'.1 (heq ▸ List.mem_map.mpr ⟨x, hx, rfl⟩)
        · exact hnpR x (List.mem_cons_of_mem _ hx) hmem'
      rcases ih db' oid (removed + 1) E (getId a :: R) hvx' hnd'.2 hnpR' hrows' with
        ⟨dbF, hfold, hvxF, hOCF, hrowsF⟩
      refine ⟨dbF, ?_, hvxF, by rw [hOCF, hOC'], ?_⟩
      · rw [hfold]
        have hcons : ((List.map getId (a :: ts)).filter
            (fun t => decide (t ∈ E))).length =
            ((List.map getId ts).filter (fun t => decide (t ∈ E))).length + 1 := by
          simp [List.filter_cons, hE]
        rw [hcons]
        exact congrArg (fun n => (Except.ok (dbF, n) : Except Err (DB × Nat)))
          (by omega)
      · intro t
        rw [hrowsF t]
        simp only [List.map_cons, List.mem_cons]
        constructor
        · rintro ⟨h1, h2, h3⟩
          exact ⟨h1, fun hR => h2 (Or.inr hR),
            fun hor => hor.elim (fun he => h2 (Or.inl he)) h3⟩
        · rintro ⟨h1, h2, h3⟩
          exact ⟨h1, fun hor => hor.elim (fun he => h3 (Or.inl he)) h2,
            fun ht => h3 (Or.inr ht)⟩
    · rw [removeTagsStep_skip hE]
      rcases ih db oid removed E R hvx hnd'.2
        (fun x hx => hnpR x (List.mem_cons_of_mem _ hx)) hrows with
        ⟨dbF, hfold, hvxF, hOCF, hrowsF⟩
      refine ⟨dbF, ?_, hvxF, hOCF, ?_⟩
      · rw [hfold]
        have hcons : ((List.map getId (a :: ts)).filter
            (fun t => decide (t ∈ E))).length =
            ((List.map getId ts).filter (fun t => decide (t ∈ E))).length := by
          simp [List.filter_cons, hE]
        rw [hcons]
      · intro t
        rw [hrowsF t]
        simp only [List.map_cons, List.mem_cons]
        constructor
        · rintro ⟨h1, h2, h3⟩
          exact ⟨h1, h2, fun hor => hor.elim (fun he => hE (he ▸ h1)) h3⟩
        · rintro ⟨h1, h2, h3⟩
          exact ⟨h1, h2, fun ht => h3 (Or.inr ht)⟩

theorem srcDel_idSource_self (db : DB) (d : List Nat) :
    nget (srcDel db (Obj.raw d)).idSource (idOfRaw d) = none := by
  show nget (ndel db.idSource (idOfRaw d)) (idOfRaw d) = none
  rw [nget_ndel, if_pos rfl]

theorem removeTags_unknown {db : DB} (o : Obj) (ts : List Obj)
    (hg : nget db.objectCount (getId o) = none) :
    removeTagsFromObject db o ts = .ok db := by
  simp only [removeTagsFromObject, hg]

/-- The full characterisation of `remove_tags_from_object` on a valid state,
a known object and a duplicate-free tag list: the call succeeds, the
invariant is preserved, and the final `object→count` / `id→source` handling
follows the number of actually-removed tags. -/
theorem removeTags_result {db : DB} (hv : Valid db) (o : Obj) (ts : List Obj)
    {n : Nat} (hk : nget db.objectCount (getId o) = some n)
    (hnd : (ts.map getId).Nodup) :
    ∃ db', removeTagsFromObject db o ts = .ok db' ∧ Valid db' ∧
      (((ts.map getId).filter (fun t => decide (t ∈ (getTags db o).dedup))).length =
          ((getTags db o).dedup).length →
        nget db'.objectCount (getId o) = none ∧
        (isRaw o = true → nget db'.idSource (getId o) = none)) ∧
      (((ts.map getId).filter (fun t => decide (t ∈ (getTags db o).dedup))).length ≠
          ((getTags db o).dedup).length →
        nget db'.objectCount (getId o) =
          some (((getTags db o).dedup).length -
            ((ts.map getId).filter
              (fun t => decide (t ∈ (getTags db o).dedup))).length)) := by
  have hEnodup : ((getTags db o).dedup).Nodup := List.nodup_dedup _
  have hrows0 : ∀ t, ((getId o), t) ∈ db.objectTag ↔
      (t ∈ (getTags db o).dedup ∧ t ∉ ([] : List Nat)) := by
    intro t
    rw [List.mem_dedup, mem_getTags_iff hv.1.2.1]
    simp
  rcases rmtFold_valid ts db (getId o) 0 ((getTags db o).dedup) []
    (valid_validX hv _) hnd (by simp) hrows0 with ⟨dbF, hfold, hvxF, hOCF, hrowsF⟩
  rw [Nat.zero_add] at hfold
  have hkle : ((ts.map getId).filter
      (fun t => decide (t ∈ (getTags db o).dedup))).length ≤
      ((getTags db o).dedup).length := by
    refine length_le_of_nodup_of_subset (hnd.filter _) hEnodup ?_
    intro t ht
    have := (List.mem_filter.mp ht).2
    simpa using this
  by_cases hcase : ((ts.map getId).filter
      (fun t => decide (t ∈ (getTags db o).dedup))).length =
      ((getTags db o).dedup).length
  · refine ⟨srcDel { dbF with objectCount := ndel dbF.objectCount (getId o) } o,
      ?_, ?_, ?_, fun hne => absurd hcase hne⟩
    · simp only [removeTagsFromObject, hk, hfold]
      rw [if_pos hcase]
    · refine srcDel_valid (validX_erase hvxF ?_) o
      intro t hmem
      have h2 := (hrowsF t).mp hmem
      apply h2.2.2
      have hfin : ((ts.map getId).filter
          (fun t => decide (t ∈ (getTags db o).dedup))).toFinset =
          ((getTags db o).dedup).toFinset := by
        refine Finset.eq_of_subset_of_card_le ?_ ?_
        · intro x hx
          have := (List.mem_filter.mp (List.mem_toFinset.mp hx)).2
          exact List.mem_toFinset.mpr (by simpa using this)
        · rw [List.toFinset_card_of_nodup hEnodup,
            List.toFinset_card_of_nodup (hnd.filter _)]
          omega
      have htF : t ∈ (ts.map getId).filter
          (fun t => decide (t ∈ (getTags db o).dedup)) :=
        List.mem_toFinset.mp (hfin ▸ List.mem_toFinset.mpr h2.1)
      exact (List.mem_filter.mp htF).1
    · intro _
      constructor
      · show nget (srcDel { dbF with
          objectCount := ndel dbF.objectCount (getId o) } o).objectCount
          (getId o) = none
        rw [srcDel_objectCount]
        show nget (ndel dbF.objectCount (getId o)) (getId o) = none
        rw [nget_ndel, if_pos rfl]
      · intro hraw
        cases o with
        | raw d => exact srcDel_idSource_self _ d
        | ident i => simp [isRaw] at hraw
  · have hklt : ((ts.map getId).filter
        (fun t => decide (t ∈ (getTags db o).dedup))).length <
        ((getTags db o).dedup).length := Nat.lt_of_le_of_ne hkle hcase
    refine ⟨{ dbF with objectCount := (nput dbF.objectCount (getId o)
        (((getTags db o).dedup).length - ((ts.map getId).filter
          (fun t => decide (t ∈ (getTags db o).dedup))).length)) },
      ?_, ?_, fun hceq => absurd hceq hcase, ?_⟩
    · simp only [removeTagsFromObject, hk, hfold]
      rw [if_neg hcase, if_pos hklt]
    · refine validX_restore hvxF ?_
      have hmemF : ∀ t, t ∈ getTags dbF o ↔
          (t ∈ (getTags db o).dedup ∧ t ∉ ts.map getId) := by
        intro t
        rw [mem_getTags_iff hvxF.1.2.1, hrowsF t]
        simp
      have hlen1 : (getTags dbF o).length =
          (((getTags db o).dedup).filter
            (fun t => !(decide (t ∈ ts.map getId)))).length := by
        refine length_eq_of_nodup_of_mem_iff (getTags_nodup hvxF.1.2.1 o)
          (hEnodup.filter _) ?_
        intro t
        rw [hmemF t]
        simp [List.mem_filter]
      have hlen2 : (((getTags db o).dedup).filter
          (fun t => decide (t ∈ ts.map getId))).length =
          ((ts.map getId).filter
            (fun t => decide (t ∈ (getTags db o).dedup))).length := by
        refine length_eq_of_nodup_of_mem_iff (hEnodup.filter _) (hnd.filter _) ?_
        intro t
        simp only [List.mem_filter, decide_eq_true_eq]
        exact and_comm
      have hlen3 := length_filter_not (fun t => decide (t ∈ ts.map getId))
        ((getTags db o).dedup)
      rw [← getTags_length hvxF.1.2.1 o, hlen1, hlen3, hlen2]
    · intro _
      show nget (nput dbF.objectCount (getId o) _) (getId o) = some _
      rw [nget_nput_self hvxF.1.2.2.2.2]

/-! ## Invariant preservation over whole traces -/

theorem applyOp_valid {db : DB} (hv : Valid db) (op : Op)
    (hnd : ((opTags op).map getId).Nodup) : Valid (applyOp db op) := by
  cases op with
  | ins o ts => exact insert_valid hv o ts hnd
  | rmo o =>
    rcases removeObject_valid hv o with ⟨db', heq, hv'⟩
    simp only [applyOp, heq]
    exact hv'
  | rmt o ts =>
    rcases hg : nget db.objectCount (getId o) with _ | n
    · simp only [applyOp, removeTags_unknown o ts hg]
      exact hv
    · rcases removeTags_result hv o ts hg hnd with ⟨db', heq, hv', _, _⟩
      simp only [applyOp, heq]
      exact hv'

theorem valid_empty : Valid DB.empty := by decide

/-- Every state reachable by a trace of duplicate-free tag lists satisfies
the full invariant. -/
theorem valid_runOps (ops : List Op) (hnd : NodupOps ops) : Valid (runOps ops) := by
  unfold runOps
  exact foldl_invariant (P := Valid) valid_empty
    (fun b' hb' a ha => applyOp_valid hb' a (hnd a ha))

/-! ## Claim C3: amended theorem -/

/-- Claim C3 (corrected): starting from the empty index, after every finite
sequence of calls whose tag lists have duplicate-free ids, a stored
`tag→count` record equals the number of `tag→object` keys with that leading
component, and a missing record forces that number to be zero.  (With
duplicate ids in a tag list the stored count corrupts, and the claimed
converse "count zero ⇒ record absent" fails even on duplicate-free traces
because `remove_object` stores decremented counts without erasing them at
zero — see the counterexample.) -/
theorem c3_tag_count_exact (ops : List Op) (hnd : NodupOps ops) (t : Nat) :
    nget (runOps ops).tagCount t = some (cntT (runOps ops) t) ∨
    (nget (runOps ops).tagCount t = none ∧ cntT (runOps ops) t = 0) := by
  have hv := valid_runOps ops hnd
  rcases hg : nget (runOps ops).tagCount t with _ | c
  · refine Or.inr ⟨rfl, ?_⟩
    by_contra hc
    have hpos : 0 < ((runOps ops).tagObject.filter
        (fun e => decide (e.1 = t))).length := Nat.pos_of_ne_zero hc
    rcases List.exists_mem_of_length_pos hpos with ⟨e, he⟩
    rcases List.mem_filter.mp he with ⟨hmem, hx⟩
    simp only [decide_eq_true_eq] at hx
    have hs := hv.2.2.2.1 e hmem
    rw [hx, hg] at hs
    simp at hs
  · refine Or.inl ?_
    have hc := hv.2.2.1 (t, c) (nget_mem hg)
    simp only at hc
    rw [hc]

/-- Witness for C3's amended theorem at a duplicate-free trace that leaves a
zero count stored for tag `2`. -/
theorem c3_tag_count_exact_witness :
    NodupOps [Op.ins (Obj.ident 1) [Obj.ident 2], Op.rmo (Obj.ident 1)] ∧
    (nget (runOps [Op.ins (Obj.ident 1) [Obj.ident 2],
          Op.rmo (Obj.ident 1)]).tagCount 2 =
        some (cntT (runOps [Op.ins (Obj.ident 1) [Obj.ident 2],
          Op.rmo (Obj.ident 1)]) 2) ∨
      (nget (runOps [Op.ins (Obj.ident 1) [Obj.ident 2],
          Op.rmo (Obj.ident 1)]).tagCount 2 = none ∧
        cntT (runOps [Op.ins (Obj.ident 1) [Obj.ident 2],
          Op.rmo (Obj.ident 1)]) 2 = 0)) :=
  ⟨by decide, c3_tag_count_exact
    [Op.ins (Obj.ident 1) [Obj.ident 2], Op.rmo (Obj.ident 1)] (by decide) 2⟩

/-! ## Claim C9: amended theorem -/

/-- Claim C9 (corrected): for a valid state, a known object `o` and a tag
list with duplicate-free ids, with `E` the tag set of `o` before the call
and `k` the number of tags actually removed (the passed ids lying in `E`),
the call succeeds; if `k = |E|` it erases `object→count[id o]` and, when `o`
is passed as the `Raw` variant, erases `id→source[id o]`; otherwise it sets
`object→count[id o]` to `|E| - k`.  (Without the duplicate-free proviso the
removal counter counts duplicate occurrences of one tag several times and
the claim fails — see the counterexample.) -/
theorem c9_remove_tags_final {db : DB} (hv : Valid db) (o : Obj) (ts : List Obj)
    {n : Nat} (hk : nget db.objectCount (getId o) = some n)
    (hnd : (ts.map getId).Nodup) :
    ∃ db', removeTagsFromObject db o ts = .ok db' ∧
      (((ts.map getId).filter (fun t => decide (t ∈ (getTags db o).dedup))).length =
          ((getTags db o).dedup).length →
        nget db'.objectCount (getId o) = none ∧
        (isRaw o = true → nget db'.idSource (getId o) = none)) ∧
      (((ts.map getId).filter (fun t => decide (t ∈ (getTags db o).dedup))).length ≠
          ((getTags db o).dedup).length →
        nget db'.objectCount (getId o) =
          some (((getTags db o).dedup).length -
            ((ts.map getId).filter
              (fun t => decide (t ∈ (getTags db o).dedup))).length)) := by
  rcases removeTags_result hv o ts hk hnd with ⟨db', h1, _, h3, h4⟩
  exact ⟨db', h1, h3, h4⟩

/-- Witness for C9's amended theorem: remove one of the two tags of the
known object `1`. -/
theorem c9_remove_tags_final_witness :
    Valid dbEx4 ∧
    nget dbEx4.objectCount (getId (Obj.ident 1)) = some 2 ∧
    (([Obj.ident 7] : List Obj).map getId).Nodup ∧
    (∃ db', removeTagsFromObject dbEx4 (Obj.ident 1) [Obj.ident 7] = .ok db' ∧
      (((([Obj.ident 7] : List Obj).map getId).filter
          (fun t => decide (t ∈ (getTags dbEx4 (Obj.ident 1)).dedup))).length =
          ((getTags dbEx4 (Obj.ident 1)).dedup).length →
        nget db'.objectCount (getId (Obj.ident 1)) = none ∧
        (isRaw (Obj.ident 1) = true →
          nget db'.idSource (getId (Obj.ident 1)) = none)) ∧
      (((([Obj.ident 7] : List Obj).map getId).filter
          (fun t => decide (t ∈ (getTags dbEx4 (Obj.ident 1)).dedup))).length ≠
          ((getTags dbEx4 (Obj.ident 1)).dedup).length →
        nget db'.objectCount (getId (Obj.ident 1)) =
          some (((getTags dbEx4 (Obj.ident 1)).dedup).length -
            ((([Obj.ident 7] : List Obj).map getId).filter
              (fun t => decide (t ∈ (getTags dbEx4 (Obj.ident 1)).dedup))).length))) :=
  ⟨by decide, by decide, by decide,
    @c9_remove_tags_final dbEx4 (by decide) (Obj.ident 1) [Obj.ident 7] 2
      (by decide) (by decide)⟩

/-! ## Claim C7: amended theorem -/

/-- Claim C7 (corrected): the `remove_tags_from_object` removal path does
surface the distinct integrity error when the `tag→count` record of a tag
being removed is missing; the `remove_object` path instead evaluates
`unwrap_or(0) - 1`, a `u32` subtraction overflow (panic in debug builds,
wrapped counter in release builds) — see the counterexample. -/
theorem c7_remove_tags_integrity {db : DB} (o tag : Obj) {n : Nat}
    (hk : nget db.objectCount (getId o) = some n)
    (hE : getId tag ∈ (getTags db o).dedup)
    (hc : nget db.tagCount (getId tag) = none) :
    removeTagsFromObject db o [tag] = .error .integrityFault := by
  have hfold : ([tag] : List Obj).foldl
      (removeTagsStep (getId o) ((getTags db o).dedup)) (.ok (db, 0)) =
      .error .integrityFault := by
    rw [List.foldl_cons, removeTagsStep_missing hE hc]
    rfl
  simp only [removeTagsFromObject, hk, hfold]

/-- Witness for C7's amended theorem in the handcrafted state `dbBad`. -/
theorem c7_remove_tags_integrity_witness :
    nget dbBad.objectCount (getId (Obj.ident 1)) = some 1 ∧
    getId (Obj.ident 2) ∈ (getTags dbBad (Obj.ident 1)).dedup ∧
    nget dbBad.tagCount (getId (Obj.ident 2)) = none ∧
    removeTagsFromObject dbBad (Obj.ident 1) [Obj.ident 2] =
      .error .integrityFault :=
  ⟨by decide, by decide, by decide,
    @c7_remove_tags_integrity dbBad (Obj.ident 1) (Obj.ident 2) 1
      (by decide) (by decide) (by decide)⟩

/-! ## Elementary lemmas for the leapfrog iterator -/

theorem inPref_nil (t : Nat) : inPref t [] = false := rfl

theorem inPref_cons (t : Nat) (v : Nat × Nat) (rest : List (Nat × Nat)) :
    inPref t (v :: rest) = decide (v.1 = t) := rfl

theorem curObj_cons (v : Nat × Nat) (rest : List (Nat × Nat)) :
    curObj (v :: rest) = v.2 := rfl

theorem inPref_head {t : Nat} {c : List (Nat × Nat)} (h : inPref t c = true) :
    ∃ v rest, c = v :: rest ∧ v.1 = t := by
  cases c with
  | nil => exact absurd h (by rw [inPref_nil]; simp)
  | cons v rest =>
    rw [inPref_cons] at h
    exact ⟨v, rest, rfl, by simpa using h⟩

theorem skipToGeq_cons (t b : Nat) (e : Nat × Nat) (rest : List (Nat × Nat)) :
    skipToGeq t b (e :: rest) =
      if e.2 < b then
        (match rest with
         | [] => none
         | e' :: _ => if e'.1 = t then skipToGeq t b rest else none)
      else some (e :: rest) := rfl

theorem skipToGeq_spec (t b : Nat) :
    ∀ (c c' : List (Nat × Nat)), skipToGeq t b c = some c' →
      (c' = c ∨ (inPref t c' = true ∧ c'.length < c.length)) ∧
      c' ≠ [] ∧ b ≤ curObj c' := by
  intro c
  induction c with
  | nil =>
    intro c' h
    exact absurd h (by simp [skipToGeq])
  | cons e rest ih =>
    intro c' h
    rw [skipToGeq_cons] at h
    by_cases hlt : e.2 < b
    · rw [if_pos hlt] at h
      cases rest with
      | nil => exact absurd h (by simp)
      | cons f rest' =>
        have h' : (if f.1 = t then skipToGeq t b (f :: rest') else none) = some c' := h
        by_cases ht : f.1 = t
        · rw [if_pos ht] at h'
          rcases ih c' h' with ⟨h1, h2, h3⟩
          refine ⟨?_, h2, h3⟩
          rcases h1 with rfl | ⟨hp, hl⟩
          · refine Or.inr ⟨?_, by simp⟩
            rw [inPref_cons]
            simp [ht]
          · exact Or.inr ⟨hp, Nat.lt_trans hl (by simp)⟩
        · rw [if_neg ht] at h'
          exact absurd h' (by simp)
    · rw [if_neg hlt] at h
      have hc : e :: rest = c' := by
        injection h
      subst hc
      exact ⟨Or.inl rfl, by simp, by rw [curObj_cons]; omega⟩

theorem getD_set_self {α : Type} (d : α) :
    ∀ (l : List α) (j : Nat) (c : α), j < l.length → (l.set j c).getD j d = c := by
  intro l
  induction l with
  | nil =>
    intro j c h
    simp at h
  | cons a t ih =>
    intro j c h
    cases j with
    | zero => rfl
    | succ j' =>
      show (t.set j' c).getD j' d = c
      exact ih j' c (by simpa using h)

theorem getD_set_ne {α : Type} (d : α) :
    ∀ (l : List α) (j j' : Nat) (c : α), j ≠ j' →
      (l.set j c).getD j' d = l.getD j' d := by
  intro l
  induction l with
  | nil =>
    intro j j' c _
    cases j <;> rfl
  | cons a t ih =>
    intro j j' c hne
    cases j with
    | zero =>
      cases j' with
      | zero => exact absurd rfl hne
      | succ m => rfl
    | succ m =>
      cases j' with
      | zero => rfl
      | succ m' =>
        show (t.set m c).getD m' d = t.getD m' d
        exact ih m m' c (fun he => hne (by rw [he]))

theorem getD_append_right_self {α : Type} (d : α) (l : List α) (c : α) :
    (l ++ [c]).getD l.length d = c := by
  induction l with
  | nil => rfl
  | cons a t ih => exact ih

theorem getD_append_left {α : Type} (d : α) :
    ∀ (l : List α) (c : α) (j : Nat), j < l.length →
      (l ++ [c]).getD j d = l.getD j d := by
  intro l
  induction l with
  | nil =>
    intro c j h
    simp at h
  | cons a t ih =>
    intro c j h
    cases j with
    | zero => rfl
    | succ m => exact ih c m (by simpa using h)

theorem sum_set_nat :
    ∀ (l : List Nat) (j : Nat) (m : Nat), j < l.length →
      (l.set j m).sum + l.getD j 0 = l.sum + m := by
  intro l
  induction l with
  | nil =>
    intro j m h
    simp at h
  | cons a t ih =>
    intro j m h
    cases j with
    | zero =>
      show m + t.sum + a = a + t.sum + m
      omega
    | succ j' =>
      show a + (t.set j' m).sum + t.getD j' 0 = a + t.sum + m
      have := ih j' m (by simpa using h)
      omega

theorem sum_map_length_le :
    ∀ (l : List (List (Nat × Nat))) (m : Nat),
      (∀ c ∈ l, c.length ≤ m) → (l.map List.length).sum ≤ l.length * m := by
  intro l
  induction l with
  | nil =>
    intro m _
    simp
  | cons a t ih =>
    intro m h
    have h1 := h a (List.mem_cons_self _ _)
    have h2 := ih m (fun c hc => h c (List.mem_cons_of_mem _ hc))
    simp only [List.map_cons, List.sum_cons, List.length_cons]
    have : (t.length + 1) * m = t.length * m + m := by ring
    omega

theorem curAt_getElem {s : LFState} {j : Nat} (h : j < s.cursors.length) :
    curAt s j = s.cursors[j] := by
  show s.cursors.getD j [] = s.cursors[j]
  rw [List.getD_eq_getElem?_getD, List.getElem?_eq_getElem h]
  rfl

theorem set_getD_self {α : Type} (d : α) :
    ∀ (l : List α) (j : Nat), j < l.length → l.set j (l.getD j d) = l := by
  intro l
  induction l with
  | nil =>
    intro j h
    simp at h
  | cons a t ih =>
    intro j h
    cases j with
    | zero => rfl
    | succ j' =>
      show a :: t.set j' (t.getD j' d) = a :: t
      rw [ih j' (by simpa using h)]

theorem map_length_set :
    ∀ (l : List (List (Nat × Nat))) (j : Nat) (c : List (Nat × Nat)),
      (l.set j c).map List.length = (l.map List.length).set j c.length := by
  intro l
  induction l with
  | nil => intro j c; cases j <;> rfl
  | cons a t ih =>
    intro j c
    cases j with
    | zero => rfl
    | succ j' =>
      show a.length :: (t.set j' c).map List.length =
        a.length :: (t.map List.length).set j' c.length
      rw [ih]

theorem getD_map_length :
    ∀ (l : List (List (Nat × Nat))) (j : Nat), j < l.length →
      (l.map List.length).getD j 0 = (l.getD j []).length := by
  intro l
  induction l with
  | nil =>
    intro j h
    simp at h
  | cons a t ih =>
    intro j h
    cases j with
    | zero => rfl
    | succ j' => exact ih j' (by simpa using h)

theorem piter_length_le (l : List (Nat × Nat)) (lb : Nat × Nat) :
    (piter l lb).length ≤ l.length := by
  unfold piter
  exact (List.dropWhile_sublist _).length_le

theorem lfPsi_le (ctx : LFCtx) (s : LFState) :
    lfPsi ctx s ≤ 2 * ctx.p.length + 2 := by
  unfold lfPsi
  by_cases h : lfChain s
  · rw [if_pos h]
    omega
  · rw [if_neg h]
    omega

theorem lfAlign_eq_none {ctx : LFCtx} {s : LFState}
    (h : skipToGeq (ctx.p.getD s.i2 0) (curObj (curAt s s.i1)) (curAt s s.i2) = none) :
    lfAlign ctx s = .inr ({ s with fin := true }, none) := by
  unfold lfAlign
  rw [h]

theorem lfAlign_eq_rotate {ctx : LFCtx} {s : LFState} {c2 : List (Nat × Nat)}
    (h : skipToGeq (ctx.p.getD s.i2 0) (curObj (curAt s s.i1)) (curAt s s.i2) = some c2)
    (hrot : curObj (curAt { s with cursors := s.cursors.set s.i2 c2 } s.i2) =
            curObj (curAt { s with cursors := s.cursors.set s.i2 c2 } s.i1)) :
    lfAlign ctx s =
      .inl { s with cursors := s.cursors.set s.i2 c2,
                    i1 := (s.i1 + 1) % ctx.p.length,
                    i2 := (s.i2 + 1) % ctx.p.length } := by
  simp only [lfAlign, h]
  rw [if_pos hrot]

theorem lfAlign_eq_reset_none {ctx : LFCtx} {s : LFState} {c2 : List (Nat × Nat)}
    (h : skipToGeq (ctx.p.getD s.i2 0) (curObj (curAt s s.i1)) (curAt s s.i2) = some c2)
    (hrot : ¬(curObj (curAt { s with cursors := s.cursors.set s.i2 c2 } s.i2) =
             curObj (curAt { s with cursors := s.cursors.set s.i2 c2 } s.i1)))
    (h0 : skipToGeq (ctx.p.getD 0 0)
        (curObj (curAt { s with cursors := s.cursors.set s.i2 c2 } s.i2))
        (curAt { s with cursors := s.cursors.set s.i2 c2 } 0) = none) :
    lfAlign ctx s = .inr ({ s with cursors := s.cursors.set s.i2 c2, fin := true },
      none) := by
  simp only [lfAlign, h]
  rw [if_neg hrot, h0]

theorem lfAlign_eq_reset {ctx : LFCtx} {s : LFState} {c2 c0 : List (Nat × Nat)}
    (h : skipToGeq (ctx.p.getD s.i2 0) (curObj (curAt s s.i1)) (curAt s s.i2) = some c2)
    (hrot : ¬(curObj (curAt { s with cursors := s.cursors.set s.i2 c2 } s.i2) =
             curObj (curAt { s with cursors := s.cursors.set s.i2 c2 } s.i1)))
    (h0 : skipToGeq (ctx.p.getD 0 0)
        (curObj (curAt { s with cursors := s.cursors.set s.i2 c2 } s.i2))
        (curAt { s with cursors := s.cursors.set s.i2 c2 } 0) = some c0) :
    lfAlign ctx s =
      .inl { s with cursors := (s.cursors.set s.i2 c2).set 0 c0,
                    i1 := 0, i2 := 1 } := by
  simp only [lfAlign, h]
  rw [if_neg hrot, h0]

theorem LFInv_run (ctx : LFCtx) (L : List (List (Nat × Nat))) (a b : Nat) (f : Bool)
    (hn : 2 ≤ ctx.p.length)
    (h1 : 1 ≤ L.length) (h2 : L.length ≤ ctx.p.length) (h3 : a < L.length)
    (h4 : b = (a + 1) % ctx.p.length)
    (h5 : ∀ j, j < L.length → inPref (ctx.p.getD j 0) (L.getD j []) = true ∧
      (L.getD j []).length ≤ ctx.T.length) :
    LFInv ctx ⟨L, a, b, f⟩ :=
  ⟨hn, fun _ => Or.inr ⟨h1, h2, h3, h4, fun j hj => h5 j hj⟩⟩

theorem lfChain_zero {s : LFState} (h : s.i1 = 0) : lfChain s := by
  intro j hj
  rw [h] at hj
  have hj0 : j = 0 := Nat.le_zero.mp hj
  rw [hj0]

theorem allEq_of_chain {ctx : LFCtx} {s : LFState}
    (hpref : ∀ j, j < s.cursors.length → inPref (ctx.p.getD j 0) (curAt s j) = true)
    (hchain : ∀ j, j < s.cursors.length → curObj (curAt s j) = curObj (curAt s 0)) :
    allEq s = true := by
  unfold allEq
  rw [List.all_eq_true]
  intro c hc
  rcases List.mem_iff_getElem.mp hc with ⟨j, hj, hcj⟩
  have hcur : curAt s j = c := by rw [curAt_getElem hj, hcj]
  rcases inPref_head (hcur ▸ hpref j hj) with ⟨v, rest, hvc, _⟩
  have hobj := hchain j hj
  rw [hcur, hvc] at hobj
  rw [hvc]
  show decide (v.2 = curObj (curAt s 0)) = true
  rw [curObj_cons] at hobj
  simp [hobj]

theorem headD_eq_getD {α : Type} (l : List α) (d : α) : l.headD d = l.getD 0 d := by
  cases l <;> rfl

theorem lfEmit_fst (ctx : LFCtx) (s : LFState) :
    (lfEmit ctx s).1 =
      { s with cursors := s.cursors.set 0 (curAt s 0).tail,
               fin := !(inPref (ctx.p.headD 0) (curAt s 0).tail) } := rfl

theorem lfEmit_inv {ctx : LFCtx} {s : LFState} (hinv : LFInv ctx s)
    (hfin : s.fin = false)
    (hlen : s.cursors.length = ctx.p.length) :
    LFInv ctx (lfEmit ctx s).1 := by
  have hn := hinv.1
  rcases hinv.2 hfin with ⟨hc0, _, _⟩ | ⟨h1, h2, h3, h4, h5⟩
  · rw [hc0] at hlen
    simp at hlen
    omega
  · rw [lfEmit_fst]
    refine ⟨hn, ?_⟩
    intro hf
    have hpref0 : inPref (ctx.p.headD 0) (curAt s 0).tail = true := by
      have hf2 : (!(inPref (ctx.p.headD 0) (curAt s 0).tail)) = false := hf
      revert hf2
      cases inPref (ctx.p.headD 0) (curAt s 0).tail
      · intro hh
        exact absurd hh (by simp)
      · intro _
        rfl
    have h0len : 0 < s.cursors.length := by omega
    refine Or.inr ⟨?_, ?_, ?_, h4, ?_⟩
    · show 1 ≤ (s.cursors.set 0 (curAt s 0).tail).length
      rw [List.length_set]
      omega
    · show (s.cursors.set 0 (curAt s 0).tail).length ≤ ctx.p.length
      rw [List.length_set]
      exact h2
    · show s.i1 < (s.cursors.set 0 (curAt s 0).tail).length
      rw [List.length_set]
      exact h3
    · intro j hj
      have hjlen : j < s.cursors.length := by
        have hj2 : j < (s.cursors.set 0 (curAt s 0).tail).length := hj
        rwa [List.length_set] at hj2
      by_cases hj0 : j = 0
      · constructor
        · show inPref (ctx.p.getD j 0)
            ((s.cursors.set 0 (curAt s 0).tail).getD j []) = true
          rw [hj0, getD_set_self [] s.cursors 0 _ h0len]
          rw [headD_eq_getD] at hpref0
          exact hpref0
        · show ((s.cursors.set 0 (curAt s 0).tail).getD j []).length ≤ ctx.T.length
          rw [hj0, getD_set_self [] s.cursors 0 _ h0len]
          have hb := (h5 0 h0len).2
          rw [List.length_tail]
          omega
      · constructor
        · show inPref (ctx.p.getD j 0)
            ((s.cursors.set 0 (curAt s 0).tail).getD j []) = true
          rw [getD_set_ne [] s.cursors 0 j _ (fun he => hj0 he.symm)]
          exact (h5 j hjlen).1
        · show ((s.cursors.set 0 (curAt s 0).tail).getD j []).length ≤ ctx.T.length
          rw [getD_set_ne [] s.cursors 0 j _ (fun he => hj0 he.symm)]
          exact (h5 j hjlen).2

theorem lfStep_eq_emit {ctx : LFCtx} {s : LFState}
    (h : (decide (s.cursors.length = ctx.p.length) && allEq s) = true) :
    lfStep ctx s = .inr (lfEmit ctx s) := by
  unfold lfStep
  rw [if_pos h]

theorem lfStep_eq_c1none {ctx : LFCtx} {s : LFState}
    (hne : (decide (s.cursors.length = ctx.p.length) && allEq s) = false)
    (h1 : lfCreate1 ctx s = none) :
    lfStep ctx s = .inr ({ s with fin := true }, none) := by
  unfold lfStep
  rw [if_neg (by rw [hne]; simp), h1]

theorem lfStep_eq_c2none {ctx : LFCtx} {s s1 : LFState}
    (hne : (decide (s.cursors.length = ctx.p.length) && allEq s) = false)
    (h1 : lfCreate1 ctx s = some s1)
    (h2 : lfCreate2 ctx s1 = none) :
    lfStep ctx s = .inr ({ s1 with fin := true }, none) := by
  unfold lfStep
  rw [if_neg (by rw [hne]; simp)]
  simp only [h1, h2]

theorem lfStep_eq_align {ctx : LFCtx} {s s1 s2 : LFState}
    (hne : (decide (s.cursors.length = ctx.p.length) && allEq s) = false)
    (h1 : lfCreate1 ctx s = some s1)
    (h2 : lfCreate2 ctx s1 = some s2) :
    lfStep ctx s = lfAlign ctx s2 := by
  unfold lfStep
  rw [if_neg (by rw [hne]; simp)]
  simp only [h1, h2]

theorem lfCreate1_skip {ctx : LFCtx} {s : LFState}
    (h : s.i1 < s.cursors.length) : lfCreate1 ctx s = some s := by
  unfold lfCreate1
  have hc : (decide (s.cursors.length < ctx.p.length) &&
      decide (s.cursors.length ≤ s.i1)) = false := by
    have h2 : decide (s.cursors.length ≤ s.i1) = false := by
      rw [decide_eq_false_iff_not]
      omega
    rw [h2, Bool.and_false]
  rw [if_neg (by rw [hc]; simp)]

theorem lfCreate2_skip {ctx : LFCtx} {s : LFState}
    (h : ¬(s.cursors.length < ctx.p.length ∧ s.cursors.length ≤ s.i2)) :
    lfCreate2 ctx s = some s := by
  unfold lfCreate2
  have hc : (decide (s.cursors.length < ctx.p.length) &&
      decide (s.cursors.length ≤ s.i2)) = false := by
    by_cases h1 : s.cursors.length < ctx.p.length
    · have h2 : decide (s.cursors.length ≤ s.i2) = false := by
        rw [decide_eq_false_iff_not]
        exact fun hle => h ⟨h1, hle⟩
      rw [h2, Bool.and_false]
    · rw [decide_eq_false h1, Bool.false_and]
  rw [if_neg (by rw [hc]; simp)]

theorem length_tail_le {α : Type} (l : List α) : l.tail.length ≤ l.length := by
  rw [List.length_tail]
  omega

theorem lfCreate1_fresh_cases {ctx : LFCtx} {s : LFState} (hc : s.cursors = [])
    (hn2 : 0 < ctx.p.length) :
    lfCreate1 ctx s = none ∨
    ∃ c, lfCreate1 ctx s = some { s with cursors := [c] } ∧
      inPref (ctx.p.getD s.i1 0) c = true ∧ c.length ≤ ctx.T.length := by
  have hcond : (decide (s.cursors.length < ctx.p.length) &&
      decide (s.cursors.length ≤ s.i1)) = true := by
    rw [hc]
    simp [hn2]
  simp only [lfCreate1]
  rw [if_pos hcond]
  repeat' split
  all_goals first
    | exact Or.inl rfl
    | (rename_i hp
       refine Or.inr ⟨_, by rw [hc]; rfl, hp, ?_⟩
       first
         | exact piter_length_le _ _
         | exact Nat.le_trans (length_tail_le _) (piter_length_le _ _))

theorem lfCreate2_cases {ctx : LFCtx} {s : LFState}
    (h1 : s.cursors.length < ctx.p.length) (h2 : s.cursors.length ≤ s.i2) :
    lfCreate2 ctx s = none ∨
    ∃ c, lfCreate2 ctx s = some { s with cursors := s.cursors ++ [c] } ∧
      inPref (ctx.p.getD s.i2 0) c = true ∧ c.length ≤ ctx.T.length := by
  simp only [lfCreate2]
  rw [if_pos (by simp [h1, h2])]
  split
  case isTrue hp => exact Or.inr ⟨_, rfl, hp, piter_length_le _ _⟩
  case isFalse => exact Or.inl rfl

/-- One pass through the alignment tail either strictly reduces the cursor
work, or keeps it and reduces the secondary measure, or could only have been
reached past a positive emission test; and the invariant is preserved. -/
theorem lfAlign_term {ctx : LFCtx} {s : LFState}
    (hn : 2 ≤ ctx.p.length)
    (hfin : s.fin = false)
    (hlen1 : 1 ≤ s.cursors.length)
    (hlenn : s.cursors.length ≤ ctx.p.length)
    (hi1 : s.i1 < s.cursors.length)
    (hi2 : s.i2 < s.cursors.length)
    (hi2eq : s.i2 = (s.i1 + 1) % ctx.p.length)
    (hitems : ∀ j, j < s.cursors.length →
      inPref (ctx.p.getD j 0) (curAt s j) = true ∧
      (curAt s j).length ≤ ctx.T.length) :
    (∀ s', lfAlign ctx s = .inl s' → LFInv ctx s' ∧ s'.fin = false ∧
      (lfW ctx s' < lfW ctx s ∨
        (lfW ctx s' = lfW ctx s ∧
          (lfPsi ctx s' < lfPsi ctx s ∨
            (decide (s.cursors.length = ctx.p.length) && allEq s) = true)))) ∧
    (∀ s' r, lfAlign ctx s = .inr (s', r) → LFInv ctx s') := by
  have hne12 : s.i1 ≠ s.i2 := by
    rw [hi2eq]
    intro he
    rcases Nat.lt_or_ge (s.i1 + 1) ctx.p.length with hw | hw
    · rw [Nat.mod_eq_of_lt hw] at he
      omega
    · have heq1 : s.i1 + 1 = ctx.p.length := by omega
      rw [heq1, Nat.mod_self] at he
      omega
  rcases hskip : skipToGeq (ctx.p.getD s.i2 0) (curObj (curAt s s.i1)) (curAt s s.i2)
    with _ | c2
  · rw [lfAlign_eq_none hskip]
    constructor
    · intro s' h
      exact Sum.noConfusion h
    · intro s' r h
      have h2 : ({ s with fin := true }, (none : Option Nat)) = (s', r) := by
        injection h
      have h3 : { s with fin := true } = s' := congrArg Prod.fst h2
      rw [← h3]
      refine ⟨hn, ?_⟩
      intro hf
      exact absurd hf (by simp)
  · rcases skipToGeq_spec _ _ _ _ hskip with ⟨hc2cases, hc2ne, hc2ge⟩
    have hLrec : ∀ j, j ≠ s.i2 →
        curAt { s with cursors := s.cursors.set s.i2 c2 } j = curAt s j := by
      intro j hj
      show (s.cursors.set s.i2 c2).getD j [] = s.cursors.getD j []
      exact getD_set_ne [] s.cursors s.i2 j c2 (fun he => hj he.symm)
    have hcur2 : curAt { s with cursors := s.cursors.set s.i2 c2 } s.i2 = c2 := by
      show (s.cursors.set s.i2 c2).getD s.i2 [] = c2
      exact getD_set_self [] s.cursors s.i2 c2 hi2
    have hcur1 : curAt { s with cursors := s.cursors.set s.i2 c2 } s.i1 = curAt s s.i1 :=
      hLrec s.i1 hne12
    have hc2len : c2.length ≤ (curAt s s.i2).length := by
      rcases hc2cases with heq | ⟨_, hl⟩
      · rw [heq]
      · exact Nat.le_of_lt hl
    have hc2pref : inPref (ctx.p.getD s.i2 0) c2 = true := by
      rcases hc2cases with heq | ⟨hp, _⟩
      · rw [heq]
        exact (hitems s.i2 hi2).1
      · exact hp
    have hWset : ∀ (a b : Nat) (f : Bool),
        lfW ctx ⟨s.cursors.set s.i2 c2, a, b, f⟩ + (curAt s s.i2).length =
          lfW ctx s + c2.length := by
      intro a b f
      show ((s.cursors.set s.i2 c2).map List.length).sum +
          (ctx.p.length - (s.cursors.set s.i2 c2).length) * (ctx.T.length + 1) +
          (curAt s s.i2).length =
        (s.cursors.map List.length).sum +
          (ctx.p.length - s.cursors.length) * (ctx.T.length + 1) + c2.length
      rw [map_length_set, List.length_set,
        show curAt s s.i2 = s.cursors.getD s.i2 [] from rfl]
      have hs := sum_set_nat (s.cursors.map List.length) s.i2 c2.length
        (by rw [List.length_map]; exact hi2)
      rw [getD_map_length s.cursors s.i2 hi2] at hs
      omega
    have hitems2 : ∀ j, j < (s.cursors.set s.i2 c2).length →
        inPref (ctx.p.getD j 0) ((s.cursors.set s.i2 c2).getD j []) = true ∧
        ((s.cursors.set s.i2 c2).getD j []).length ≤ ctx.T.length := by
      intro j hj
      rw [List.length_set] at hj
      by_cases hji2 : j = s.i2
      · rw [hji2, getD_set_self [] s.cursors s.i2 c2 hi2]
        refine ⟨hc2pref, ?_⟩
        exact Nat.le_trans hc2len (hitems s.i2 hi2).2
      · rw [getD_set_ne [] s.cursors s.i2 j c2 (fun he => hji2 he.symm)]
        exact hitems j hj
    by_cases hrot : curObj (curAt { s with cursors := s.cursors.set s.i2 c2 } s.i2) =
        curObj (curAt { s with cursors := s.cursors.set s.i2 c2 } s.i1)
    · rw [lfAlign_eq_rotate hskip hrot]
      refine ⟨?_, ?_⟩
      swap
      · intro s' r h
        exact Sum.noConfusion h
      intro s' h
      have hs' : { s with cursors := s.cursors.set s.i2 c2,
                          i1 := (s.i1 + 1) % ctx.p.length,
                          i2 := (s.i2 + 1) % ctx.p.length } = s' := by
        injection h
      rw [← hs']
      have hi1' : (s.i1 + 1) % ctx.p.length < (s.cursors.set s.i2 c2).length := by
        rw [List.length_set]
        rcases Nat.lt_or_ge (s.i1 + 1) ctx.p.length with hw | hw
        · rw [Nat.mod_eq_of_lt hw]
          have hw2 := hi2eq
          rw [Nat.mod_eq_of_lt hw] at hw2
          omega
        · have heq1 : s.i1 + 1 = ctx.p.length := by omega
          rw [heq1, Nat.mod_self]
          omega
      refine ⟨LFInv_run ctx _ _ _ _ hn
        (by rw [List.length_set]; exact hlen1)
        (by rw [List.length_set]; exact hlenn)
        hi1'
        (by rw [hi2eq])
        hitems2,
        hfin, ?_⟩
      rcases hc2cases with heq | ⟨_, hshort⟩
      · have hL2eq : s.cursors.set s.i2 c2 = s.cursors := by
          rw [heq]
          exact set_getD_self [] s.cursors s.i2 hi2
        have hWeq : lfW ctx ⟨s.cursors.set s.i2 c2, (s.i1 + 1) % ctx.p.length,
            (s.i2 + 1) % ctx.p.length, s.fin⟩ = lfW ctx s := by
          show ((s.cursors.set s.i2 c2).map List.length).sum +
              (ctx.p.length - (s.cursors.set s.i2 c2).length) * (ctx.T.length + 1) =
            (s.cursors.map List.length).sum +
              (ctx.p.length - s.cursors.length) * (ctx.T.length + 1)
          rw [hL2eq]
        refine Or.inr ⟨hWeq, ?_⟩
        have hobj2 : curObj (curAt s s.i2) = curObj (curAt s s.i1) := by
          have h1 := hrot
          rw [hcur2, hcur1, heq] at h1
          exact h1
        by_cases hchain : lfChain s
        · rcases Nat.lt_or_ge (s.i1 + 1) ctx.p.length with hw | hw
          · refine Or.inl ?_
            have hchain' : lfChain ⟨s.cursors.set s.i2 c2,
                (s.i1 + 1) % ctx.p.length, (s.i2 + 1) % ctx.p.length, s.fin⟩ := by
              intro j hj
              have hj2 : j ≤ (s.i1 + 1) % ctx.p.length := hj
              rw [Nat.mod_eq_of_lt hw] at hj2
              show curObj ((s.cursors.set s.i2 c2).getD j []) =
                curObj ((s.cursors.set s.i2 c2).getD 0 [])
              rw [hL2eq]
              rcases Nat.lt_or_ge j (s.i1 + 1) with hj' | hj'
              · exact hchain j (by omega)
              · have hji : j = s.i1 + 1 := by omega
                have hi2eq' : s.i2 = s.i1 + 1 := by
                  rw [hi2eq, Nat.mod_eq_of_lt hw]
                rw [hji, ← hi2eq']
                show curObj (curAt s s.i2) = curObj (curAt s 0)
                rw [hobj2]
                exact hchain s.i1 (Nat.le_refl _)
            show lfPsi ctx _ < lfPsi ctx s
            unfold lfPsi
            rw [if_pos hchain', if_pos hchain]
            show ctx.p.length - (s.i1 + 1) % ctx.p.length + 0 <
              ctx.p.length - s.i1 + 0
            rw [Nat.mod_eq_of_lt hw]
            omega
          · refine Or.inr ?_
            have hlenN : s.cursors.length = ctx.p.length := by omega
            have hall : allEq s = true := by
              refine allEq_of_chain (fun j hj => (hitems j hj).1) ?_
              intro j hj
              exact hchain j (by omega)
            rw [hall, hlenN]
            simp
        · refine Or.inl ?_
          show lfPsi ctx _ < lfPsi ctx s
          unfold lfPsi
          rw [if_neg hchain]
          rcases Nat.lt_or_ge (s.i1 + 1) ctx.p.length with hw | hw
          · by_cases hch' : lfChain ⟨s.cursors.set s.i2 c2,
                (s.i1 + 1) % ctx.p.length, (s.i2 + 1) % ctx.p.length, s.fin⟩
            · rw [if_pos hch']
              show ctx.p.length - (s.i1 + 1) % ctx.p.length + 0 <
                ctx.p.length - s.i1 + (ctx.p.length + 2)
              rw [Nat.mod_eq_of_lt hw]
              omega
            · rw [if_neg hch']
              show ctx.p.length - (s.i1 + 1) % ctx.p.length + (ctx.p.length + 2) <
                ctx.p.length - s.i1 + (ctx.p.length + 2)
              rw [Nat.mod_eq_of_lt hw]
              omega
          · have heq1 : s.i1 + 1 = ctx.p.length := by omega
            have hch' : lfChain ⟨s.cursors.set s.i2 c2,
                (s.i1 + 1) % ctx.p.length, (s.i2 + 1) % ctx.p.length, s.fin⟩ := by
              refine lfChain_zero ?_
              show (s.i1 + 1) % ctx.p.length = 0
              rw [heq1, Nat.mod_self]
            rw [if_pos hch']
            show ctx.p.length - (s.i1 + 1) % ctx.p.length + 0 <
              ctx.p.length - s.i1 + (ctx.p.length + 2)
            rw [heq1, Nat.mod_self]
            omega
      · refine Or.inl ?_
        have hW := hWset ((s.i1 + 1) % ctx.p.length) ((s.i2 + 1) % ctx.p.length) s.fin
        omega
    · rcases hskip0 : skipToGeq (ctx.p.getD 0 0)
          (curObj (curAt { s with cursors := s.cursors.set s.i2 c2 } s.i2))
          (curAt { s with cursors := s.cursors.set s.i2 c2 } 0) with _ | c0
      · rw [lfAlign_eq_reset_none hskip hrot hskip0]
        refine ⟨?_, ?_⟩
        · intro s' h
          exact Sum.noConfusion h
        · intro s' r h
          have h2 : ({ s with cursors := s.cursors.set s.i2 c2, fin := true },
              (none : Option Nat)) = (s', r) := by
            injection h
          have h3 : { s with cursors := s.cursors.set s.i2 c2, fin := true } = s' :=
            congrArg Prod.fst h2
          rw [← h3]
          refine ⟨hn, ?_⟩
          intro hf
          exact absurd hf (by simp)
      · rw [lfAlign_eq_reset hskip hrot hskip0]
        refine ⟨?_, ?_⟩
        swap
        · intro s' r h
          exact Sum.noConfusion h
        intro s' h
        have hs' : { s with cursors := (s.cursors.set s.i2 c2).set 0 c0,
                            i1 := 0, i2 := 1 } = s' := by
          injection h
        rw [← hs']
        rcases skipToGeq_spec _ _ _ _ hskip0 with ⟨hc0cases, hc0ne, hc0ge⟩
        have h0len : 0 < (s.cursors.set s.i2 c2).length := by
          rw [List.length_set]
          omega
        have hc0len : c0.length ≤ ((s.cursors.set s.i2 c2).getD 0 []).length := by
          rcases hc0cases with heq | ⟨_, hl⟩
          · rw [heq]
            exact Nat.le_refl _
          · exact Nat.le_of_lt hl
        have hc0pref : inPref (ctx.p.getD 0 0) c0 = true := by
          rcases hc0cases with heq | ⟨hp, _⟩
          · rw [heq]
            show inPref (ctx.p.getD 0 0)
              ((s.cursors.set s.i2 c2).getD 0 []) = true
            exact (hitems2 0 h0len).1
          · exact hp
        have hitems3 : ∀ j, j < ((s.cursors.set s.i2 c2).set 0 c0).length →
            inPref (ctx.p.getD j 0)
              (((s.cursors.set s.i2 c2).set 0 c0).getD j []) = true ∧
            (((s.cursors.set s.i2 c2).set 0 c0).getD j []).length ≤ ctx.T.length := by
          intro j hj
          rw [List.length_set] at hj
          by_cases hj0 : j = 0
          · rw [hj0, getD_set_self [] _ 0 c0 h0len]
            refine ⟨hc0pref, ?_⟩
            exact Nat.le_trans hc0len (hitems2 0 h0len).2
          · rw [getD_set_ne [] _ 0 j c0 (fun he => hj0 he.symm)]
            exact hitems2 j hj
        refine ⟨LFInv_run ctx _ _ _ _ hn
          (by rw [List.length_set, List.length_set]; exact hlen1)
          (by rw [List.length_set, List.length_set]; exact hlenn)
          (by rw [List.length_set]; exact h0len)
          (by rw [Nat.mod_eq_of_lt (show 1 < ctx.p.length by omega)])
          hitems3, hfin, ?_⟩
        have hW2 : lfW ctx ⟨(s.cursors.set s.i2 c2).set 0 c0, 0, 1, s.fin⟩ +
            ((s.cursors.set s.i2 c2).getD 0 []).length =
            lfW ctx ⟨s.cursors.set s.i2 c2, 0, 1, s.fin⟩ + c0.length := by
          show (((s.cursors.set s.i2 c2).set 0 c0).map List.length).sum +
              (ctx.p.length - ((s.cursors.set s.i2 c2).set 0 c0).length) *
                (ctx.T.length + 1) +
              ((s.cursors.set s.i2 c2).getD 0 []).length =
            ((s.cursors.set s.i2 c2).map List.length).sum +
              (ctx.p.length - (s.cursors.set s.i2 c2).length) * (ctx.T.length + 1) +
              c0.length
          rw [map_length_set, List.length_set]
          have hs := sum_set_nat ((s.cursors.set s.i2 c2).map List.length) 0 c0.length
            (by rw [List.length_map]; exact h0len)
          rw [getD_map_length _ 0 h0len] at hs
          omega
        have hW1 := hWset 0 1 s.fin
        rcases hc2cases with heq2 | ⟨_, hshort2⟩
        · rcases hc0cases with heq0 | ⟨_, hshort0⟩
          · have hL2eq : s.cursors.set s.i2 c2 = s.cursors := by
              rw [heq2]
              exact set_getD_self [] s.cursors s.i2 hi2
            have hL3eq : (s.cursors.set s.i2 c2).set 0 c0 = s.cursors := by
              rw [heq0]
              have hset0 := set_getD_self [] (s.cursors.set s.i2 c2) 0 h0len
              show (s.cursors.set s.i2 c2).set 0
                ((s.cursors.set s.i2 c2).getD 0 []) = s.cursors
              rw [hset0, hL2eq]
            have hWeq : lfW ctx ⟨(s.cursors.set s.i2 c2).set 0 c0, 0, 1, s.fin⟩ =
                lfW ctx s := by
              show (((s.cursors.set s.i2 c2).set 0 c0).map List.length).sum +
                  (ctx.p.length - ((s.cursors.set s.i2 c2).set 0 c0).length) *
                    (ctx.T.length + 1) =
                (s.cursors.map List.length).sum +
                  (ctx.p.length - s.cursors.length) * (ctx.T.length + 1)
              rw [hL3eq]
            refine Or.inr ⟨hWeq, ?_⟩
            by_cases hchain : lfChain s
            · exfalso
              apply hrot
              rw [hcur2, hcur1]
              have hobj1 : curObj (curAt s s.i1) = curObj (curAt s 0) :=
                hchain s.i1 (Nat.le_refl _)
              by_cases hz : s.i2 = 0
              · rw [heq2, hz]
                exact hobj1.symm
              · have hC0 : curAt { s with cursors := s.cursors.set s.i2 c2 } 0 =
                    curAt s 0 := hLrec 0 (fun he => hz he.symm)
                have hle1 := hc0ge
                rw [heq0, hC0, hcur2] at hle1
                omega
            · refine Or.inl ?_
              show lfPsi ctx _ < lfPsi ctx s
              unfold lfPsi
              rw [if_neg hchain]
              have hchain' : lfChain
                  ⟨(s.cursors.set s.i2 c2).set 0 c0, 0, 1, s.fin⟩ :=
                lfChain_zero rfl
              rw [if_pos hchain']
              show ctx.p.length - 0 + 0 <
                ctx.p.length - s.i1 + (ctx.p.length + 2)
              omega
          · refine Or.inl ?_
            have hshort0' : c0.length <
                ((s.cursors.set s.i2 c2).getD 0 []).length := hshort0
            have hc2eq : c2.length = (curAt s s.i2).length := by rw [heq2]
            omega
        · refine Or.inl ?_
          omega

theorem mu_lt_of_W_lt {ctx : LFCtx} {s' s : LFState}
    (h : lfW ctx s' < lfW ctx s) : lfMu ctx s' < lfMu ctx s := by
  unfold lfMu
  have hpsi := lfPsi_le ctx s'
  obtain ⟨V, hV⟩ : ∃ V, lfW ctx s = V + 1 := ⟨lfW ctx s - 1, by omega⟩
  have hle : lfW ctx s' ≤ V := by omega
  have h1 : (2 * ctx.p.length + 4) * lfW ctx s' ≤ (2 * ctx.p.length + 4) * V :=
    Nat.mul_le_mul_left _ hle
  rw [hV]
  have h2 : (2 * ctx.p.length + 4) * (V + 1) =
      (2 * ctx.p.length + 4) * V + (2 * ctx.p.length + 4) := by ring
  omega

theorem mu_lt_of_W_eq_psi_lt {ctx : LFCtx} {s' s : LFState}
    (hW : lfW ctx s' = lfW ctx s) (hpsi : lfPsi ctx s' < lfPsi ctx s) :
    lfMu ctx s' < lfMu ctx s := by
  unfold lfMu
  rw [hW]
  omega

theorem lfW_append {ctx : LFCtx} {s2 s : LFState} {c : List (Nat × Nat)}
    (h : s2.cursors = s.cursors ++ [c])
    (hlen : s.cursors.length < ctx.p.length)
    (hc : c.length ≤ ctx.T.length) :
    lfW ctx s2 + 1 ≤ lfW ctx s := by
  unfold lfW
  rw [h]
  simp only [List.map_append, List.sum_append, List.length_append,
    List.map_cons, List.map_nil, List.sum_cons, List.sum_nil,
    List.length_cons, List.length_nil, Nat.zero_add, Nat.add_zero]
  have hsplit : (ctx.p.length - s.cursors.length) * (ctx.T.length + 1) =
      (ctx.p.length - (s.cursors.length + 1)) * (ctx.T.length + 1) +
        (ctx.T.length + 1) := by
    obtain ⟨m, hm⟩ : ∃ m, ctx.p.length - s.cursors.length = m + 1 :=
      ⟨ctx.p.length - s.cursors.length - 1, by omega⟩
    have hm2 : ctx.p.length - (s.cursors.length + 1) = m := by omega
    rw [hm, hm2]
    ring
  omega

/-- One iteration of the leapfrog loop preserves the invariant, and every
continuing iteration strictly decreases the measure `lfMu`. -/
theorem lfStep_term {ctx : LFCtx} {s : LFState}
    (hinv : LFInv ctx s) (hfin : s.fin = false) :
    (∀ s', lfStep ctx s = .inl s' → LFInv ctx s' ∧ s'.fin = false ∧
      lfMu ctx s' < lfMu ctx s) ∧
    (∀ s' r, lfStep ctx s = .inr (s', r) → LFInv ctx s') := by
  have hn := hinv.1
  cases hB : (decide (s.cursors.length = ctx.p.length) && allEq s) with
  | true =>
    have hstep := lfStep_eq_emit (s := s) hB
    constructor
    · intro s' h
      rw [hstep] at h
      exact Sum.noConfusion h
    · intro s' r h
      rw [hstep] at h
      injection h with h2
      have hlen : s.cursors.length = ctx.p.length :=
        of_decide_eq_true ((Bool.and_eq_true _ _).mp hB).1
      have h3 : (lfEmit ctx s).1 = s' := congrArg Prod.fst h2
      rw [← h3]
      exact lfEmit_inv hinv hfin hlen
  | false =>
    rcases hinv.2 hfin with ⟨hc0, hi10, hi20⟩ | ⟨h1, h2, h3, h4, h5⟩
    · rcases @lfCreate1_fresh_cases ctx s hc0 (by omega) with hC1 | ⟨c, hC1, hcp, hcl⟩
      · have hstep := lfStep_eq_c1none hB hC1
        constructor
        · intro s' h
          rw [hstep] at h
          exact Sum.noConfusion h
        · intro s' r h
          rw [hstep] at h
          injection h with h2
          have h3 : ({ s with fin := true } : LFState) = s' := congrArg Prod.fst h2
          rw [← h3]
          exact ⟨hn, fun hf => absurd hf (by simp)⟩
      · rcases @lfCreate2_cases ctx { s with cursors := [c] }
            (by show (1 : Nat) < ctx.p.length; omega)
            (by show (1 : Nat) ≤ s.i2; omega) with hC2 | ⟨c', hC2, hcp', hcl'⟩
        · have hstep := lfStep_eq_c2none hB hC1 hC2
          constructor
          · intro s' h
            rw [hstep] at h
            exact Sum.noConfusion h
          · intro s' r h
            rw [hstep] at h
            injection h with h2
            have h3 : ({ { s with cursors := [c] } with fin := true } : LFState) = s' :=
              congrArg Prod.fst h2
            rw [← h3]
            exact ⟨hn, fun hf => absurd hf (by simp)⟩
        · have hstep : lfStep ctx s = lfAlign ctx ⟨[c, c'], s.i1, s.i2, s.fin⟩ :=
            lfStep_eq_align hB hC1 hC2
          have hWa : lfW ctx ⟨[c], s.i1, s.i2, s.fin⟩ + 1 ≤ lfW ctx s :=
            lfW_append (by rw [hc0]; rfl)
              (by rw [hc0]; show (0 : Nat) < ctx.p.length; omega) hcl
          have hWb : lfW ctx ⟨[c, c'], s.i1, s.i2, s.fin⟩ + 1 ≤
              lfW ctx ⟨[c], s.i1, s.i2, s.fin⟩ :=
            lfW_append rfl (by show (1 : Nat) < ctx.p.length; omega) hcl'
          have hterm := @lfAlign_term ctx ⟨[c, c'], s.i1, s.i2, s.fin⟩ hn hfin
            (by show (1 : Nat) ≤ 2; omega)
            (by show (2 : Nat) ≤ ctx.p.length; omega)
            (by show s.i1 < 2; omega)
            (by show s.i2 < 2; omega)
            (by show s.i2 = (s.i1 + 1) % ctx.p.length
                rw [hi10, hi20, Nat.mod_eq_of_lt (by omega)])
            (by intro j hj
                have hj2 : j < 2 := hj
                match j, hj2 with
                | 0, _ =>
                  have hcp0 : inPref (ctx.p.getD s.i1 0) c = true := hcp
                  rw [hi10] at hcp0
                  exact ⟨hcp0, hcl⟩
                | 1, _ =>
                  have hcp1 : inPref (ctx.p.getD s.i2 0) c' = true := hcp'
                  rw [hi20] at hcp1
                  exact ⟨hcp1, hcl'⟩)
          constructor
          · intro s' h
            rw [hstep] at h
            rcases hterm.1 s' h with ⟨hinv', hfin', hdisj⟩
            refine ⟨hinv', hfin', ?_⟩
            have hWlt : lfW ctx s' < lfW ctx s := by
              rcases hdisj with hlt | ⟨heq, _⟩ <;> omega
            exact mu_lt_of_W_lt hWlt
          · intro s' r h
            rw [hstep] at h
            exact hterm.2 s' r h
    · have hC1 := @lfCreate1_skip ctx s h3
      by_cases hc2c : s.cursors.length < ctx.p.length ∧ s.cursors.length ≤ s.i2
      · rcases @lfCreate2_cases ctx s hc2c.1 hc2c.2 with hC2 | ⟨c, hC2, hcp, hcl⟩
        · have hstep := lfStep_eq_c2none hB hC1 hC2
          constructor
          · intro s' h
            rw [hstep] at h
            exact Sum.noConfusion h
          · intro s' r h
            rw [hstep] at h
            injection h with h2
            have h3' : ({ s with fin := true } : LFState) = s' := congrArg Prod.fst h2
            rw [← h3']
            exact ⟨hn, fun hf => absurd hf (by simp)⟩
        · have hstep : lfStep ctx s =
              lfAlign ctx ⟨s.cursors ++ [c], s.i1, s.i2, s.fin⟩ :=
            lfStep_eq_align hB hC1 hC2
          have hmod : s.i2 = s.i1 + 1 := by
            rw [h4]
            exact Nat.mod_eq_of_lt (by omega)
          have hi2eqv : s.i2 = s.cursors.length := by omega
          have hWc : lfW ctx ⟨s.cursors ++ [c], s.i1, s.i2, s.fin⟩ + 1 ≤ lfW ctx s :=
            lfW_append rfl hc2c.1 hcl
          have hterm := @lfAlign_term ctx ⟨s.cursors ++ [c], s.i1, s.i2, s.fin⟩ hn hfin
            (by show (1 : Nat) ≤ (s.cursors ++ [c]).length
                rw [List.length_append]
                show (1 : Nat) ≤ s.cursors.length + 1
                omega)
            (by show (s.cursors ++ [c]).length ≤ ctx.p.length
                rw [List.length_append]
                show s.cursors.length + 1 ≤ ctx.p.length
                omega)
            (by show s.i1 < (s.cursors ++ [c]).length
                rw [List.length_append]
                show s.i1 < s.cursors.length + 1
                omega)
            (by show s.i2 < (s.cursors ++ [c]).length
                rw [List.length_append]
                show s.i2 < s.cursors.length + 1
                omega)
            h4
            (by intro j hj
                have hj2 : j < s.cursors.length + 1 := by
                  rw [List.length_append] at hj
                  exact hj
                by_cases hjL : j < s.cursors.length
                · show inPref (ctx.p.getD j 0) ((s.cursors ++ [c]).getD j []) = true ∧
                    ((s.cursors ++ [c]).getD j []).length ≤ ctx.T.length
                  rw [getD_append_left [] s.cursors c j hjL]
                  exact h5 j hjL
                · have hjv : j = s.cursors.length := by omega
                  show inPref (ctx.p.getD j 0) ((s.cursors ++ [c]).getD j []) = true ∧
                    ((s.cursors ++ [c]).getD j []).length ≤ ctx.T.length
                  rw [hjv, getD_append_right_self [] s.cursors c, ← hi2eqv]
                  exact ⟨hcp, hcl⟩)
          constructor
          · intro s' h
            rw [hstep] at h
            rcases hterm.1 s' h with ⟨hinv', hfin', hdisj⟩
            refine ⟨hinv', hfin', ?_⟩
            have hWlt : lfW ctx s' < lfW ctx s := by
              rcases hdisj with hlt | ⟨heq, _⟩ <;> omega
            exact mu_lt_of_W_lt hWlt
          · intro s' r h
            rw [hstep] at h
            exact hterm.2 s' r h
      · have hC2 := lfCreate2_skip hc2c
        have hstep := lfStep_eq_align hB hC1 hC2
        have hi2lt : s.i2 < s.cursors.length := by
          by_cases hln : s.cursors.length < ctx.p.length
          · have hni : ¬ (s.cursors.length ≤ s.i2) := fun hle => hc2c ⟨hln, hle⟩
            omega
          · have hlev : s.cursors.length = ctx.p.length := by omega
            rw [h4, hlev]
            exact Nat.mod_lt _ (by omega)
        have hterm := @lfAlign_term ctx s hn hfin h1 h2 h3 hi2lt h4 h5
        constructor
        · intro s' h
          rw [hstep] at h
          rcases hterm.1 s' h with ⟨hinv', hfin', hdisj⟩
          refine ⟨hinv', hfin', ?_⟩
          rcases hdisj with hlt | ⟨heq, hdisj2⟩
          · exact mu_lt_of_W_lt hlt
          · rcases hdisj2 with hpsi | hcontra
            · exact mu_lt_of_W_eq_psi_lt heq hpsi
            · rw [hB] at hcontra
              exact Bool.noConfusion hcontra
        · intro s' r h
          rw [hstep] at h
          exact hterm.2 s' r h

theorem lfLoop_succ (ctx : LFCtx) (s : LFState) (f : Nat) :
    lfLoop ctx s (f + 1) = match lfStep ctx s with
      | .inl s' => lfLoop ctx s' f
      | .inr r => some r := rfl

theorem lfLoop_term {ctx : LFCtx} :
    ∀ (fuel : Nat) (s : LFState), LFInv ctx s → s.fin = false →
      lfMu ctx s < fuel →
      ∃ s' r, lfLoop ctx s fuel = some (s', r) ∧ LFInv ctx s' := by
  intro fuel
  induction fuel with
  | zero =>
    intro s _ _ hlt
    exact absurd hlt (Nat.not_lt_zero _)
  | succ f ih =>
    intro s hinv hfin hlt
    have hterm := lfStep_term hinv hfin
    rcases hstep : lfStep ctx s with s1 | ⟨s1, r⟩
    · rcases hterm.1 s1 hstep with ⟨hinv1, hfin1, hmu⟩
      rcases ih s1 hinv1 hfin1 (by omega) with ⟨s', r, hloop, hinv'⟩
      refine ⟨s', r, ?_, hinv'⟩
      rw [lfLoop_succ, hstep]
      exact hloop
    · refine ⟨s1, r, ?_, hterm.2 s1 r hstep⟩
      rw [lfLoop_succ, hstep]

theorem lfW_le {ctx : LFCtx} {s : LFState} (hinv : LFInv ctx s)
    (hfin : s.fin = false) :
    lfW ctx s ≤ ctx.p.length * (ctx.T.length + 1) := by
  rcases hinv.2 hfin with ⟨hc0, _, _⟩ | ⟨h1, h2, h3, h4, h5⟩
  · unfold lfW
    rw [hc0]
    simp only [List.map_nil, List.sum_nil, List.length_nil, Nat.zero_add,
      Nat.sub_zero]
    exact Nat.le_refl _
  · unfold lfW
    have hsum : (s.cursors.map List.length).sum ≤
        s.cursors.length * ctx.T.length := by
      apply sum_map_length_le
      intro c hc
      rcases List.mem_iff_getElem.mp hc with ⟨j, hj, hcj⟩
      have hl := (h5 j hj).2
      rw [curAt_getElem hj, hcj] at hl
      exact hl
    obtain ⟨m, hm⟩ : ∃ m, ctx.p.length = s.cursors.length + m :=
      ⟨ctx.p.length - s.cursors.length, by omega⟩
    rw [hm, Nat.add_sub_cancel_left]
    have hexp : (s.cursors.length + m) * (ctx.T.length + 1) =
        s.cursors.length * ctx.T.length + s.cursors.length +
          m * (ctx.T.length + 1) := by
      ring
    omega

theorem lfMu_lt_fuel {ctx : LFCtx} {s : LFState} (hinv : LFInv ctx s)
    (hfin : s.fin = false) : lfMu ctx s < lfInnerFuel ctx := by
  have hn := hinv.1
  have hW := lfW_le hinv hfin
  have hpsi := lfPsi_le ctx s
  unfold lfMu lfInnerFuel
  have h1 : (2 * ctx.p.length + 4) * lfW ctx s ≤
      (2 * ctx.p.length + 4) * (ctx.p.length * (ctx.T.length + 1)) :=
    Nat.mul_le_mul_left _ hW
  have h2 : (2 * ctx.p.length + 4) * (ctx.p.length * (ctx.T.length + 1)) ≤
      (3 * ctx.p.length + 12) * ((ctx.p.length + 1) * (ctx.T.length + 2)) :=
    Nat.mul_le_mul (by omega) (Nat.mul_le_mul (by omega) (by omega))
  have h3 : (3 * ctx.p.length + 12) *
        ((ctx.p.length + 1) * (ctx.T.length + 2) + ctx.p.length + 20) =
      (3 * ctx.p.length + 12) * ((ctx.p.length + 1) * (ctx.T.length + 2)) +
        (3 * ctx.p.length + 12) * (ctx.p.length + 20) := by
    ring
  have h4 : 2 * ctx.p.length + 2 <
      (3 * ctx.p.length + 12) * (ctx.p.length + 20) := by
    have h5 : (3 * ctx.p.length + 12) * (ctx.p.length + 20) =
        3 * (ctx.p.length * ctx.p.length) + 72 * ctx.p.length + 240 := by
      ring
    omega
  omega

theorem lfNext_term {ctx : LFCtx} {s : LFState} (hinv : LFInv ctx s) :
    ∃ s' r, lfNext ctx s (lfInnerFuel ctx) = some (s', r) ∧ LFInv ctx s' := by
  unfold lfNext
  cases hf : s.fin with
  | true =>
    rw [if_pos rfl]
    exact ⟨s, none, rfl, hinv⟩
  | false =>
    rw [if_neg (by simp)]
    exact lfLoop_term (lfInnerFuel ctx) s hinv hf (lfMu_lt_fuel hinv hf)

/-- C6 (counterexample to the mechanism clause): on the context `search db6
[1,2,3] [] none` builds, the first `next()` call yields object `5` and leaves
the iterator in a state from which the next loop iteration rotates the index
pair `(index_1, index_2)` without advancing any cursor and without returning:
the cursor vector of the continuation state is identical. Termination itself
holds (see the claim theorem), but not for the reason the claim gives. -/
theorem c6_counterexample :
    lfNext ctx6 lfStart (lfInnerFuel ctx6) =
      some (⟨[[(3, 9)], [(2, 5), (2, 9), (3, 5), (3, 9)],
              [(1, 5), (1, 9), (2, 5), (2, 9), (3, 5), (3, 9)]], 2, 0, false⟩,
            some 5) ∧
    lfStep ctx6 ⟨[[(3, 9)], [(2, 5), (2, 9), (3, 5), (3, 9)],
              [(1, 5), (1, 9), (2, 5), (2, 9), (3, 5), (3, 9)]], 2, 0, false⟩ =
      .inl ⟨[[(3, 9)], [(2, 5), (2, 9), (3, 5), (3, 9)],
              [(1, 5), (1, 9), (2, 5), (2, 9), (3, 5), (3, 9)]], 0, 1, false⟩ :=
  ⟨rfl, rfl⟩

/-- C6: every `next()` call on the leapfrog iterator terminates — from any
state satisfying the iterator invariant `LFInv` (the fresh state `search`
builds satisfies it, and every continuation state returned by `next`
preserves it), the loop returns within the computable fuel `lfInnerFuel`.
The proof uses a composite measure on cursor work and the rotation phase,
not the claim's per-iteration cursor-advance argument, which is false. -/
theorem c6_leapfrog_terminates {ctx : LFCtx} {s : LFState}
    (hinv : LFInv ctx s) :
    ∃ s' r, lfNext ctx s (lfInnerFuel ctx) = some (s', r) ∧ LFInv ctx s' :=
  lfNext_term hinv

/-- Witness: the terminating first `next()` call on the concrete context
`ctx6` from the fresh iterator state. -/
theorem c6_leapfrog_terminates_witness :
    LFInv ctx6 lfStart ∧
    (∃ s' r, lfNext ctx6 lfStart (lfInnerFuel ctx6) = some (s', r) ∧
      LFInv ctx6 s') :=
  ⟨by decide, c6_leapfrog_terminates (by decide)⟩

/-! ## Pagination of the scan strategies (claim C2) -/

theorem dropWhile_eq_self_of_head {α : Type} (p : α → Bool) :
    ∀ l : List α, (∀ e ∈ l, p e = false) → l.dropWhile p = l := by
  intro l
  cases l with
  | nil => intro _; rfl
  | cons a rest =>
    intro h
    rw [List.dropWhile_cons, if_neg (by rw [h a (List.mem_cons_self _ _)]; simp)]

theorem niter_zero {α : Type} (l : List (Nat × α)) : niter l 0 = l := by
  unfold niter
  cases l with
  | nil => rfl
  | cons a rest => rw [List.dropWhile_cons, if_neg (by simp)]

/-- Dropping the physical entry `(k, c)` from the `Included k` scan leaves
exactly the entries with key greater than `k` (sortedness). -/
theorem niter_drop_one {α : Type} (k : Nat) (c : α) :
    ∀ l : List (Nat × α), WFn l → (k, c) ∈ l →
      (niter l k).drop 1 = l.filter (fun e => decide (k < e.1)) := by
  intro l
  induction l with
  | nil =>
    intro _ hmem
    exact absurd hmem (List.not_mem_nil _)
  | cons a rest ih =>
    intro hwf hmem
    rcases List.pairwise_cons.mp hwf with ⟨hhead, hrest⟩
    unfold niter
    rcases List.mem_cons.mp hmem with heq | hmem'
    · have hak : a.1 = k := by rw [← heq]
      rw [List.dropWhile_cons, if_neg (by simp [hak]), List.filter_cons,
        if_neg (by simp [hak])]
      show rest = rest.filter (fun e => decide (k < e.1))
      symm
      rw [List.filter_eq_self]
      intro e he
      have hlt := hhead e he
      rw [hak] at hlt
      simp [hlt]
    · have hak : a.1 < k := hhead (k, c) hmem'
      rw [List.dropWhile_cons, if_pos (by simp [hak]), List.filter_cons,
        if_neg (by simp only [decide_eq_true_eq]; omega)]
      exact ih hrest hmem'

/-- In the `|present| = 1` scan, starting at the physical posting `(t, k)`
and dropping it leaves exactly the in-prefix postings with object greater
than `k`. -/
theorem piter_run_filter (t k : Nat) :
    ∀ T : List (Nat × Nat), WFp T → (t, k) ∈ T →
      ((piter T (t, k)).drop 1).takeWhile (fun e => decide (e.1 = t)) =
        ((piter T (t, 0)).takeWhile (fun e => decide (e.1 = t))).filter
          (fun e => decide (k < e.2)) := by
  intro T
  induction T with
  | nil =>
    intro _ hmem
    exact absurd hmem (List.not_mem_nil _)
  | cons a rest ih =>
    intro hwf hmem
    rcases List.pairwise_cons.mp hwf with ⟨hhead, hrest⟩
    unfold piter
    by_cases h0 : plt a (t, 0)
    · have hne : a ≠ (t, k) := by
        intro he
        have h1 := plt_zero.mp h0
        rw [he] at h1
        exact absurd h1 (Nat.lt_irrefl t)
      have hmem' : (t, k) ∈ rest := by
        rcases List.mem_cons.mp hmem with he | h
        · exact absurd he.symm hne
        · exact h
      have hltk : plt a (t, k) := Or.inl (plt_zero.mp h0)
      rw [List.dropWhile_cons, if_pos (by simpa using hltk),
        List.dropWhile_cons, if_pos (by simpa using h0)]
      exact ih hrest hmem'
    · have ha1 : t ≤ a.1 := by
        rcases Nat.lt_or_ge a.1 t with h | h
        · exact absurd (plt_zero.mpr h) h0
        · exact h
      rcases plt_cases a (t, k) with hlt | heq | hgt
      · have hat : a.1 = t ∧ a.2 < k := by
          rcases hlt with h | h
          · have h' : a.1 < t := h
            omega
          · exact ⟨h.1, h.2⟩
        have hne : a ≠ (t, k) := by
          intro he
          rw [he] at hlt
          exact plt_irrefl _ hlt
        have hmem' : (t, k) ∈ rest := by
          rcases List.mem_cons.mp hmem with he | h
          · exact absurd he.symm hne
          · exact h
        have hpr : List.dropWhile (fun e => decide (plt e (t, 0))) rest = rest := by
          apply dropWhile_eq_self_of_head
          intro e he
          have hae := hhead e he
          simp only [decide_eq_false_iff_not]
          intro hp
          have h1 := plt_zero.mp hp
          rcases hae with h | h
          · omega
          · have h2 : a.1 = e.1 := h.1
            omega
        rw [List.dropWhile_cons, if_pos (by simpa using hlt),
          List.dropWhile_cons, if_neg (by simpa using h0),
          List.takeWhile_cons, if_pos (by simp [hat.1]),
          List.filter_cons, if_neg (by simp only [decide_eq_true_eq]; omega)]
        have hIH := ih hrest hmem'
        have hpr' : piter rest (t, 0) = rest := hpr
        rw [hpr'] at hIH
        exact hIH
      · rw [List.dropWhile_cons, if_neg (by
            simp only [decide_eq_true_eq]
            rw [heq]
            exact plt_irrefl _),
          List.dropWhile_cons, if_neg (by simpa using h0)]
        show rest.takeWhile (fun e => decide (e.1 = t)) = _
        rw [List.takeWhile_cons, if_pos (by rw [heq]; simp),
          List.filter_cons, if_neg (by rw [heq]; simp)]
        symm
        rw [List.filter_eq_self]
        intro e he
        have hetw := List.mem_takeWhile_imp he
        have herest : e ∈ rest := (List.takeWhile_sublist _).subset he
        have hplt := hhead e herest
        rw [heq] at hplt
        have het : e.1 = t := by simpa using hetw
        simp only [decide_eq_true_eq]
        rcases hplt with h | h
        · have h' : t < e.1 := h
          omega
        · exact h.2
      · exfalso
        rcases List.mem_cons.mp hmem with he | h
        · rw [← he] at hgt
          exact plt_irrefl _ hgt
        · exact (plt_asymm (hhead (t, k) h)) hgt

theorem map_fst_filter (k : Nat) :
    ∀ l : List (Nat × Nat),
      (l.filter (fun e => decide (k < e.1))).map (fun e => e.1) =
        (l.map (fun e => e.1)).filter (fun o => decide (k < o)) := by
  intro l
  induction l with
  | nil => rfl
  | cons a rest ih =>
    by_cases hp : k < a.1
    · rw [List.filter_cons, if_pos (by simpa using hp), List.map_cons,
        List.map_cons, List.filter_cons, if_pos (by simpa using hp), ih]
    · rw [List.filter_cons, if_neg (by simpa using hp), List.map_cons,
        List.filter_cons, if_neg (by simpa using hp), ih]

theorem map_snd_filter (k : Nat) :
    ∀ l : List (Nat × Nat),
      (l.filter (fun e => decide (k < e.2))).map (fun e => e.2) =
        (l.map (fun e => e.2)).filter (fun o => decide (k < o)) := by
  intro l
  induction l with
  | nil => rfl
  | cons a rest ih =>
    by_cases hp : k < a.2
    · rw [List.filter_cons, if_pos (by simpa using hp), List.map_cons,
        List.map_cons, List.filter_cons, if_pos (by simpa using hp), ih]
    · rw [List.filter_cons, if_neg (by simpa using hp), List.map_cons,
        List.filter_cons, if_neg (by simpa using hp), ih]

theorem filter_swap {α : Type} (p q : α → Bool) (l : List α) :
    (l.filter q).filter p = (l.filter p).filter q := by
  rw [List.filter_filter, List.filter_filter]
  apply List.filter_congr
  intro a _
  rw [Bool.and_comm]

/-- `|present| = 0` pagination under the physical-entry proviso. -/
theorem searchZero_pagination {db : DB} {A : List Nat} {k c : Nat}
    (hwf : WFn db.objectCount) (hmem : (k, c) ∈ db.objectCount) :
    searchZero db A (some k) =
      (searchZero db A none).filter (fun o => decide (k < o)) := by
  have e1 : searchZero db A (some k) =
      (((niter db.objectCount k).drop 1).map (fun e => e.1)).filter
        (absentOk db.tagObject A) := rfl
  have e2 : searchZero db A none =
      ((db.objectCount.map (fun e => e.1))).filter (absentOk db.tagObject A) := by
    show (((niter db.objectCount 0).drop 0).map (fun e => e.1)).filter
        (absentOk db.tagObject A) = _
    rw [niter_zero, List.drop_zero]
  rw [e1, e2, niter_drop_one k c db.objectCount hwf hmem, map_fst_filter,
    filter_swap]

/-- `|present| = 1` pagination under the physical-posting proviso. -/
theorem searchOne_pagination {db : DB} {t : Nat} {A : List Nat} {k : Nat}
    (hwf : WFp db.tagObject) (hmem : (t, k) ∈ db.tagObject) :
    searchOne db t A (some k) =
      (searchOne db t A none).filter (fun o => decide (k < o)) := by
  have e1 : searchOne db t A (some k) =
      ((((piter db.tagObject (t, k)).drop 1).takeWhile
          (fun e => decide (e.1 = t))).map (fun e => e.2)).filter
        (absentOk db.tagObject A) := rfl
  have e2 : searchOne db t A none =
      (((piter db.tagObject (t, 0)).takeWhile (fun e => decide (e.1 = t))).map
        (fun e => e.2)).filter (absentOk db.tagObject A) := by
    show ((((piter db.tagObject (t, 0)).drop 0).takeWhile
        (fun e => decide (e.1 = t))).map (fun e => e.2)).filter
        (absentOk db.tagObject A) = _
    rw [List.drop_zero]
  rw [e1, e2, piter_run_filter t k db.tagObject hwf hmem, map_snd_filter,
    filter_swap]

/-- C2 (amended): for the scan strategies, pagination is exactly the
strictly-greater-than filter of the unpaginated result, provided
`start_after` is the key of a physical entry of the scanned (sorted) table:
an `object→count` record for `|present| = 0`, a `(t, start_after)` posting
for `|present| = 1`. For a non-physical `start_after` the skip-one-entry
logic wrongly drops the first qualifying object, and for `|present| ≥ 2` the
relation fails even at physical keys (the counterexample; the unpaginated
leapfrog baseline is truncated by the C1 defect). -/
theorem c2_pagination_physical (db : DB) (absentTags : List Obj) (k : Nat) :
    ((∃ c, (k, c) ∈ db.objectCount) → WFn db.objectCount →
      search db [] absentTags (some k) =
        (search db [] absentTags none).filter (fun o => decide (k < o))) ∧
    (∀ t : Obj, WFp db.tagObject → (getId t, k) ∈ db.tagObject →
      search db [t] absentTags (some k) =
        (search db [t] absentTags none).filter (fun o => decide (k < o))) := by
  constructor
  · intro hex hwf
    rcases hex with ⟨c, hmem⟩
    exact searchZero_pagination hwf hmem
  · intro t hwf hmem
    exact searchOne_pagination hwf hmem

/-- Witness: both scan strategies at concrete physical keys — object key `5`
of `dbEx2` and posting `(7, 1)` of `dbEx4`. -/
theorem c2_pagination_physical_witness :
    ((5, 0) ∈ dbEx2.objectCount ∧ WFn dbEx2.objectCount ∧
      search dbEx2 [] [] (some 5) =
        (search dbEx2 [] [] none).filter (fun o => decide (5 < o))) ∧
    ((7, 1) ∈ dbEx4.tagObject ∧ WFp dbEx4.tagObject ∧
      search dbEx4 [Obj.ident 7] [] (some 1) =
        (search dbEx4 [Obj.ident 7] [] none).filter (fun o => decide (1 < o))) :=
  ⟨⟨by decide, by decide,
      (c2_pagination_physical dbEx2 [] 5).1 ⟨0, by decide⟩ (by decide)⟩,
   ⟨by decide, by decide,
      (c2_pagination_physical dbEx4 [] 1).2 (Obj.ident 7) (by decide) (by decide)⟩⟩

end Dream
